import Mathlib

/-!
# Verification of the pysat netCDF metadata codec (`pysat/utils/io.py`)

Shallow embedding of the metadata-aware codec in `src/pysat/utils/io.py`:
value filtering (`filter_netcdf4_metadata`), the standards overlay
(`add_netcdf4_standards_to_metadict`, `remove_netcdf4_standards_from_meta`,
`return_epoch_metadata`), label translation
(`apply_table_translation_to_file`, `apply_table_translation_from_file`),
array expansion (`meta_array_expander`), and the write/read orchestration
(`inst_to_netcdf`, `load_netcdf_pandas`).

Python dictionaries are modelled as insertion-ordered association lists with
unique keys; `d[k] = v` keeps the position of an existing key and appends a
new one, matching CPython's ordered-dict semantics.  Python scalar values are
modelled by `SVal`; floats are exact rationals with an explicit NaN marker
(`sFloat none`), so NaN-aware comparisons can be stated without floating
point.  numpy float rounding is not modelled: the one place the source
multiplies by `1.0E-6` before an integer cast is modelled as exact
truncating division (see `nsToMs`).
-/

set_option maxRecDepth 10000

namespace PysatIO

/-- Python scalar values as they occur in metadata dictionaries.
`sFloat none` is NaN; finite floats are exact rationals. -/
inductive SVal where
  | sInt (n : Int)
  | sFloat (x : Option ℚ)
  | sStr (s : String)
  | sBool (b : Bool)
  | sNone
deriving DecidableEq, Repr

/-- Python values stored in a metadata record: scalars, 1-D arrays and 2-D
(nested) arrays.  numpy arrays in this codebase are at most 2-D. -/
inductive Val where
  | scalar (s : SVal)
  | arr1 (l : List SVal)
  | arr2 (l : List (List SVal))
deriving DecidableEq, Repr

/-- An entry of a per-variable metadata record: either a plain value or
(under the key `meta`) a nested set of sub-variable records.  The codec only
ever constructs one level of nesting (`load_netcdf_pandas` builds the nested
records from flat netCDF attributes), so nested records hold plain values. -/
inductive Entry where
  | v (x : Val)
  | sub (m : List (String × List (String × Val)))
deriving DecidableEq, Repr

/-- A flat metadata record: label -> plain value (insertion ordered). -/
abbrev FlatRec := List (String × Val)

/-- A per-variable metadata record, possibly holding a nested `meta` set. -/
abbrev MRec := List (String × Entry)

/-- A metadata dictionary: variable -> record (insertion ordered). -/
abbrev MDict := List (String × MRec)

/-- Python exceptions raised by the modelled code paths. -/
inductive PyErr where
  | typeError
  | valueError
  | keyError
  | runtimeError
  | attributeError
  | nameError
  | indexError
deriving DecidableEq, Repr

/-! ## String primitives

Structurally recursive versions of the string operations the embedding
needs (`str.lower()`, `str.split(sep)`, `int(str)`), so that concrete runs
reduce inside the kernel.  They agree with Python on the ASCII identifiers
and labels this codec handles. -/

/-- ASCII lowercasing of one character. -/
def lowerChar (c : Char) : Char :=
  if 65 ≤ c.toNat ∧ c.toNat ≤ 90 then Char.ofNat (c.toNat + 32) else c

/-- `str.lower()` (ASCII). -/
def lowerStr (s : String) : String := String.mk (s.data.map lowerChar)

/-- Whether the first list is a prefix of the second. -/
def isHeadOf : List Char → List Char → Bool
  | [], _ => true
  | _ :: _, [] => false
  | a :: as, b :: bs => a = b && isHeadOf as bs

/-- Left-to-right non-overlapping split, fuelled for structural
recursion. -/
def splitOnAux (sep : List Char) : Nat → List Char → List Char →
    List (List Char)
  | 0, cur, _ => [cur.reverse]
  | _, cur, [] => [cur.reverse]
  | fuel + 1, cur, c :: rest =>
      if isHeadOf sep (c :: rest) && !sep.isEmpty then
        cur.reverse :: splitOnAux sep fuel [] (List.drop (sep.length - 1) rest)
      else
        splitOnAux sep fuel (c :: cur) rest

/-- Python `s.split(sep)` for a non-empty separator. -/
def splitOnStr (s sep : String) : List String :=
  if sep.data.isEmpty then [s]
  else (splitOnAux sep.data (s.data.length + 1) [] s.data).map String.mk

/-- Digits of a decimal literal to a natural number. -/
def parseNatDigits (cs : List Char) : Option Nat :=
  match cs with
  | [] => none
  | _ => cs.foldl (fun acc c =>
      acc.bind (fun n => if c.isDigit then some (10 * n + (c.toNat - 48)) else none))
      (some 0)

/-- Python `int(s)` on an optionally signed decimal literal. -/
def strToInt (s : String) : Option Int :=
  match s.data with
  | [] => none
  | '-' :: ds => (parseNatDigits ds).map (fun n => -(n : Int))
  | '+' :: ds => (parseNatDigits ds).map (fun n => (n : Int))
  | ds => (parseNatDigits ds).map (fun n => (n : Int))

/-! ## Ordered-dictionary helpers -/

/-- `d[k]` lookup. -/
def alookup (d : List (String × α)) (k : String) : Option α :=
  match d with
  | [] => none
  | (k', v) :: t => if k' = k then some v else alookup t k

/-- `k in d`. -/
def amem (d : List (String × α)) (k : String) : Bool :=
  match d with
  | [] => false
  | (k', _) :: t => k' = k || amem t k

/-- `d[k] = v`: replace in place if the key exists, else append. -/
def aset (d : List (String × α)) (k : String) (v : α) : List (String × α) :=
  match d with
  | [] => [(k, v)]
  | (k', v') :: t => if k' = k then (k, v) :: t else (k', v') :: aset t k v

/-- `d.pop(k)` (ignoring the returned value): drop the key if present. -/
def adel (d : List (String × α)) (k : String) : List (String × α) :=
  match d with
  | [] => []
  | (k', v') :: t => if k' = k then t else (k', v') :: adel t k

/-- `d.update(u)`: apply `d[k] = v` for each pair of `u` in order. -/
def aupdate (d u : List (String × α)) : List (String × α) :=
  u.foldl (fun acc p => aset acc p.1 p.2) d

/-- `list(d.keys())`. -/
def akeys (d : List (String × α)) : List String := d.map Prod.fst

/-! ## Python equality (`==`) and NaN detection (`np.isnan`) -/

/-- Python `==` on scalars: `bool` compares equal to the matching `int`/`float`
(`True == 1`), ints compare equal to equal-valued floats, and NaN is unequal
to everything, itself included. -/
def sEq (a b : SVal) : Bool :=
  match a, b with
  | .sInt m, .sInt n => m = n
  | .sInt m, .sFloat (some q) => (m : ℚ) = q
  | .sFloat (some q), .sInt m => q = (m : ℚ)
  | .sFloat (some p), .sFloat (some q) => p = q
  | .sFloat none, _ => false
  | _, .sFloat none => false
  | .sBool b, .sBool c => b = c
  | .sBool b, .sInt n => (if b then (1 : Int) else 0) = n
  | .sInt n, .sBool b => n = (if b then (1 : Int) else 0)
  | .sBool b, .sFloat (some q) => (if b then (1 : ℚ) else 0) = q
  | .sFloat (some q), .sBool b => q = (if b then (1 : ℚ) else 0)
  | .sStr s, .sStr t => s = t
  | .sNone, .sNone => true
  | _, _ => false

/-- Structural elementwise equality of values, used on the specification
side to state properties in the comparable fragment.  This is NOT the
Python `if a == b` truth test: on numpy arrays `==` returns an elementwise
array whose truth value raises `ValueError` — the raising test is
`vEqTruth` below. -/
def vEq (a b : Val) : Bool :=
  match a, b with
  | .scalar x, .scalar y => sEq x y
  | .arr1 xs, .arr1 ys =>
      xs.length = ys.length && (List.zip xs ys).all (fun p => sEq p.1 p.2)
  | .arr2 xs, .arr2 ys =>
      xs.length = ys.length &&
      (List.zip xs ys).all (fun p =>
        p.1.length = p.2.length && (List.zip p.1 p.2).all (fun q => sEq q.1 q.2))
  | _, _ => false

/-- Structural equality of entries (values elementwise, nested `meta` sets
as dicts), for specification-side statements; the raising Python truth
test is `entryEqTruth` below. -/
def entryEq (a b : Entry) : Bool :=
  match a, b with
  | .v x, .v y => vEq x y
  | .sub m, .sub m' =>
      m.length = m'.length &&
      m.all (fun p =>
        match alookup m' p.1 with
        | some r =>
            p.2.length = r.length &&
            p.2.all (fun q =>
              match alookup r q.1 with
              | some w => vEq q.2 w
              | none => false)
        | none => false)
  | _, _ => false

/-- Structural dict equality of flat records (order-insensitive),
specification side. -/
def frecEq (a b : FlatRec) : Bool :=
  a.length = b.length &&
  a.all (fun p => match alookup b p.1 with
    | some w => vEq p.2 w
    | none => false)

/-- Structural dict equality of records (order-insensitive),
specification side; the raising Python truth test on freshly read records
is `mrecEqTruth` below. -/
def mrecEq (a b : MRec) : Bool :=
  a.length = b.length &&
  a.all (fun p => match alookup b p.1 with
    | some w => entryEq p.2 w
    | none => false)

/-- Structural dict equality of metadata dictionaries
(order-insensitive), used on the specification side to state the
scalar-fragment strict-mode property; the program's strict comparison,
which can raise, is `strictDictEqTruth` below. -/
def mdictEq (a b : MDict) : Bool :=
  a.length = b.length &&
  a.all (fun p => match alookup b p.1 with
    | some r => mrecEq p.2 r
    | none => false)

/-- The truth value of a numpy elementwise comparison result: `bool(arr)`
unwraps a one-element array and raises `ValueError` otherwise (the truth
value of an empty or multi-element array is ambiguous). -/
def arrayTruth (bs : List Bool) : Except PyErr Bool :=
  match bs with
  | [b] => .ok b
  | _ => .error .valueError

/-- The truth test of Python/numpy `a == b` on metadata values: scalar
comparisons yield a `bool`; a comparison involving an array is computed
elementwise and its truth value raises `ValueError` unless the result has
exactly one element — in particular it raises on equal multi-element
arrays.  Arrays whose shapes do not match elementwise compare as the
scalar `False` of a failed elementwise comparison.  (Size-1 broadcasting
between arrays of different shapes is not modelled; theorems only
evaluate this on same-shape or scalar-against-array comparisons.) -/
def vEqTruth (a b : Val) : Except PyErr Bool :=
  match a, b with
  | .scalar x, .scalar y => .ok (sEq x y)
  | .scalar x, .arr1 l => arrayTruth (l.map (fun y => sEq x y))
  | .arr1 l, .scalar y => arrayTruth (l.map (fun x => sEq x y))
  | .arr1 l, .arr1 m =>
      if l.length = m.length then
        arrayTruth ((List.zip l m).map (fun p => sEq p.1 p.2))
      else .ok false
  | .scalar x, .arr2 ll => arrayTruth (ll.flatten.map (fun y => sEq x y))
  | .arr2 ll, .scalar y => arrayTruth (ll.flatten.map (fun x => sEq x y))
  | .arr1 l, .arr2 ll =>
      if ll.all (fun r => r.length = l.length) then
        arrayTruth ((ll.map (fun r =>
          (List.zip l r).map (fun p => sEq p.1 p.2))).flatten)
      else .ok false
  | .arr2 ll, .arr1 l =>
      if ll.all (fun r => r.length = l.length) then
        arrayTruth ((ll.map (fun r =>
          (List.zip r l).map (fun p => sEq p.1 p.2))).flatten)
      else .ok false
  | .arr2 a2, .arr2 b2 =>
      if a2.length = b2.length
          && (List.zip a2 b2).all (fun p => p.1.length = p.2.length) then
        arrayTruth (((List.zip a2 b2).map (fun p =>
          (List.zip p.1 p.2).map (fun q => sEq q.1 q.2))).flatten)
      else .ok false

/-- Python dict equality on the flat sub-record dicts held under a `meta`
key, iterating the left dict: sizes first, then each value against the
right dict's, stopping at the first unequal pair; a raising value
comparison propagates. -/
def frecEqAux (b : FlatRec) : FlatRec → Except PyErr Bool
  | [] => .ok true
  | (k, v) :: t =>
      match alookup b k with
      | none => .ok false
      | some w => do
          let q ← vEqTruth v w
          if q then frecEqAux b t else .ok false

/-- Size check in front of `frecEqAux`, as CPython's `dict_equal`. -/
def frecEqTruth (a b : FlatRec) : Except PyErr Bool :=
  if a.length = b.length then frecEqAux b a else .ok false

/-- Python dict equality on nested `meta` sets (dicts of flat records). -/
def subEqAux (b : List (String × FlatRec)) :
    List (String × FlatRec) → Except PyErr Bool
  | [] => .ok true
  | (k, r) :: t =>
      match alookup b k with
      | none => .ok false
      | some r' => do
          let q ← frecEqTruth r r'
          if q then subEqAux b t else .ok false

/-- Size check in front of `subEqAux`. -/
def subEqTruth (a b : List (String × FlatRec)) : Except PyErr Bool :=
  if a.length = b.length then subEqAux b a else .ok false

/-- The truth test of Python `a == b` on record entries: plain values
compare as numpy values; nested `meta` sets compare as dicts (whose value
comparisons can raise); a dict against a scalar is `False`, and a dict
against an array is an elementwise object comparison (all `False`) whose
truth value raises unless the array has exactly one element. -/
def entryEqTruth (a b : Entry) : Except PyErr Bool :=
  match a, b with
  | .v x, .v y => vEqTruth x y
  | .sub m, .sub m' => subEqTruth m m'
  | .v (.scalar _), .sub _ => .ok false
  | .sub _, .v (.scalar _) => .ok false
  | .v (.arr1 l), .sub _ => arrayTruth (l.map (fun _ => false))
  | .sub _, .v (.arr1 l) => arrayTruth (l.map (fun _ => false))
  | .v (.arr2 ll), .sub _ => arrayTruth (ll.flatten.map (fun _ => false))
  | .sub _, .v (.arr2 ll) => arrayTruth (ll.flatten.map (fun _ => false))

/-- Python dict equality on per-variable records, iterating the left
record; used by the strict-mode comparison on records reassigned by a
later file, whose attribute values are all freshly read from the file, so
every value comparison actually runs (and can raise). -/
def mrecEqAux (b : MRec) : MRec → Except PyErr Bool
  | [] => .ok true
  | (k, e) :: t =>
      match alookup b k with
      | none => .ok false
      | some e' => do
          let q ← entryEqTruth e e'
          if q then mrecEqAux b t else .ok false

/-- Size check in front of `mrecEqAux`. -/
def mrecEqTruth (a b : MRec) : Except PyErr Bool :=
  if a.length = b.length then mrecEqAux b a else .ok false

/-- Membership of a string in a list (`k in rks`). -/
def smem (l : List String) (k : String) : Bool :=
  match l with
  | [] => false
  | x :: t => x = k || smem t k

/-- The strict-mode comparison `full_mdict != saved_meta` (io.py line
1145), as the truth test of `==` iterating the accumulated dictionary.
`saved_meta` is a SHALLOW copy of the accumulated dictionary (io.py line
1144), so a variable's record compares by object identity — equal without
running `==` — unless a later file reassigned the variable; `rks` holds
the variable names reassigned since the copy, whose fresh records compare
by value, which can raise. -/
def savedEqAux (rks : List String) (sv : MDict) : MDict → Except PyErr Bool
  | [] => .ok true
  | (k, r) :: t =>
      if smem rks k then
        match alookup sv k with
        | none => .ok false
        | some r' => do
            let q ← mrecEqTruth r r'
            if q then savedEqAux rks sv t else .ok false
      else savedEqAux rks sv t

/-- Size check in front of `savedEqAux`, as CPython's `dict_equal`. -/
def strictDictEqTruth (fm sv : MDict) (rks : List String) :
    Except PyErr Bool :=
  if fm.length = sv.length then savedEqAux rks sv fm else .ok false

/-- `np.isnan` on a scalar.  Raises `TypeError` on strings and `None`;
`np.isnan` accepts bools and ints (returning `False`). -/
def sIsnan (s : SVal) : Except PyErr Bool :=
  match s with
  | .sFloat none => .ok true
  | .sFloat (some _) => .ok false
  | .sInt _ => .ok false
  | .sBool _ => .ok false
  | .sStr _ => .error .typeError
  | .sNone => .error .typeError

/-- The pattern `if np.isnan(value):` applied to a metadata value.  On an
array, `np.isnan` returns an elementwise array (raising `TypeError` for
non-numeric content) and the `if` then takes its truth value, which raises
`ValueError` unless the array has exactly one element. -/
def isnanTruth (v : Val) : Except PyErr Bool :=
  match v with
  | .scalar s => sIsnan s
  | .arr1 l =>
      if l.any (fun s => match s with
          | .sStr _ => true | .sNone => true | _ => false) then
        .error .typeError
      else
        match l with
        | [x] => sIsnan x
        | _ => .error .valueError
  | .arr2 l =>
      if (l.flatten).any (fun s => match s with
          | .sStr _ => true | .sNone => true | _ => false) then
        .error .typeError
      else
        match l with
        | [[x]] => sIsnan x
        | _ => .error .valueError

/-! ## Python types and casts -/

/-- The element types delivered by `pysat.Instrument._get_data_info`
(`coltype`).  The model unifies python `float` with `np.float64` and python
`str` with numpy strings: `isinstance` and casts between those pairs are
observationally equivalent for the values this codec handles. -/
inductive PyType where
  | tInt
  | tFloat
  | tStr
  | tBool
deriving DecidableEq, Repr

/-- `if coltype is bool: coltype = int` at the top of
`filter_netcdf4_metadata`. -/
def normColtype (t : PyType) : PyType := if t = .tBool then .tInt else t

/-- Python `isinstance(value, coltype)` for metadata values.  `bool` is a
subclass of `int`; no other cross-type relation holds. -/
def isinstanceOf (v : Val) (t : PyType) : Bool :=
  match v, t with
  | .scalar (.sInt _), .tInt => true
  | .scalar (.sBool _), .tInt => true
  | .scalar (.sBool _), .tBool => true
  | .scalar (.sFloat _), .tFloat => true
  | .scalar (.sStr _), .tStr => true
  | _, _ => false

/-- Python `float(s)` on a plain decimal literal (optional sign, optional
fractional part).  Exotic forms (scientific notation, infinities, embedded
whitespace or underscores) are not modelled and parse as failures; `nan`
parses to NaN as in Python.  Theorems only evaluate this on the modelled
fragment. -/
def parseFloatStr (s : String) : Option (Option ℚ) :=
  if s = "nan" then some none
  else
    let (sgn, body) :=
      match s.toList with
      | '-' :: t => ((-1 : ℚ), t)
      | '+' :: t => ((1 : ℚ), t)
      | cs => ((1 : ℚ), cs)
    match splitOnStr (String.mk body) "." with
    | [a] => (parseNatDigits a.toList).map (fun n => some (sgn * (n : ℚ)))
    | [a, b] =>
        if a.isEmpty && b.isEmpty then none
        else
          let ia := if a.isEmpty then some 0 else parseNatDigits a.toList
          let fb := if b.isEmpty then some (0, 0)
            else (parseNatDigits b.toList).map (fun n => (n, b.length))
          match ia, fb with
          | some n, some (f, len) =>
              some (some (sgn * ((n : ℚ) + (f : ℚ) / ((10 : ℚ) ^ len))))
          | _, _ => none
    | _ => none

/-- Python `int(q)` on a float: truncation toward zero. -/
def truncRat (q : ℚ) : Int := if q ≥ 0 then ⌊q⌋ else -⌊-q⌋

/-- Python `str(value)`.  The exact rendering of floats and containers is a
deterministic simplification (never evaluated by the theorems below); what
matters for the codec is that `str` never fails. -/
def pyStrVal (v : Val) : String :=
  match v with
  | .scalar (.sInt n) => toString n
  | .scalar (.sFloat (some q)) => toString q
  | .scalar (.sFloat none) => "nan"
  | .scalar (.sStr s) => s
  | .scalar (.sBool b) => if b then "True" else "False"
  | .scalar .sNone => "None"
  | .arr1 _ => "array"
  | .arr2 _ => "array"

/-- The cast `coltype(value)` in `filter_netcdf4_metadata`, returning `none`
when Python raises `TypeError` or `ValueError` (both are caught there).
`int(nan)` raises `ValueError`; `int`/`float` of a list raise `TypeError`;
`str` never fails. -/
def castTo (t : PyType) (v : Val) : Option Val :=
  match t with
  | .tInt =>
      match v with
      | .scalar (.sInt n) => some (.scalar (.sInt n))
      | .scalar (.sBool b) => some (.scalar (.sInt (if b then 1 else 0)))
      | .scalar (.sFloat (some q)) => some (.scalar (.sInt (truncRat q)))
      | .scalar (.sFloat none) => none
      | .scalar (.sStr s) => (strToInt s).map (fun n => .scalar (.sInt n))
      | _ => none
  | .tFloat =>
      match v with
      | .scalar (.sInt n) => some (.scalar (.sFloat (some (n : ℚ))))
      | .scalar (.sBool b) => some (.scalar (.sFloat (some (if b then 1 else 0))))
      | .scalar (.sFloat x) => some (.scalar (.sFloat x))
      | .scalar (.sStr s) => (parseFloatStr s).map (fun x => .scalar (.sFloat x))
      | _ => none
  | .tStr => some (.scalar (.sStr (pyStrVal v)))
  | .tBool => some (.scalar (.sBool (v ≠ .scalar (.sInt 0))))

/-! ## `filter_netcdf4_metadata` (io.py lines 81-172) -/

/-- Result of `filter_netcdf4_metadata`: the filtered dict plus the labels
for which an "unable to cast" `UserWarning` was emitted. -/
structure FilterOut where
  dict : FlatRec
  castWarnings : List String
deriving DecidableEq, Repr

/-- First pass of `filter_netcdf4_metadata`: iterate over the original items
and pop NaN values not allowed by `export_nan` from the copy.  Only
`TypeError` is caught (`pass`); a `ValueError` from taking the truth value
of a multi-element array propagates. -/
def filterNanPass (export_nan : List String) :
    List (String × Val) → FlatRec → Except PyErr FlatRec
  | [], filtered => .ok filtered
  | (k, v) :: t, filtered =>
      match isnanTruth v with
      | .ok true =>
          if export_nan.contains k then filterNanPass export_nan t filtered
          else filterNanPass export_nan t (adel filtered k)
      | .ok false => filterNanPass export_nan t filtered
      | .error .typeError => filterNanPass export_nan t filtered
      | .error e => .error e

/-- Second pass of `filter_netcdf4_metadata`: cast bools to ints in place,
collect `remove_keys` for `None` values and for `check_type` labels whose
value does not match `coltype` (dropping on `remove`, else casting and
dropping with a warning when the cast fails). -/
def filterTypePass (coltype : PyType) (remove : Bool) (check_type : List String) :
    List String → FlatRec → List String → List String →
    FlatRec × List String × List String
  | [], d, rk, ws => (d, rk, ws)
  | k :: t, d, rk, ws =>
      let v0 := (alookup d k).getD (.scalar .sNone)
      let v1 : Val := match v0 with
        | .scalar (.sBool b) => .scalar (.sInt (if b then 1 else 0))
        | w => w
      let d := match v0 with
        | .scalar (.sBool _) => aset d k v1
        | _ => d
      if v1 = .scalar .sNone then
        filterTypePass coltype remove check_type t d (rk ++ [k]) ws
      else if check_type.contains k && !(isinstanceOf v1 coltype) then
        if remove then
          filterTypePass coltype remove check_type t d (rk ++ [k]) ws
        else
          match castTo coltype v1 with
          | some v2 => filterTypePass coltype remove check_type t (aset d k v2) rk ws
          | none => filterTypePass coltype remove check_type t d (rk ++ [k]) (ws ++ [k])
      else
        filterTypePass coltype remove check_type t d rk ws

/-- `filter_netcdf4_metadata(inst, mdata_dict, coltype, remove, check_type,
export_nan)`.  The `inst` argument is unused by the source function's body. -/
def filter_netcdf4_metadata (mdata : FlatRec) (coltype : PyType)
    (remove : Bool) (check_type export_nan : List String) :
    Except PyErr FilterOut := do
  let coltype := normColtype coltype
  let filtered ← filterNanPass export_nan mdata mdata
  let (d, rk, ws) := filterTypePass coltype remove check_type (akeys filtered) filtered [] []
  .ok ⟨rk.foldl adel d, ws⟩

/-! ## The instrument and metadata-store model

`pysat.Instrument` and `pysat.Meta` live outside `src/` (only `utils/io.py`,
`_files.py` and tests are provided), so the store is modelled from the spec:
"the in-memory variable/attribute store ... treated as a simple mapping type
`variable -> {label -> value}` with a mutable/immutable flag and a
name-case-lookup helper". -/

/-- Default pysat metadata label strings (`inst.meta.labels`). -/
def labelUnits : String := "units"

/-- `inst.meta.labels.name`. -/
def labelName : String := "long_name"

/-- `inst.meta.labels.notes`. -/
def labelNotes : String := "notes"

/-- `inst.meta.labels.desc`. -/
def labelDesc : String := "desc"

/-- `inst.meta.labels.min_val`. -/
def labelMinVal : String := "value_min"

/-- `inst.meta.labels.max_val`. -/
def labelMaxVal : String := "value_max"

/-- `inst.meta.labels.fill_val`. -/
def labelFillVal : String := "fill"

/-- `Milliseconds since 1970-1-1 00:00:00`, the epoch label constant used
throughout io.py. -/
def epochLabel : String := "Milliseconds since 1970-1-1 00:00:00"

/-- Write-side metadata dictionary (`inst.meta.to_dict()` and its
descendants): variable -> flat record.  pysat.Meta cannot hold nested or
array values, so the write side is flat. -/
abbrev WMeta := List (String × FlatRec)

/-- A scalar (1-D) variable: element type, datetime flag and per-timestep
values.  Datetime values are nanoseconds since the unix epoch, stored as
integers (pandas `datetime64[ns]`). -/
structure ScalarVar where
  ctype : PyType
  dflag : Bool
  values : List SVal
deriving DecidableEq, Repr

/-- A higher-order ("object") variable: each timestep holds a DataFrame
(`isFrame`) or Series.  Cell shape and element types are modelled as uniform
across timesteps; the source samples row 0 / the first non-empty row for
them (spec: "first row is authoritative").  `subcols` are the frame columns
(for a Series, the single entry is the cell's `.name`), `colData` the
per-column per-timestep row values, `rowLens` each cell's `len`,
`indexData` the per-timestep inner-index values (nanosecond integers when
`indexFlag` is set). -/
structure HOVar where
  isFrame : Bool
  subcols : List String
  subTypes : List PyType
  subDFlags : List Bool
  rowLens : List Nat
  colData : List (List (List SVal))
  indexType : PyType
  indexFlag : Bool
  indexName : Option String
  indexData : List (List SVal)
deriving DecidableEq, Repr

/-- The payload of one instrument variable. -/
inductive VarData where
  | scalar (sv : ScalarVar)
  | ho (hv : HOVar)
deriving DecidableEq, Repr

/-- One named instrument variable. -/
structure IVar where
  name : String
  data : VarData
deriving DecidableEq, Repr

/-- Modelled `pysat.Instrument`: variables, time index (nanoseconds),
metadata store, and the attributes `inst_to_netcdf` reads. -/
structure Instrument where
  vars : List IVar
  index : List Int
  meta : WMeta
  exportNan : List String
  header : FlatRec
  custom : FlatRec
  platform : String
  instName : String
  tag : String
  instId : String
  acknowledgements : String
  references : String
  transTable : Option (List (String × List String))
deriving DecidableEq, Repr

/-- `inst.variables`: the data variable names. -/
def Instrument.variables (inst : Instrument) : List String :=
  inst.vars.map (fun v => v.name)

/-- `inst.empty`: no data rows loaded. -/
def Instrument.isEmpty (inst : Instrument) : Bool := inst.index.isEmpty

/-- Modelled from the spec: the store's case-insensitive membership test
(`var in inst.meta`), via its "name-case-lookup helper". -/
def metaHasVar (m : WMeta) (v : String) : Bool :=
  m.any (fun p => lowerStr p.1 = lowerStr v)

/-- Modelled from the spec: `inst.meta.var_case_name`, returning the stored
spelling of a variable name under case-insensitive lookup. -/
def varCaseName (m : WMeta) (v : String) : String :=
  match m.find? (fun p => lowerStr p.1 = lowerStr v) with
  | some p => p.1
  | none => v

/-- Modelled from the spec: `inst._get_var_type_code(coltype)` ("a type-code
derived from the variable's element dtype (integer/float width, or a
string-length code)"); the implementation is not under src/. -/
def varTypeCode (t : PyType) : String :=
  match t with
  | .tInt => "i8"
  | .tFloat => "f8"
  | .tStr => "S1"
  | .tBool => "i8"

/-- `pandas.Index.is_monotonic_increasing`: non-strict monotone increase
(repeated adjacent values allowed); `True` on an empty index. -/
def monoIncr : List Int → Bool
  | [] => true
  | [_] => true
  | a :: b :: t => decide (a ≤ b) && monoIncr (b :: t)

/-- `pandas.Index.is_monotonic_decreasing`: non-strict monotone decrease. -/
def monoDecr : List Int → Bool
  | [] => true
  | [_] => true
  | a :: b :: t => decide (b ≤ a) && monoDecr (b :: t)

/-- `len(value)` on a metadata value: defined for strings and arrays,
`TypeError` otherwise. -/
def pyLen (v : Val) : Except PyErr Nat :=
  match v with
  | .scalar (.sStr s) => .ok s.length
  | .arr1 l => .ok l.length
  | .arr2 l => .ok l.length
  | _ => .error .typeError

/-! ## `return_epoch_metadata` (io.py lines 1349-1395) -/

/-- The `time_dict` standards block of `return_epoch_metadata`, with the
`MonoTon` tag appended when the index is (pandas-)monotonic increasing, else
when monotonic decreasing. -/
def epochTimeDict (index : List Int) : FlatRec :=
  let base : FlatRec :=
    [("calendar", .scalar (.sStr "standard")),
     ("Format", .scalar (.sStr "i8")),
     ("Var_Type", .scalar (.sStr "data")),
     ("Time_Base", .scalar (.sStr epochLabel)),
     ("Time_Scale", .scalar (.sStr "UTC"))]
  if monoIncr index then aset base "MonoTon" (.scalar (.sStr "increase"))
  else if monoDecr index then aset base "MonoTon" (.scalar (.sStr "decrease"))
  else base

/-- `return_epoch_metadata(inst, epoch_name)`: start from the stored epoch
record (empty when absent), default the units/desc/notes labels to the epoch
label when missing or empty (`len` may raise `TypeError` on non-sized
values), set the name label, and update with the standards time block. -/
def return_epoch_metadata (inst : Instrument) (epoch_name : String) :
    Except PyErr FlatRec := do
  let new0 : FlatRec :=
    if metaHasVar inst.meta epoch_name then
      (alookup inst.meta (varCaseName inst.meta epoch_name)).getD []
    else []
  let new1 ← [labelUnits, labelDesc, labelNotes].foldlM (fun d lab => do
      match alookup d lab with
      | none => pure (aset d lab (.scalar (.sStr epochLabel)))
      | some v => do
          let n ← pyLen v
          if n = 0 then pure (aset d lab (.scalar (.sStr epochLabel)))
          else pure d) new0
  let new2 := aset new1 labelName (.scalar (.sStr epoch_name))
  pure (aupdate new2 (epochTimeDict inst.index))

/-! ## `remove_netcdf4_standards_from_meta` (io.py lines 461-512) -/

/-- The `vals` list of standards labels, in source order. -/
def stdVals : List String :=
  ["Depend_0", "Depend_1", "Depend_2", "Depend_3", "Depend_4",
   "Depend_5", "Depend_6", "Depend_7", "Depend_8", "Depend_9",
   "Display_Type", "Var_Type", "Format",
   "Time_Scale", "MonoTon", "calendar", "Time_Base"]

/--`lower_vals`. -/
def stdLowerVals : List String := stdVals.map lowerStr

/-- The deletion loop of `remove_netcdf4_standards_from_meta` on one record:
`sub_keys`/`lower_sub_keys` are fixed up front, then for each standards
label every case-insensitive match is popped. -/
def stripStdRec (r : List (String × α)) : List (String × α) :=
  let subKeys := akeys r
  let lowerSubKeys := subKeys.map lowerStr
  stdLowerVals.foldl (fun acc lval =>
    if lowerSubKeys.contains lval then
      (List.zip lowerSubKeys subKeys).foldl (fun acc2 p =>
        if p.1 = lval then adel acc2 p.2 else acc2) acc
    else acc) r

/-- The recursive call `remove_netcdf4_standards_from_meta(mdict[key]['meta'],
'')` on a nested metadata set.  Nested records hold plain values, so the
recursion bottoms out here: a nested record with its own (case-insensitive)
`meta` key would make the source recurse into a non-dict value, raising
(`KeyError` for a case variant at the exact `['meta']` access,
`AttributeError` at `.keys()` on a plain value). -/
def removeInnerMeta (m : List (String × FlatRec)) :
    Except PyErr (List (String × FlatRec)) :=
  m.mapM (fun p =>
    if ((akeys p.2).map lowerStr).contains "meta" then
      match alookup p.2 "meta" with
      | none => .error .keyError
      | some _ => .error .attributeError
    else .ok (p.1, stripStdRec p.2))

/-- The per-record body of the main loop of
`remove_netcdf4_standards_from_meta`: a record that contains a
(case-insensitive) `meta` key is only processed inside its nested set — its
own top-level labels are not stripped; every other record has all
case-insensitive matches of the standards labels deleted. -/
def removeOneRec (p : String × MRec) : Except PyErr (String × MRec) :=
  let lowerSub := (akeys p.2).map lowerStr
  if lowerSub.contains "meta" then
    match alookup p.2 "meta" with
    | none => .error .keyError
    | some (.v _) => .error .attributeError
    | some (.sub m) => do
        let m' ← removeInnerMeta m
        pure (p.1, aset p.2 "meta" (.sub m'))
  else
    pure (p.1, stripStdRec p.2)

/-- `remove_netcdf4_standards_from_meta(mdict, epoch_name)`: strip the
standards labels from every record (recursing into nested sets), then pop
the time-group labels (exact match) from the epoch record. -/
def remove_netcdf4_standards_from_meta (mdict : MDict) (epoch_name : String) :
    Except PyErr MDict := do
  let processed ← mdict.mapM removeOneRec
  let epochVals := ["Time_Scale", "MonoTon", "calendar", "Time_Base"]
  if epoch_name ≠ "" then
    if amem processed epoch_name then
      let r := (alookup processed epoch_name).getD []
      let r' := epochVals.foldl (fun acc v =>
        if amem acc v then adel acc v else acc) r
      pure (aset processed epoch_name r')
    else pure processed
  else pure processed

/-! ## Translation tables (io.py lines 514-686) -/

/-- Modelled from the spec: the default pysat label set
(`inst.meta.labels.label_attrs` is not under src/; per the spec the default
table is "identity except that the fill-value label is fanned out", so
`label_attrs` is modelled as the identity association on these labels). -/
def metaLabelsList : List String :=
  [labelUnits, labelName, labelNotes, labelDesc, labelMinVal, labelMaxVal,
   labelFillVal]

/-- `default_to_netcdf_translation_table(inst)`: identity on the pysat
labels, then the fill label is remapped in place to the netCDF triple. -/
def default_to_netcdf_translation_table : List (String × List String) :=
  let base := metaLabelsList.foldl (fun acc l => aset acc l [l]) []
  aset base labelFillVal ["_FillValue", "FillVal", "fill"]

/-- `default_from_netcdf_translation_table(meta)`: each of the three file
fill labels maps back to the pysat fill label. -/
def default_from_netcdf_translation_table : List (String × String) :=
  [("_FillValue", labelFillVal), ("FillVal", labelFillVal),
   ("fill", labelFillVal)]

/-- One record of `apply_table_translation_to_file`: translated labels fan
out to every file label in table order; untranslated labels pass through.
Later writes overwrite earlier ones at the same file label. -/
def applyTransRecToFile (table : List (String × List String)) (r : FlatRec) :
    FlatRec :=
  r.foldl (fun acc p =>
    match alookup table p.1 with
    | some ts => ts.foldl (fun a t => aset a t p.2) acc
    | none => aset acc p.1 p.2) []

/-- `apply_table_translation_to_file(inst, meta_dict, trans_table)`; a `none`
table selects the default. -/
def apply_table_translation_to_file (meta : WMeta)
    (table : Option (List (String × List String))) : WMeta :=
  let table := table.getD default_to_netcdf_translation_table
  meta.map (fun p => (p.1, applyTransRecToFile table p.2))

/-- One "Inconsistent values" warning from
`apply_table_translation_from_file`: the message names the later-seen file
label, the target label, and both values. -/
structure TransWarning where
  fileLabel : String
  targetLabel : String
  fileValue : Entry
  keptValue : Entry
deriving DecidableEq, Repr

/-- `np.isnan` applied to a stored entry (a nested dict raises
`TypeError`). -/
def entryIsnan (e : Entry) : Except PyErr Bool :=
  match e with
  | .v x => isnanTruth x
  | .sub _ => .error .typeError

/-- The check guarding the inconsistency warning: `check1 = not
np.isnan(kept); check2 = not np.isnan(new); check = check1 and check2`, with
`TypeError` caught (making `check` true) and any other error propagating.
Both isnan calls run before the conjunction, so a `TypeError` from the
second value forces a warning even when the first value is NaN. -/
def transWarnCheck (kept new : Entry) : Except PyErr Bool :=
  match entryIsnan kept with
  | .error .typeError => .ok true
  | .error e => .error e
  | .ok c1 =>
      match entryIsnan new with
      | .error .typeError => .ok true
      | .error e => .error e
      | .ok c2 => .ok ((!c1) && (!c2))

/-- The first-order loop of `apply_table_translation_from_file` over one
variable's record: first-seen value wins; on a duplicate target the guard
`if filt_dict[...] != meta_dict[...]` (io.py line 650) truth-tests the
comparison itself — which raises `ValueError` when either value is a
multi-element array, even for equal arrays — and a later different value
may then log a warning. -/
def transFromRecLoop (table : List (String × String)) :
    List (String × Entry) → MRec → List TransWarning →
    Except PyErr (MRec × List TransWarning)
  | [], filt, ws => .ok (filt, ws)
  | (fk, v) :: t, filt, ws =>
      let nk := (alookup table fk).getD fk
      if amem filt nk then
        let kept := (alookup filt nk).getD v
        do
          let eqv ← entryEqTruth kept v
          if eqv then transFromRecLoop table t filt ws
          else do
            let check ← transWarnCheck kept v
            if check then
              transFromRecLoop table t filt (ws ++ [⟨fk, nk, v, kept⟩])
            else
              transFromRecLoop table t filt ws
      else
        transFromRecLoop table t (aset filt nk v) ws

/-- The higher-order block of `apply_table_translation_from_file`.  The
nested `meta` value stored by the first-order loop aliases the source dict,
so inserting a freshly translated sub-variable name mutates the dict being
iterated: CPython raises `RuntimeError` at the next iteration step.  With no
new name to insert the nested set is returned unchanged. -/
def transFromNested (table : List (String × String)) (orig : MRec)
    (filt : MRec) : Except PyErr MRec :=
  if amem orig "meta" then
    match alookup orig "meta" with
    | some (.v _) => .error .attributeError
    | none => .error .keyError
    | some (.sub ldict) =>
        match alookup filt "meta" with
        | none => .error .keyError
        | some (.v _) => .error .typeError
        | some (.sub _) =>
            if ldict.any (fun p => !(amem ldict ((alookup table p.1).getD p.1)))
            then .error .runtimeError
            else .ok filt
  else .ok filt

/-- `apply_table_translation_from_file(trans_table, meta_dict)`, returning
the translated dict and the inconsistency warnings in emission order. -/
def apply_table_translation_from_file (table : List (String × String))
    (meta : MDict) : Except PyErr (MDict × List TransWarning) :=
  meta.foldlM (fun acc p => do
    let (filt, ws) ← transFromRecLoop table p.2 [] acc.2
    let filt ← transFromNested table p.2 filt
    pure (acc.1 ++ [(p.1, filt)], ws)) ([], [])

/-! ## `meta_array_expander` (io.py lines 689-735) -/

/-- Expansion of a single non-`meta` record entry into `loop_dict`:
`np.asarray` shape dispatch — scalar shape kept as is, shape `(1,)`
unwrapped, any other shape enumerated into suffixed labels (a 0-length array
therefore vanishes, and a 2-D array expands into its rows). -/
def expandEntry (k : String) (e : Entry) (loop : MRec) : MRec :=
  match e with
  | .sub _ => aset loop k e
  | .v (.scalar s) => aset loop k (.v (.scalar s))
  | .v (.arr1 []) => loop
  | .v (.arr1 [x]) => aset loop k (.v (.scalar x))
  | .v (.arr1 l) =>
      (l.enum).foldl (fun acc p =>
        aset acc (k ++ toString p.1) (.v (.scalar p.2))) loop
  | .v (.arr2 l) =>
      (l.enum).foldl (fun acc p =>
        aset acc (k ++ toString p.1) (.v (.arr1 p.2))) loop

/-- `meta_array_expander(meta_dict)`.  Each record is rebuilt as
`loop_dict`; a `meta` entry (exact key) is recursed into and stored back
into the *old* record, which is then replaced wholesale by `loop_dict` —
so the nested set is dropped from the result. -/
def meta_array_expander (meta : MDict) : MDict :=
  meta.map (fun p =>
    (p.1, p.2.foldl (fun loop q =>
      if q.1 = "meta" then loop
      else expandEntry q.1 q.2 loop) []))

/-! ## `add_netcdf4_standards_to_metadict` (io.py lines 281-459) -/

/-- The base standards block built for every non-epoch variable. -/
def stdBaseDict (epoch_name : String) : FlatRec :=
  [("Depend_0", .scalar (.sStr epoch_name)),
   ("Display_Type", .scalar (.sStr "Time Series")),
   ("Var_Type", .scalar (.sStr "data"))]

/-- `good_data_loc`: the first timestep whose cell is non-empty, else 0. -/
def goodDataLoc (indexLen : Nat) (rowLens : List Nat) : Nat :=
  (((List.range indexLen).find? (fun i => rowLens.getD i 0 > 0)).getD 0)

/-- The per-variable body of `add_netcdf4_standards_to_metadict`.  Scalar
variables get the standards block (plus epoch name/units labels when the
data are datetimes) merged into their record, which is then filtered.
Higher-order variables get `Depend_1`, fresh `outer_subvar` records (each
filtered), and inner-index metadata merged into the outer record (raising
`KeyError` when `return_epoch_metadata` yields no `MonoTon` to pop, and
`NameError` when there are no sub-variables, since `good_data_loc` leaks
from the loop).  A scalar variable absent from `in_meta_dict` raises
`KeyError` at the unguarded `in_meta_dict[lower_var].update`. -/
def addStdOneVar (inst : Instrument) (epoch_name : String)
    (check_type export_nan : List String) (md : WMeta) (v : IVar) :
    Except PyErr WMeta := do
  let lowerVar := lowerStr v.name
  match v.data with
  | .scalar sv =>
      let meta1 :=
        if sv.dflag then
          aset (aset (stdBaseDict epoch_name) labelName
              (.scalar (.sStr epoch_name)))
            labelUnits (.scalar (.sStr epochLabel))
        else stdBaseDict epoch_name
      let meta2 := aset meta1 "Format" (.scalar (.sStr (varTypeCode sv.ctype)))
      match alookup md lowerVar with
      | none => .error .keyError
      | some r => do
          let updated := aupdate r meta2
          let out ← filter_netcdf4_metadata updated sv.ctype (sv.ctype = .tStr)
            check_type export_nan
          pure (aset md lowerVar out.dict)
  | .ho hv => do
      let meta2 := aset (stdBaseDict epoch_name) "Depend_1"
        (.scalar (.sStr v.name))
      let goodLoc := goodDataLoc inst.index.length hv.rowLens
      if hv.subcols.isEmpty then .error .nameError
      else do
        let _ := goodLoc
        let md ← (List.zip hv.subcols (List.zip hv.subTypes hv.subDFlags)).foldlM
          (fun md p => do
            let svar := p.1
            let sctype := p.2.1
            let sdflag := p.2.2
            let smeta : FlatRec :=
              if !sdflag then
                [("Depend_0", .scalar (.sStr epoch_name)),
                 ("Depend_1", .scalar (.sStr v.name)),
                 ("Display_Type", .scalar (.sStr "Spectrogram")),
                 ("Format", .scalar (.sStr (varTypeCode sctype))),
                 ("Var_Type", .scalar (.sStr "data"))]
              else
                [(labelName, .scalar (.sStr epoch_name)),
                 (labelUnits, .scalar (.sStr epochLabel))]
            let sname := lowerVar ++ "_" ++ lowerStr svar
            let out ← filter_netcdf4_metadata smeta sctype (sctype = .tStr)
              check_type export_nan
            pure (aset md sname out.dict)) md
        let md ←
          if hv.indexFlag then do
            let td ← return_epoch_metadata inst epoch_name
            if !(amem td "MonoTon") then .error .keyError
            else do
              let td := aupdate (adel td "MonoTon") meta2
              if amem md lowerVar then
                pure (aset md lowerVar (aupdate ((alookup md lowerVar).getD []) td))
              else pure (aset md lowerVar td)
          else do
            let nm := hv.indexName.getD v.name
            let idxd := aupdate [(labelName, .scalar (.sStr nm))] meta2
            if amem md lowerVar then
              pure (aset md lowerVar (aupdate ((alookup md lowerVar).getD []) idxd))
            else pure (aset md lowerVar idxd)
        let out ← filter_netcdf4_metadata ((alookup md lowerVar).getD [])
          hv.indexType (hv.indexType = .tStr) check_type export_nan
        pure (aset md lowerVar out.dict)

/-- `add_netcdf4_standards_to_metadict(inst, in_meta_dict, epoch_name,
check_type, export_nan)`: update each variable's record (skipping the epoch
variable and variables without metadata, which only log a warning). -/
def add_netcdf4_standards_to_metadict (inst : Instrument) (in_meta : WMeta)
    (epoch_name : String) (check_type export_nan : List String) :
    Except PyErr WMeta :=
  inst.vars.foldlM (fun md v =>
    if metaHasVar inst.meta v.name && v.name ≠ epoch_name then
      addStdOneVar inst epoch_name check_type export_nan md v
    else pure md) in_meta

/-! ## Global attributes and the on-disk file model (io.py lines 1492-1652) -/

/-- Values computed by library calls at write time (datetime formatting of
the index endpoints, `utcnow`, `os.path.split` of the target path): the
codec obtains them from the clock, the filename and the time index, never
from caller attributes.  They are parameters of the embedding, like the
library calls they stand for. -/
structure WriteEnv where
  dateStart : Val
  dateEnd : Val
  fileVal : Val
  fileDate : Val
  genDate : Val
  logicalId : Val
  pysatVersion : Val
deriving DecidableEq, Repr

/-- The final attribute coercion: `None` becomes the empty string and bools
become ints. -/
def pyCoerceAttr (v : Val) : Val :=
  match v with
  | .scalar .sNone => .scalar (.sStr "")
  | .scalar (.sBool b) => .scalar (.sInt (if b then 1 else 0))
  | w => w

/-- The six file-provenance attributes owned by the codec
(`pysat_items`). -/
def pysatItems : List String :=
  ["Date_End", "Date_Start", "File", "File_Date", "Generation_Date",
   "Logical_File_ID"]

/-- Assembly of `attrb_dict` in `inst_to_netcdf`: header attributes, custom
public instrument attributes, `pysat_version`, defaulted `Conventions` and
`Text_Supplement`, pop of the codec-owned six, the instrument identity
attributes, then the computed six, and the final value coercion. -/
def buildGlobalAttrs (inst : Instrument) (env : WriteEnv) : FlatRec :=
  let d : FlatRec := if inst.header.isEmpty then [] else inst.header
  let d := aupdate d inst.custom
  let d := aset d "pysat_version" env.pysatVersion
  let d := if amem d "Conventions" then d
    else aset d "Conventions"
      (.scalar (.sStr "pysat-simplified SPDF ISTP/IACG for NetCDF"))
  let d := if amem d "Text_Supplement" then d
    else aset d "Text_Supplement" (.scalar (.sStr ""))
  let d := pysatItems.foldl (fun a k => if amem a k then adel a k else a) d
  let d := aset d "platform" (.scalar (.sStr inst.platform))
  let d := aset d "name" (.scalar (.sStr inst.instName))
  let d := aset d "tag" (.scalar (.sStr inst.tag))
  let d := aset d "inst_id" (.scalar (.sStr inst.instId))
  let d := aset d "acknowledgements" (.scalar (.sStr inst.acknowledgements))
  let d := aset d "references" (.scalar (.sStr inst.references))
  let d := aset d "Date_End" env.dateEnd
  let d := aset d "Date_Start" env.dateStart
  let d := aset d "File" env.fileVal
  let d := aset d "File_Date" env.fileDate
  let d := aset d "Generation_Date" env.genDate
  let d := aset d "Logical_File_ID" env.logicalId
  d.map (fun p => (p.1, pyCoerceAttr p.2))

/-- Payload of one netCDF variable: a 1-D or a 2-D array. -/
inductive NcData where
  | d1 (l : List SVal)
  | d2 (m : List (List SVal))
deriving DecidableEq, Repr

/-- One variable of the on-disk container. -/
structure NcVar where
  vname : String
  vdims : List String
  attrs : FlatRec
  payload : NcData
deriving DecidableEq, Repr

/-- The on-disk container: global attributes, dimensions (`none` length =
unlimited) and variables, all in creation order. -/
structure NcFile where
  gattrs : FlatRec
  fdims : List (String × Option Nat)
  fvars : List NcVar
deriving DecidableEq, Repr

/-- numpy `astype` between the modelled element types.  `int(NaN)` and other
combinations numpy would reject are left unchanged; theorems apply `astype`
only where the source guarantees a matching dtype. -/
def astypeS (t : PyType) (s : SVal) : SVal :=
  match t, s with
  | .tInt, .sInt n => .sInt n
  | .tInt, .sFloat (some q) => .sInt (truncRat q)
  | .tInt, .sBool b => .sInt (if b then 1 else 0)
  | .tInt, .sStr s => match strToInt s with
    | some n => .sInt n
    | none => .sStr s
  | .tFloat, .sInt n => .sFloat (some (n : ℚ))
  | .tFloat, .sFloat x => .sFloat x
  | .tFloat, .sBool b => .sFloat (some (if b then 1 else 0))
  | .tStr, .sStr s => .sStr s
  | .tStr, x => .sStr (pyStrVal (.scalar x))
  | _, x => x

/-- `(values.astype(np.int64) * 1.0E-6).astype(np.int64)`: nanoseconds to
milliseconds.  The source computes this through float64 multiplication by
`1.0E-6` followed by a truncating integer cast; the model uses the exact
truncating division the expression denotes (float64 rounding is not
modelled). -/
def nsToMs (n : Int) : Int := if n ≥ 0 then n / 1000000 else -((-n) / 1000000)

/-- `pandas.to_datetime(ms, unit='ms', origin='unix')` on integer input:
exact scaling to nanoseconds. -/
def msToNs (n : Int) : Int := n * 1000000

/-- Observable write-side effects, in order. -/
inductive WEvent where
  | logWarn
  | fileOpen
  | setGlobalAttrs
  | createDim (nm : String) (len : Option Nat)
  | createVar (nm : String)
  | writeData (nm : String)
  | metaWarn (nm : String)
deriving DecidableEq, Repr

/-- State threaded through the write body: the events so far and the file
under construction. -/
structure WState where
  events : List WEvent
  file : NcFile
deriving Repr

/-- Result of `inst_to_netcdf`: the event trace and either the written file
(`some`), the empty-instrument early return (`none`), or the raised
exception. -/
structure WriteOut where
  events : List WEvent
  result : Except PyErr (Option NcFile)
deriving Repr

/-! ## `inst_to_netcdf` (io.py lines 1397-1926), pandas branch -/

/-- `str` of a scalar. -/
def pyStrS (s : SVal) : String := pyStrVal (.scalar s)

/-- Datetime write conversion: `astype(coltype)` then `* 1.0E-6` and a
truncating cast (nanoseconds to milliseconds). -/
def astypeMsS (t : PyType) (s : SVal) : SVal :=
  match astypeS t s with
  | .sInt n => .sInt (nsToMs n)
  | x => x

/-- Attribute lookup for a variable being written: the record if present,
else an "Unable to find MetaData" warning. -/
def lookupAttrs (export_meta : WMeta) (k : String) (warnName : String) :
    FlatRec × List WEvent :=
  match alookup export_meta k with
  | some r => (r, [])
  | none => ([], [.metaWarn warnName])

/-- Write one instrument variable into the open container.  Scalar numeric
and datetime variables are typed 1-D writes (datetimes converted to
milliseconds); string variables are written raw; higher-order variables
create the inner dimension, one `(time, inner)` variable per sub-column
(`outer_col`, or `outer_data` for a Series) and the dimensioned inner-index
variable (`good_data_loc` stays 0: the source scan tests `iloc[0]` and
assigns the unused `data_loc`).  A cell row whose length disagrees with the
row-0 shape makes the numpy row assignment raise `ValueError`. -/
def writeOneVar (inst : Instrument) (export_meta : WMeta) (epoch_name : String)
    (preserve : Bool) (num : Nat) (st : WState) (v : IVar) :
    Except PyErr WState := do
  let caseKey := if preserve then varCaseName inst.meta v.name else v.name
  let lowerKey := lowerStr v.name
  match v.data with
  | .scalar sv =>
      let (attrs, evs) := lookupAttrs export_meta lowerKey v.name
      let payload : List SVal :=
        if sv.ctype ≠ .tStr then
          if sv.dflag then sv.values.map (astypeMsS sv.ctype)
          else sv.values.map (astypeS sv.ctype)
        else sv.values
      pure { events := st.events ++ [.createVar caseKey] ++ evs
               ++ [.writeData caseKey],
             file := { st.file with
               fvars := st.file.fvars
                 ++ [⟨caseKey, [epoch_name], attrs, .d1 payload⟩] } }
  | .ho hv => do
      let dims0 := hv.rowLens.getD 0 0
      let st : WState := { events := st.events ++ [.createDim caseKey (some dims0)],
                           file := { st.file with
                             fdims := st.file.fdims ++ [(caseKey, some dims0)] } }
      let varDim := [epoch_name, caseKey]
      let cols := List.zip hv.subcols (List.zip hv.subTypes hv.colData)
      let st ← cols.foldlM (fun st p => do
        let col := p.1
        let ct := p.2.1
        let cd := p.2.2
        let vn := if hv.isFrame then caseKey ++ "_" ++ col else caseKey ++ "_data"
        let ak := if hv.isFrame then lowerKey ++ "_" ++ lowerStr col else lowerKey
        let wn := if hv.isFrame then lowerKey ++ "_" ++ lowerStr col else caseKey
        let (attrs, evs) := lookupAttrs export_meta ak wn
        if cd.length < num || (cd.take num).any (fun row => row.length ≠ dims0)
        then .error .valueError
        else
          let rows := (cd.take num).map (fun row => row.map (astypeS ct))
          pure { events := st.events ++ [.createVar vn] ++ evs ++ [.writeData vn],
                 file := { st.file with
                   fvars := st.file.fvars ++ [⟨vn, varDim, attrs, .d2 rows⟩] } })
        st
      let (idxAttrs, evs) := lookupAttrs export_meta lowerKey caseKey
      if hv.indexData.length < num
          || (hv.indexData.take num).any (fun row => row.length ≠ dims0)
      then .error .valueError
      else
        let rows :=
          if hv.indexFlag then
            (hv.indexData.take num).map (fun row => row.map (astypeMsS hv.indexType))
          else
            (hv.indexData.take num).map (fun row =>
              row.map (fun s => astypeS hv.indexType (.sStr (pyStrS s))))
        pure { events := st.events ++ [.createVar caseKey] ++ evs
                 ++ [.writeData caseKey],
               file := { st.file with
                 fvars := st.file.fvars ++ [⟨caseKey, varDim, idxAttrs, .d2 rows⟩] } }

/-- The per-variable write loop, keeping the event trace accumulated so far
when a variable write raises. -/
def writeVarsLoop (inst : Instrument) (export_meta : WMeta)
    (epoch_name : String) (preserve : Bool) (num : Nat) :
    List IVar → WState → WState × Option PyErr
  | [], st => (st, none)
  | v :: t, st =>
      match writeOneVar inst export_meta epoch_name preserve num st v with
      | .ok st' => writeVarsLoop inst export_meta epoch_name preserve num t st'
      | .error e => (st, some e)

/-- The `check_type` default/completion: the fill, max and min labels are
appended when missing. -/
def resolveCheckType (check_type : Option (List String)) : List String :=
  match check_type with
  | none => [labelFillVal, labelMaxVal, labelMinVal]
  | some ct => [labelFillVal, labelMaxVal, labelMinVal].foldl
      (fun acc l => if acc.contains l then acc else acc ++ [l]) ct

/-- The translation-table resolution: an explicit table, else the
instrument's own, else the default; missing default entries are merged
in. -/
def resolveTransTable (inst : Instrument)
    (meta_translation : Option (List (String × List String))) :
    List (String × List String) :=
  let mt0 := match meta_translation with
    | some t => t
    | none => (inst.transTable).getD default_to_netcdf_translation_table
  default_to_netcdf_translation_table.foldl
    (fun acc p => if amem acc p.1 then acc else aset acc p.1 p.2) mt0

/-- `inst_to_netcdf(inst, fname, ...)`, pandas branch with default
`base_instrument`, `mode='w'` and no `meta_processor` (the xarray branch
shares everything up to and including the collision check; compression
options do not affect the modelled observables).  An empty instrument
returns after a log warning, before any file operation; a case-insensitive
variable-name collision raises `ValueError` before the file is opened. -/
def inst_to_netcdf (inst : Instrument) (env : WriteEnv) (epoch_name : String)
    (preserve_meta_case : Bool) (check_type export_nan : Option (List String))
    (unlimited_time : Bool)
    (meta_translation : Option (List (String × List String))) : WriteOut :=
  if inst.isEmpty then ⟨[.logWarn], .ok none⟩
  else
    let export_nan := export_nan.getD inst.exportNan
    let check_type := resolveCheckType check_type
    let attrb := buildGlobalAttrs inst env
    let lowerVars := inst.variables.map lowerStr
    if lowerVars.dedup.length ≠ lowerVars.length then ⟨[], .error .valueError⟩
    else
      let mt := resolveTransTable inst meta_translation
      match (do
          let em ← return_epoch_metadata inst epoch_name
          let em2 := aset inst.meta epoch_name em
          add_netcdf4_standards_to_metadict inst em2 epoch_name check_type
            export_nan
        : Except PyErr WMeta) with
      | .error e => ⟨[], .error e⟩
      | .ok em3 =>
          let export_meta := apply_table_translation_to_file em3 (some mt)
          let num := inst.index.length
          match alookup export_meta epoch_name with
          | none => ⟨[.fileOpen, .setGlobalAttrs], .error .keyError⟩
          | some epochAttrs =>
              let epochDimLen := if unlimited_time then none else some num
              let st0 : WState :=
                { events := [.fileOpen, .setGlobalAttrs,
                    .createDim epoch_name epochDimLen,
                    .createVar epoch_name, .writeData epoch_name],
                  file := { gattrs := attrb,
                            fdims := [(epoch_name, epochDimLen)],
                            fvars := [⟨epoch_name, [epoch_name], epochAttrs,
                              .d1 (inst.index.map (fun n => .sInt (nsToMs n)))⟩] } }
              match writeVarsLoop inst export_meta epoch_name
                  preserve_meta_case num inst.vars st0 with
              | (st, none) => ⟨st.events, .ok (some st.file)⟩
              | (st, some e) => ⟨st.events, .error e⟩

/-! ## `load_netcdf_pandas` (io.py lines 856-1198) -/

/-- A reconstructed per-timestep cell: a DataFrame or a Series slice with
its inner index. -/
inductive PdCell where
  | frame (cols : List (String × List SVal)) (cindex : List SVal)
      (cindexName : String)
  | series (sname : String) (values : List SVal) (cindex : List SVal)
      (cindexName : String)
deriving DecidableEq, Repr

/-- A loaded variable: a plain 1-D column or a list of reconstructed
cells. -/
inductive LoadedVar where
  | one (l : List SVal)
  | cells (cs : List PdCell)
deriving DecidableEq, Repr

/-- Find a file variable by name. -/
def ncFindVar (f : NcFile) (n : String) : Option NcVar :=
  f.fvars.find? (fun nv => nv.vname = n)

/-- Row `i` of a flattened `(time, inner)` array of row length `step`. -/
def chunkRow (l : List α) (step i : Nat) : List α :=
  (l.drop (step * i)).take step

/-- The 2-D payload of a file variable, flattened in C order. -/
def flatPayload (nv : NcVar) : List SVal :=
  match nv.payload with
  | .d1 l => l
  | .d2 m => m.flatten

/-- The result of identifying the inner-index variable of a dimension
group: `none` when the synthetic dimension is not itself a variable,
otherwise the time flag and the index name (`long_name` attribute,
rendered). -/
def dimIndexInfo (f : NcFile) (epoch_name objKey : String)
    (objVarKeys : List String) : Except PyErr (Option (Bool × String)) :=
  if objVarKeys.contains objKey then
    match ncFindVar f objKey with
    | none => .error .keyError
    | some nv =>
        match alookup nv.attrs labelName with
        | none => .error .attributeError
        | some a =>
            if a = .scalar (.sStr epoch_name) then .ok (some (true, epoch_name))
            else .ok (some (false, pyStrVal a))
  else .ok none

/-- Process one unique `(dim, dim)` pair of 2-D variables: identify the
epoch dimension (else `KeyError`), collect the nested metadata records
keyed by cleaned names (suffix after `objKey_`), build the `meta`-bearing
outer record when the inner index exists, and reconstruct one cell per
timestep (a DataFrame when more than one data column remains after popping
the index, else a Series named after the first full variable name). -/
def processDimGroup (epoch_name : String) (f : NcFile)
    (twod : List (String × List String)) (dim : List String)
    (lv : List (String × LoadedVar)) (fm : MDict) :
    Except PyErr ((List (String × LoadedVar)) × MDict) := do
  let objKey ←
    if dim.getD 0 "" = epoch_name then pure (dim.getD 1 "")
    else if dim.getD 1 "" = epoch_name then pure (dim.getD 0 "")
    else .error .keyError
  let objVarKeys := (twod.filter (fun p => p.2 = dim)).map Prod.fst
  let cleanVarKeys := objVarKeys.map (fun k =>
    ((splitOnStr k (objKey ++ "_")).getLast?).getD k)
  let indexInfo ← dimIndexInfo f epoch_name objKey objVarKeys
  let dimMetaData : List (String × FlatRec) :=
    (List.zip objVarKeys cleanVarKeys).foldl (fun acc p =>
      match ncFindVar f p.1 with
      | some nv => aset acc p.2 nv.attrs
      | none => acc) []
  let fm := match indexInfo with
    | some _ =>
        let base : MRec := [("meta", Entry.sub dimMetaData)]
        let withTop := match ncFindVar f objKey with
          | some nv => nv.attrs.foldl (fun acc p => aset acc p.1 (Entry.v p.2)) base
          | none => base
        aset fm objKey withTop
    | none => fm
  let loopDict0 : List (String × List SVal) :=
    (List.zip objVarKeys cleanVarKeys).foldl (fun acc p =>
      match ncFindVar f p.1 with
      | some nv => aset acc p.2 (flatPayload nv)
      | none => acc) []
  match ncFindVar f (objVarKeys.getD 0 "") with
  | none => .error .keyError
  | some firstVar => do
      let rows := match firstVar.payload with
        | .d2 m => m
        | .d1 l => [l]
      let loopLim := rows.length
      match rows.head? with
      | none => .error .indexError
      | some row0 => do
          let step := row0.length
          let (loopDict, newIndex, newIndexName) ←
            match indexInfo with
            | some (tflag, iname) =>
                let timeVar := (alookup loopDict0 objKey).getD []
                let ld := adel loopDict0 objKey
                let ni := if tflag then
                    timeVar.map (fun s => match s with
                      | .sInt n => SVal.sInt (msToNs n)
                      | x => x)
                  else timeVar
                pure (ld, ni, if tflag then epoch_name else iname)
            | none =>
                pure (loopDict0,
                  (List.range (loopLim * step)).map
                    (fun i => SVal.sInt ((i : Int) % (step : Int))),
                  "index")
          let cells : List PdCell ←
            if loopDict.length > 1 then
              let frameCols := cleanVarKeys.filter (fun k => k ≠ objKey)
              let colsData := frameCols.map (fun k =>
                (k, (alookup loopDict k).getD []))
              pure ((List.range loopLim).map (fun i =>
                PdCell.frame
                  (colsData.map (fun p => (p.1, chunkRow p.2 step i)))
                  (chunkRow newIndex step i) newIndexName))
            else
              match alookup loopDict (cleanVarKeys.getD 0 "") with
              | none => .error .keyError
              | some vs =>
                  pure ((List.range loopLim).map (fun i =>
                    PdCell.series (objVarKeys.getD 0 "")
                      (chunkRow vs step i)
                      (chunkRow newIndex step i) newIndexName))
          pure (aset lv objKey (.cells cells), fm)

/-- Load one file: 1-D variables and their attribute records, the fatal
3-D check, then each unique 2-D dimension pair (first-occurrence order;
CPython iterates an unordered set here), and finally the epoch column pop
and datetime conversion (`KeyError` when the file has no epoch variable). -/
def loadOneFile (epoch_name : String) (fullM : MDict) (f : NcFile) :
    Except PyErr ((List (String × LoadedVar)) × MDict) := do
  let (lv, fm, twod) ← f.fvars.foldlM
    (fun (acc : (List (String × LoadedVar)) × MDict × List (String × List String))
        nv => do
      let (lv, fm, twod) := acc
      if nv.vdims.length = 1 then
        pure (aset lv nv.vname (.one (flatPayload nv)),
          aset fm nv.vname (nv.attrs.map (fun p => (p.1, Entry.v p.2))), twod)
      else if nv.vdims.length = 2 then
        pure (lv, fm, twod ++ [(nv.vname, nv.vdims)])
      else if nv.vdims.length ≥ 3 then .error .valueError
      else pure (lv, fm, twod))
    ([], fullM, [])
  let dims := (twod.map Prod.snd).dedup
  let (lv, fm) ← dims.foldlM (fun acc dim =>
    processDimGroup epoch_name f twod dim acc.1 acc.2) (lv, fm)
  match alookup lv epoch_name with
  | none => .error .keyError
  | some tv => do
      let conv := match tv with
        | .one l => LoadedVar.one (l.map (fun s => match s with
            | .sInt n => SVal.sInt (msToNs n)
            | x => x))
        | c => c
      pure (adel lv epoch_name ++ [(epoch_name, conv)], fm)

/-- Append a later file's column onto an accumulated one (equal-schema
files; `pandas.concat` alignment for mismatched schemas is not
modelled). -/
def appendLoaded : LoadedVar → LoadedVar → LoadedVar
  | .one a, .one b => .one (a ++ b)
  | .cells a, .cells b => .cells (a ++ b)
  | a, _ => a

/-- `pandas.concat` of the per-file frames: first file's schema, rows
appended in file order; the epoch column becomes the index. -/
def combineFiles (stores : List (List (String × LoadedVar)))
    (epoch_name : String) : (List (String × LoadedVar)) × List Int :=
  let colsOf := fun (st : List (String × LoadedVar)) =>
    st.filter (fun p => p.1 ≠ epoch_name)
  let idxOf := fun (st : List (String × LoadedVar)) =>
    match alookup st epoch_name with
    | some (.one l) => l.filterMap (fun s => match s with
        | SVal.sInt n => some n
        | _ => none)
    | _ => []
  match stores with
  | [] => ([], [])
  | first :: rest =>
      let cols := rest.foldl (fun acc st =>
        acc.map (fun p => match alookup (colsOf st) p.1 with
          | some l => (p.1, appendLoaded p.2 l)
          | none => p)) (colsOf first)
      (cols, stores.foldl (fun acc st => acc ++ idxOf st) [])

/-- The `drop_meta_labels` pass: pop the label (exact match) from each
record, and pop any nested sub-record keyed by the label from a `meta`
set. -/
def dropMetaLabels (drop : List String) (m : MDict) : MDict :=
  m.map (fun p =>
    (p.1, drop.foldl (fun r lab =>
      let r := if amem r lab then adel r lab else r
      if amem r "meta" then
        match alookup r "meta" with
        | some (.sub sm) =>
            if amem sm lab then aset r "meta" (.sub (adel sm lab)) else r
        | _ => r
      else r) p.2))

/-- Result of `load_netcdf_pandas`: the data columns, the datetime index
(nanoseconds), the assembled metadata and the translation warnings. -/
structure LoadOut where
  dataCols : List (String × LoadedVar)
  dataIndex : List Int
  meta : MDict
  warnings : List TransWarning
deriving Repr

/-- `load_netcdf_pandas(fnames, strict_meta, ..., epoch_name,
meta_translation, drop_meta_labels)` with default labels and no
`meta_processor`.  Files are processed in order; under `strict_meta` the
accumulated metadata dictionary is compared against the shallow copy saved
after the first file (`strictDictEqTruth`): a mismatch raises
`ValueError`, and the comparison itself can raise on array-valued
attributes of reassigned records.  A file reassigns exactly the records of
the variables it loads, so the reassignment set grows by the file's loaded
variable keys.  After the loop: label drops, standards removal,
file-to-pysat translation, array expansion, and assignment into the
returned metadata. -/
def load_netcdf_pandas (files : List NcFile) (strict_meta : Bool)
    (epoch_name : String)
    (meta_translation : Option (List (String × String)))
    (drop_meta_labels : List String) : Except PyErr LoadOut := do
  let table := meta_translation.getD default_from_netcdf_translation_table
  let (stores, fullM, _) ← files.foldlM
    (fun (acc : List (List (String × LoadedVar)) × MDict ×
        Option (MDict × List String)) f => do
      let (stores, fullM, savedMeta) := acc
      let (lv, fm) ← loadOneFile epoch_name fullM f
      if strict_meta then
        match savedMeta with
        | none => pure (stores ++ [lv], fm, some (fm, []))
        | some (saved, rks) => do
            let rks := rks ++ akeys lv
            let q ← strictDictEqTruth fm saved rks
            if q then pure (stores ++ [lv], fm, some (saved, rks))
            else .error .valueError
      else pure (stores ++ [lv], fm, none))
    ([], [], none)
  let (cols, index) := combineFiles stores epoch_name
  let dropped := dropMetaLabels drop_meta_labels fullM
  let filt ← remove_netcdf4_standards_from_meta dropped epoch_name
  let (filt, ws) ← apply_table_translation_from_file table filt
  let filt := meta_array_expander filt
  pure ⟨cols, index, filt, ws⟩

/-! ## Specification-side definitions

Declarative restatements of what the claims assert, to be compared with the
loop-level embeddings above. -/

/-- Wrap a flat record as read-side entries. -/
def wrapRec (r : FlatRec) : MRec := r.map (fun p => (p.1, Entry.v p.2))

/-- Wrap a write-side metadata dictionary as a read-side one. -/
def wrapM (m : WMeta) : MDict := m.map (fun p => (p.1, wrapRec p.2))

/-- Claim-side fill fan-out: the default to-file translation replaces the
fill label by the netCDF triple and leaves everything else in place. -/
def fanExpandRec (r : FlatRec) : FlatRec :=
  r.flatMap (fun p =>
    if p.1 = labelFillVal then
      [("_FillValue", p.2), ("FillVal", p.2), ("fill", p.2)]
    else [p])

/-- Claim-side per-entry array expansion as a flat map: a `meta` entry is
dropped, scalars are kept, singleton arrays unwrapped, longer arrays fanned
out into suffixed labels, 0-length arrays dropped, and 2-D arrays fanned
out into their rows. -/
def expEntrySpec (p : String × Entry) : List (String × Entry) :=
  if p.1 = "meta" then []
  else
    match p.2 with
    | .sub _ => [p]
    | .v (.scalar _) => [p]
    | .v (.arr1 []) => []
    | .v (.arr1 [x]) => [(p.1, .v (.scalar x))]
    | .v (.arr1 l) =>
        l.enum.map (fun q => (p.1 ++ toString q.1, Entry.v (.scalar q.2)))
    | .v (.arr2 []) => []
    | .v (.arr2 l) =>
        l.enum.map (fun q => (p.1 ++ toString q.1, Entry.v (.arr1 q.2)))

/-- Claim-side first-seen translation: the value kept at a target label is
the value of the first file label mapping to it. -/
def firstSeenValue (table : List (String × String))
    (rec : List (String × Entry)) (nk : String) : Option Entry :=
  (rec.find? (fun p => (alookup table p.1).getD p.1 = nk)).map Prod.snd

/-- The metadata-accumulation-and-strict-compare loop of
`load_netcdf_pandas` (io.py lines 1142-1147), over the per-file extracted
metadata dictionaries: each file's records are merged into the running
dictionary, which under strict mode is compared against the shallow copy
saved after the first file.  A file reassigns exactly the records it
contributes (its own keys), so the reassignment set for the raising
comparison grows by `akeys f` per file. -/
def strictMetaScan (strict : Bool) :
    List MDict → MDict → Option (MDict × List String) → Except PyErr MDict
  | [], fullM, _ => .ok fullM
  | f :: t, fullM, saved =>
      let fm := aupdate fullM f
      if strict then
        match saved with
        | none => strictMetaScan strict t fm (some (fm, []))
        | some (sv, rks) => do
            let rks := rks ++ akeys f
            let q ← strictDictEqTruth fm sv rks
            if q then strictMetaScan strict t fm (some (sv, rks))
            else .error .valueError
      else strictMetaScan strict t fm none

/-- The union of the first `i + 1` file dictionaries, later files
overwriting earlier records per variable. -/
def accumUpTo (files : List MDict) (i : Nat) : MDict :=
  (files.take (i + 1)).foldl aupdate []

/-- A scalar value of the given element type (datetime columns hold
nanosecond integers). -/
def sTyped (t : PyType) (s : SVal) : Bool :=
  match t, s with
  | .tInt, .sInt _ => true
  | .tFloat, .sFloat _ => true
  | .tStr, .sStr _ => true
  | _, _ => false

/-- A metadata value in the clean fragment: a scalar that is not `None`,
not NaN and not a bool. -/
def cleanScalarV (v : Val) : Bool :=
  match v with
  | .scalar (.sInt _) => true
  | .scalar (.sFloat (some _)) => true
  | .scalar (.sStr _) => true
  | _ => false

/-- An entry in the directly comparable fragment of Python `==`: a plain
non-NaN scalar value, on which the comparison is total and reflexive. -/
def scalarEntryB : Entry → Bool
  | .v (.scalar s) => sEq s s
  | _ => false

/-- A metadata dictionary in the directly comparable fragment: every
record has unique labels and holds only plain non-NaN scalar values, so
Python `==` on the records is total and reflexive. -/
def ScalarDict (m : MDict) : Prop :=
  ∀ p ∈ m, (akeys p.2).Nodup ∧ ∀ q ∈ p.2, scalarEntryB q.2 = true

instance (m : MDict) : Decidable (ScalarDict m) := by
  unfold ScalarDict
  exact inferInstance

/-- A metadata label in the clean fragment: not a standards label (under
case folding), not one of the reserved file fill labels, and not a nested
`meta` key. -/
def cleanKey (k : String) : Bool :=
  !(stdLowerVals.contains (lowerStr k)) && k ≠ "_FillValue" && k ≠ "FillVal"
    && lowerStr k ≠ "meta"

/-- A clean flat record: unique keys, clean labels, clean scalar values. -/
def CleanRec (r : FlatRec) : Prop :=
  (akeys r).Nodup ∧ ∀ p ∈ r, cleanKey p.1 = true ∧ cleanScalarV p.2 = true

/-- One scalar variable together with its metadata record, for the
round-trip statements. -/
structure CleanVar where
  cname : String
  ctype : PyType
  values : List SVal
  crec : FlatRec
deriving DecidableEq, Repr

/-- The cleanliness conditions on one round-trip variable: lowercase
non-epoch name, a supported element type, well-typed data, a clean record
whose fill/min/max values (if any) match the declared type. -/
def CleanVarOK (c : CleanVar) : Prop :=
  lowerStr c.cname = c.cname ∧ c.cname ≠ "epoch" ∧
  c.ctype ∈ [PyType.tInt, PyType.tFloat, PyType.tStr] ∧
  (∀ s ∈ c.values, sTyped c.ctype s = true) ∧
  CleanRec c.crec ∧
  (∀ p ∈ c.crec, p.1 ∈ [labelFillVal, labelMaxVal, labelMinVal] →
    isinstanceOf p.2 c.ctype = true)

instance (c : CleanVar) : Decidable (CleanVarOK c) := by
  unfold CleanVarOK CleanRec
  exact inferInstance

/-- Build the instrument holding the given clean scalar variables, with the
metadata store keyed in variable order. -/
def mkCleanInst (cvs : List CleanVar) (index : List Int) : Instrument :=
  { vars := cvs.map (fun c => ⟨c.cname, .scalar ⟨c.ctype, false, c.values⟩⟩),
    index := index,
    meta := cvs.map (fun c => (c.cname, c.crec)),
    exportNan := [],
    header := [],
    custom := [],
    platform := "", instName := "", tag := "", instId := "",
    acknowledgements := "", references := "",
    transTable := none }

/-- The epoch record as it comes back from a read of a written file: the
basic labels defaulted at write time survive; the standards time block is
stripped. -/
def epochReadRec (epoch_name : String) : MRec :=
  [(labelUnits, .v (.scalar (.sStr epochLabel))),
   (labelDesc, .v (.scalar (.sStr epochLabel))),
   (labelNotes, .v (.scalar (.sStr epochLabel))),
   (labelName, .v (.scalar (.sStr epoch_name)))]

/-- The file produced by a write, when one was produced. -/
def writtenFile (w : WriteOut) : Option NcFile :=
  match w.result with
  | .ok (some f) => some f
  | _ => none

/-- A fixed write environment for concrete runs (the env stands for clock,
path and formatting library calls; its values are arbitrary). -/
def exEnv : WriteEnv :=
  { dateStart := .scalar (.sStr "ds"), dateEnd := .scalar (.sStr "de"),
    fileVal := .arr1 [.sStr "d", .sStr "f"], fileDate := .scalar (.sStr "fd"),
    genDate := .scalar (.sStr "gd"), logicalId := .arr1 [.sStr "f"],
    pysatVersion := .scalar (.sStr "v") }

/-! ## Concrete instances for counterexamples and witnesses -/

/-- A one-variable instrument whose time index holds 1 nanosecond: not a
whole number of milliseconds. -/
def exInstSubMs : Instrument :=
  mkCleanInst [⟨"mlt", .tFloat, [.sFloat (some 1)],
    [("units", .scalar (.sStr "hours"))]⟩] [1]

/-- An instrument with one datetime-valued data variable carrying caller
units metadata. -/
def exInstDt : Instrument :=
  { vars := [⟨"dtv", .scalar ⟨.tInt, true, [.sInt 5000000]⟩⟩],
    index := [1000000],
    meta := [("dtv", [("units", .scalar (.sStr "s"))])],
    exportNan := [], header := [], custom := [],
    platform := "", instName := "", tag := "", instId := "",
    acknowledgements := "", references := "", transTable := none }

/-- A higher-order (Series-valued) variable: two timesteps, cells of length
two with an integer inner index. -/
def exHO : HOVar :=
  { isFrame := false
    subcols := ["val"]
    subTypes := [.tInt]
    subDFlags := [false]
    rowLens := [2, 2]
    colData := [[[.sInt 1, .sInt 2], [.sInt 3, .sInt 4]]]
    indexType := .tInt
    indexFlag := false
    indexName := none
    indexData := [[.sInt 0, .sInt 1], [.sInt 0, .sInt 1]] }

/-- An instrument holding the higher-order variable `prof` with caller
units metadata. -/
def exInstHO : Instrument :=
  { vars := [⟨"prof", .ho exHO⟩], index := [0, 1000000],
    meta := [("prof", [("units", .scalar (.sStr "u"))])],
    exportNan := [], header := [], custom := [],
    platform := "", instName := "", tag := "", instId := "",
    acknowledgements := "", references := "", transTable := none }

/-- Write-then-read of an instrument with the default options used in the
round-trip statements. -/
def writeRead (inst : Instrument) : Option (Except PyErr LoadOut) :=
  (writtenFile (inst_to_netcdf inst exEnv "Epoch" false none (some []) true
    none)).map (fun f => load_netcdf_pandas [f] false "Epoch" none [])

/-- An instrument whose metadata holds a `None`-valued label. -/
def exInstNone : Instrument :=
  mkCleanInst [⟨"mlt", .tFloat, [.sFloat (some 1)],
    [("units", .scalar (.sStr "hours")), ("extra", .scalar .sNone)]⟩] [0]

/-- An instrument with two case-colliding variables and data rows. -/
def exInstColl : Instrument :=
  { vars := [⟨"Foo", .scalar ⟨.tFloat, false, [.sFloat (some 1)]⟩⟩,
             ⟨"foo", .scalar ⟨.tInt, false, [.sInt 1]⟩⟩],
    index := [0],
    meta := [("foo", [])],
    exportNan := [], header := [], custom := [],
    platform := "", instName := "", tag := "", instId := "",
    acknowledgements := "", references := "", transTable := none }

/-- The same two case-colliding variables on an instrument with no data
rows. -/
def exInstCollEmpty : Instrument := { exInstColl with index := [] }

/-- The concrete-scenario instrument: one float variable `mlt` with five
samples and metadata `units`/`fill`, the fill value NaN. -/
def exInstMlt : Instrument :=
  { vars := [⟨"mlt", .scalar ⟨.tFloat, false,
      [.sFloat (some 1), .sFloat (some 2), .sFloat (some 3),
       .sFloat (some 4), .sFloat (some 5)]⟩⟩],
    index := [0, 1000000, 2000000, 3000000, 4000000],
    meta := [("mlt", [("units", .scalar (.sStr "hours")),
                      ("fill", .scalar (.sFloat none))])],
    exportNan := [], header := [], custom := [],
    platform := "", instName := "", tag := "", instId := "",
    acknowledgements := "", references := "", transTable := none }

/-- Write-then-read of `exInstMlt` with the given `export_nan`, returning
the read-back record of `mlt`. -/
def mltReadRec (en : List String) : Option (Except PyErr (Option MRec)) :=
  (writtenFile (inst_to_netcdf exInstMlt exEnv "Epoch" false none (some en)
    true none)).map
    (fun f => (load_netcdf_pandas [f] false "Epoch" none []).map
      (fun o => alookup o.meta "mlt"))

/-- A two-variable single-epoch file for the strict-mode statements. -/
def exFileAB : NcFile :=
  { gattrs := [], fdims := [("Epoch", none)],
    fvars := [⟨"Epoch", ["Epoch"], [], .d1 [.sInt 0]⟩,
              ⟨"a", ["Epoch"], [("units", .scalar (.sStr "u"))], .d1 [.sInt 1]⟩,
              ⟨"b", ["Epoch"], [], .d1 [.sInt 2]⟩] }

/-- A file holding only variable `a`, with the same record as in
`exFileAB`. -/
def exFileA : NcFile :=
  { gattrs := [], fdims := [("Epoch", none)],
    fvars := [⟨"Epoch", ["Epoch"], [], .d1 [.sInt 5]⟩,
              ⟨"a", ["Epoch"], [("units", .scalar (.sStr "u"))], .d1 [.sInt 3]⟩] }

/-- Like `exFileA` but with a differing `units` value. -/
def exFileA' : NcFile :=
  { gattrs := [], fdims := [("Epoch", none)],
    fvars := [⟨"Epoch", ["Epoch"], [], .d1 [.sInt 5]⟩,
              ⟨"a", ["Epoch"], [("units", .scalar (.sStr "w"))], .d1 [.sInt 3]⟩] }

/-- A one-variable metadata dictionary holding a two-element array
attribute value, for the strict-mode raising comparison. -/
def exMetaArr : MDict :=
  [("a", [("w", Entry.v (.arr1 [.sInt 1, .sInt 2]))])]

/-- A file whose variable `a` carries a two-element array attribute. -/
def exFileArr : NcFile :=
  { gattrs := [], fdims := [("Epoch", none)],
    fvars := [⟨"Epoch", ["Epoch"], [], .d1 [.sInt 0]⟩,
              ⟨"a", ["Epoch"], [("w", .arr1 [.sInt 1, .sInt 2])],
                .d1 [.sInt 1]⟩] }

/-- An instrument whose caller header carries its own `Conventions` and
`Date_Start` attributes. -/
def exInstHdr : Instrument :=
  { mkCleanInst [] [0] with
    header := [("Conventions", .scalar (.sStr "X")),
               ("Date_Start", .scalar (.sStr "user"))] }

/-- A metadata dictionary exercising the array expander: a 0-length array
value, a 2-D array value and a nested `meta` set. -/
def exC9 : MDict :=
  [("v", [("a", .v (.arr1 [])),
          ("b", .v (.arr2 [[.sInt 1, .sInt 2], [.sInt 3, .sInt 4]])),
          ("meta", .sub [("s", [("u", .scalar (.sInt 1))])])])]

/-- The flat standards block that `add_netcdf4_standards_to_metadict`
appends to a clean (non-datetime, scalar) variable's record. -/
def addedStdBlock (epoch_name : String) (t : PyType) : FlatRec :=
  stdBaseDict epoch_name ++ [("Format", .scalar (.sStr (varTypeCode t)))]

/-- A clean variable's record after the standards overlay. -/
def enrichRec (epoch_name : String) (c : CleanVar) : FlatRec :=
  c.crec ++ addedStdBlock epoch_name c.ctype

/-- The epoch record produced by `return_epoch_metadata` for an instrument
storing no epoch metadata: the defaulted basic labels followed by the
standards time block. -/
def epochWriteRec (epoch_name : String) (index : List Int) : FlatRec :=
  [(labelUnits, .scalar (.sStr epochLabel)),
   (labelDesc, .scalar (.sStr epochLabel)),
   (labelNotes, .scalar (.sStr epochLabel)),
   (labelName, .scalar (.sStr epoch_name))] ++ epochTimeDict index

/-! ## Dictionary lemmas -/

theorem alookup_mem {d : List (String × α)} {k : String} {v : α}
    (h : alookup d k = some v) : (k, v) ∈ d := by
  induction d with
  | nil => simp [alookup] at h
  | cons p t ih =>
      obtain ⟨k', v'⟩ := p
      by_cases hk : k' = k
      · subst hk
        rw [alookup, if_pos rfl] at h
        injection h with h
        subst h
        exact List.mem_cons_self _ _
      · rw [alookup, if_neg hk] at h
        exact List.mem_cons_of_mem _ (ih h)

theorem amem_iff_exists {d : List (String × α)} {k : String} :
    amem d k = true ↔ ∃ v, (k, v) ∈ d := by
  induction d with
  | nil => simp [amem]
  | cons p t ih =>
      obtain ⟨k', v'⟩ := p
      simp only [amem, Bool.or_eq_true, decide_eq_true_eq, ih]
      constructor
      · rintro (rfl | ⟨v, hv⟩)
        · exact ⟨v', List.mem_cons_self _ _⟩
        · exact ⟨v, List.mem_cons_of_mem _ hv⟩
      · rintro ⟨v, hv⟩
        rcases List.mem_cons.mp hv with h | h
        · cases h
          exact Or.inl rfl
        · exact Or.inr ⟨v, h⟩

theorem amem_false_of_forall {d : List (String × α)} {k : String}
    (h : ∀ p ∈ d, p.1 ≠ k) : amem d k = false := by
  induction d with
  | nil => rfl
  | cons p t ih =>
      simp only [amem, Bool.or_eq_false_iff, decide_eq_false_iff_not]
      exact ⟨h p (List.mem_cons_self _ _),
        ih (fun q hq => h q (List.mem_cons_of_mem _ hq))⟩

theorem forall_of_amem_false {d : List (String × α)} {k : String}
    (h : amem d k = false) : ∀ p ∈ d, p.1 ≠ k := by
  intro p hp hpk
  have : amem d k = true := amem_iff_exists.mpr ⟨p.2, by rw [← hpk, Prod.mk.eta]; exact hp⟩
  rw [h] at this
  exact Bool.false_ne_true this

theorem aset_of_not_amem {d : List (String × α)} {k : String} (v : α)
    (h : amem d k = false) : aset d k v = d ++ [(k, v)] := by
  induction d with
  | nil => rfl
  | cons p t ih =>
      obtain ⟨k', v'⟩ := p
      simp only [amem, Bool.or_eq_false_iff, decide_eq_false_iff_not] at h
      simp only [aset, if_neg h.1, List.cons_append, ih h.2]

theorem adel_of_not_amem {d : List (String × α)} {k : String}
    (h : amem d k = false) : adel d k = d := by
  induction d with
  | nil => rfl
  | cons p t ih =>
      obtain ⟨k', v'⟩ := p
      simp only [amem, Bool.or_eq_false_iff, decide_eq_false_iff_not] at h
      simp only [adel, if_neg h.1, ih h.2]

theorem aupdate_append :
    ∀ {u d : List (String × α)}, (∀ p ∈ u, amem d p.1 = false) →
      (akeys u).Nodup → aupdate d u = d ++ u := by
  intro u
  induction u with
  | nil => intro d _ _; simp [aupdate]
  | cons p t ih =>
      intro d hdisj hnd
      obtain ⟨k, v⟩ := p
      have h1 : amem d k = false := hdisj (k, v) (List.mem_cons_self _ _)
      have hset : aset d k v = d ++ [(k, v)] := aset_of_not_amem v h1
      have hk : k ∉ akeys t := by
        simpa [akeys] using (List.nodup_cons.mp hnd).1
      have hdisj' : ∀ q ∈ t, amem (d ++ [(k, v)]) q.1 = false := by
        intro q hq
        apply amem_false_of_forall
        intro r hr hrk
        rcases List.mem_append.mp hr with h | h
        · exact Bool.false_ne_true
            ((hdisj q (List.mem_cons_of_mem _ hq)) ▸
              amem_iff_exists.mpr ⟨r.2, by rw [← hrk, Prod.mk.eta]; exact h⟩)
        · simp only [List.mem_singleton] at h
          subst h
          exact hk (by rw [show k = q.1 from hrk]; exact List.mem_map_of_mem Prod.fst hq)
      have step : aupdate d ((k, v) :: t) = aupdate (aset d k v) t := rfl
      rw [step, hset, ih hdisj' (List.nodup_cons.mp hnd).2]
      simp

theorem amem_append {d e : List (String × α)} {k : String} :
    amem (d ++ e) k = (amem d k || amem e k) := by
  induction d with
  | nil => simp [amem]
  | cons p t ih => simp [amem, ih, Bool.or_assoc]

theorem alookup_append_left {d e : List (String × α)} {k : String} {v : α}
    (h : alookup d k = some v) : alookup (d ++ e) k = some v := by
  induction d with
  | nil => simp [alookup] at h
  | cons p t ih =>
      obtain ⟨k', v'⟩ := p
      by_cases hk : k' = k
      · rw [alookup, if_pos hk] at h
        rw [List.cons_append, alookup, if_pos hk]
        exact h
      · rw [alookup, if_neg hk] at h
        rw [List.cons_append, alookup, if_neg hk]
        exact ih h

theorem alookup_append_right {d e : List (String × α)} {k : String}
    (h : amem d k = false) : alookup (d ++ e) k = alookup e k := by
  induction d with
  | nil => rfl
  | cons p t ih =>
      obtain ⟨k', v'⟩ := p
      simp only [amem, Bool.or_eq_false_iff, decide_eq_false_iff_not] at h
      rw [List.cons_append, alookup, if_neg h.1]
      exact ih h.2

theorem alookup_not_amem {d : List (String × α)} {k : String}
    (h : amem d k = false) : alookup d k = none := by
  induction d with
  | nil => rfl
  | cons p t ih =>
      obtain ⟨k', v'⟩ := p
      simp only [amem, Bool.or_eq_false_iff, decide_eq_false_iff_not] at h
      rw [alookup, if_neg h.1]
      exact ih h.2

theorem aset_middle {pre rest : List (String × α)} {k : String} {r v : α}
    (h : amem pre k = false) :
    aset (pre ++ (k, r) :: rest) k v = pre ++ (k, v) :: rest := by
  induction pre with
  | nil => simp [aset]
  | cons p t ih =>
      obtain ⟨k', v'⟩ := p
      simp only [amem, Bool.or_eq_false_iff, decide_eq_false_iff_not] at h
      simp only [List.cons_append, aset, if_neg h.1]
      exact congrArg _ (ih h.2)

theorem alookup_middle {pre rest : List (String × α)} {k : String} {r : α}
    (h : amem pre k = false) :
    alookup (pre ++ (k, r) :: rest) k = some r := by
  rw [alookup_append_right h, alookup, if_pos rfl]

theorem aset_self {d : List (String × α)} {k : String} {v : α}
    (h : alookup d k = some v) : aset d k v = d := by
  induction d with
  | nil => simp [alookup] at h
  | cons p t ih =>
      obtain ⟨k', v'⟩ := p
      by_cases hk : k' = k
      · subst hk
        rw [alookup, if_pos rfl] at h
        injection h with h
        rw [aset, if_pos rfl, h]
      · rw [alookup, if_neg hk] at h
        rw [aset, if_neg hk, ih h]

theorem adel_eq_filter {d : List (String × α)} {k : String}
    (h : (akeys d).Nodup) :
    adel d k = d.filter (fun p => p.1 ≠ k) := by
  induction d with
  | nil => rfl
  | cons p t ih =>
      obtain ⟨k', v'⟩ := p
      have hnd := List.nodup_cons.mp h
      by_cases hk : k' = k
      · subst hk
        rw [adel, if_pos rfl]
        have : ∀ q ∈ t, q.1 ≠ k' := by
          intro q hq hqk
          exact hnd.1 (by
            rw [← hqk]
            show q.1 ∈ t.map Prod.fst
            exact List.mem_map.mpr ⟨q, hq, rfl⟩)
        rw [List.filter_cons_of_neg (by simp)]
        symm
        rw [List.filter_eq_self]
        intro q hq
        simpa using this q hq
      · rw [adel, if_neg hk, List.filter_cons_of_pos (by simpa using hk),
          ih hnd.2]

/-! ## Characterization of the standards-label deletion loop -/

theorem adel_sublist (d : List (String × α)) (k : String) :
    List.Sublist (adel d k) d := by
  induction d with
  | nil => exact List.Sublist.refl _
  | cons p t ih =>
      obtain ⟨k', v'⟩ := p
      by_cases hk : k' = k
      · rw [adel, if_pos hk]
        exact List.sublist_cons_self _ _
      · rw [adel, if_neg hk]
        exact List.Sublist.cons₂ _ ih

theorem akeys_sublist {d e : List (String × α)} (h : List.Sublist d e) :
    List.Sublist (akeys d) (akeys e) := List.Sublist.map _ h

theorem zip_map_self (f : String → String) (ks : List String) :
    List.zip (ks.map f) ks = ks.map (fun k => (f k, k)) := by
  induction ks with
  | nil => rfl
  | cons k t ih => simp [ih]

/-- The inner pop loop for a single lowercased standards label deletes
exactly the entries whose lowercased key matches it, provided every entry
whose key lowercases to the label occurs in the scanned key list. -/
theorem stripInner_eq_filter {lval : String} :
    ∀ (ks : List String) (acc : List (String × α)), (akeys acc).Nodup →
      (∀ p ∈ acc, lowerStr p.1 = lval → p.1 ∈ ks) →
      ks.foldl (fun acc2 k => if lowerStr k = lval then adel acc2 k else acc2)
        acc
      = acc.filter (fun p => lowerStr p.1 ≠ lval) := by
  intro ks
  induction ks with
  | nil =>
      intro acc _ hcov
      rw [List.foldl_nil]
      symm
      rw [List.filter_eq_self]
      intro p hp
      simpa using fun hl => absurd (hcov p hp hl) (List.not_mem_nil _)
  | cons k t ih =>
      intro acc hnd hcov
      rw [List.foldl_cons]
      by_cases hkl : lowerStr k = lval
      · rw [if_pos hkl]
        have hdel : adel acc k = acc.filter (fun p => p.1 ≠ k) :=
          adel_eq_filter hnd
        have hnd' : (akeys (adel acc k)).Nodup :=
          hnd.sublist (akeys_sublist (adel_sublist acc k))
        have hcov' : ∀ p ∈ adel acc k, lowerStr p.1 = lval → p.1 ∈ t := by
          intro p hp hl
          have hpk : p.1 ≠ k := by
            rw [hdel] at hp
            simpa using (List.of_mem_filter hp)
          rcases List.mem_cons.mp
            (hcov p ((adel_sublist acc k).mem hp) hl) with h | h
          · exact absurd h hpk
          · exact h
        rw [ih (adel acc k) hnd' hcov', hdel, List.filter_filter]
        apply List.filter_congr
        intro p hp
        by_cases hpl : lowerStr p.1 = lval
        · simp [hpl]
        · have hpk : p.1 ≠ k := fun h => hpl (h ▸ hkl)
          simp [hpl, hpk]
      · rw [if_neg hkl]
        apply ih acc hnd
        intro p hp hl
        rcases List.mem_cons.mp (hcov p hp hl) with h | h
        · exact absurd (h ▸ hl) hkl
        · exact h

/-- The guarded outer loop over the lowercased standards labels deletes
exactly the entries whose lowercased key occurs in the label list, provided
every entry key occurs in the scanned key list. -/
theorem stripOuter_eq_filter {ks : List String} :
    ∀ (lvals : List String) (acc : List (String × α)), (akeys acc).Nodup →
      (∀ p ∈ acc, p.1 ∈ ks) →
      lvals.foldl (fun acc lval =>
        if (ks.map lowerStr).contains lval then
          (List.zip (ks.map lowerStr) ks).foldl (fun acc2 p =>
            if p.1 = lval then adel acc2 p.2 else acc2) acc
        else acc) acc
      = acc.filter (fun p => !(lvals.contains (lowerStr p.1))) := by
  intro lvals
  induction lvals with
  | nil =>
      intro acc _ _
      rw [List.foldl_nil]
      symm
      rw [List.filter_eq_self]
      intro p _
      simp
  | cons lval t ih =>
      intro acc hnd hcov
      rw [List.foldl_cons]
      have inner_eq : (List.zip (ks.map lowerStr) ks).foldl (fun acc2 p =>
          if p.1 = lval then adel acc2 p.2 else acc2) acc =
          ks.foldl (fun acc2 k =>
            if lowerStr k = lval then adel acc2 k else acc2) acc := by
        rw [zip_map_self, List.foldl_map]
      by_cases hc : (ks.map lowerStr).contains lval = true
      · rw [if_pos hc, inner_eq,
          stripInner_eq_filter ks acc hnd (fun p hp _ => hcov p hp)]
        have hnd' : (akeys (acc.filter (fun p => lowerStr p.1 ≠ lval))).Nodup :=
          hnd.sublist (akeys_sublist (List.filter_sublist _))
        have hcov' : ∀ p ∈ acc.filter (fun p => lowerStr p.1 ≠ lval),
            p.1 ∈ ks := fun p hp => hcov p (List.mem_of_mem_filter hp)
        rw [ih _ hnd' hcov', List.filter_filter]
        apply List.filter_congr
        intro p hp
        by_cases hpl : lowerStr p.1 = lval <;> simp [hpl]
      · rw [if_neg hc]
        rw [ih acc hnd hcov]
        apply List.filter_congr
        intro p hp
        have hnl : lowerStr p.1 ≠ lval := by
          intro hpl
          apply hc
          have hmem : lowerStr p.1 ∈ ks.map lowerStr :=
            List.mem_map.mpr ⟨p.1, hcov p hp, rfl⟩
          rw [hpl] at hmem
          exact List.elem_eq_true_of_mem hmem
        simp [hnl, Ne.symm hnl]

/-- The deletion loop of `remove_netcdf4_standards_from_meta` on one record
deletes exactly the entries whose key is, case-insensitively, a standards
label. -/
theorem stripStdRec_eq_filter {r : List (String × α)}
    (hnd : (akeys r).Nodup) :
    stripStdRec r
      = r.filter (fun p => !(stdLowerVals.contains (lowerStr p.1))) := by
  unfold stripStdRec
  exact @stripOuter_eq_filter _ (akeys r) stdLowerVals r hnd
    (fun p hp => List.mem_map.mpr ⟨p, hp, rfl⟩)

/-! ## `filter_netcdf4_metadata` on clean records -/

theorem amem_alookup {d : List (String × α)} {k : String}
    (h : amem d k = true) : ∃ v, alookup d k = some v := by
  induction d with
  | nil => simp [amem] at h
  | cons p t ih =>
      obtain ⟨k', v'⟩ := p
      by_cases hk : k' = k
      · exact ⟨v', by rw [alookup, if_pos hk]⟩
      · simp only [amem, Bool.or_eq_true, decide_eq_true_eq] at h
        rcases h with h | h
        · exact absurd h hk
        · obtain ⟨v, hv⟩ := ih h
          exact ⟨v, by rw [alookup, if_neg hk]; exact hv⟩

theorem isnan_of_clean {v : Val} (h : cleanScalarV v = true) :
    isnanTruth v = .ok false ∨ isnanTruth v = .error .typeError := by
  cases v with
  | scalar s =>
      cases s with
      | sInt n => exact Or.inl rfl
      | sFloat x =>
          cases x with
          | none => simp [cleanScalarV] at h
          | some q => exact Or.inl rfl
      | sStr s => exact Or.inr rfl
      | sBool b => simp [cleanScalarV] at h
      | sNone => simp [cleanScalarV] at h
  | arr1 l => simp [cleanScalarV] at h
  | arr2 l => simp [cleanScalarV] at h

theorem filterNanPass_id {en : List String} :
    ∀ (orig : List (String × Val)) (d : FlatRec),
      (∀ p ∈ orig, cleanScalarV p.2 = true) →
      filterNanPass en orig d = .ok d := by
  intro orig
  induction orig with
  | nil => intro d _; rfl
  | cons p t ih =>
      intro d h
      obtain ⟨k, v⟩ := p
      have hv := h (k, v) (List.mem_cons_self _ _)
      have ht : ∀ q ∈ t, cleanScalarV q.2 = true :=
        fun q hq => h q (List.mem_cons_of_mem _ hq)
      rcases isnan_of_clean hv with hn | hn
      · show filterNanPass en ((k, v) :: t) d = .ok d
        rw [filterNanPass, hn]
        exact ih d ht
      · show filterNanPass en ((k, v) :: t) d = .ok d
        rw [filterNanPass, hn]
        exact ih d ht

theorem filterTypePass_id {t : PyType} {rm : Bool} {ct : List String} :
    ∀ (ks : List String) (d : FlatRec) (rk ws : List String),
      (∀ p ∈ d, cleanScalarV p.2 = true ∧
        (ct.contains p.1 = true → isinstanceOf p.2 t = true)) →
      (∀ k ∈ ks, amem d k = true) →
      filterTypePass t rm ct ks d rk ws = (d, rk, ws) := by
  intro ks
  induction ks with
  | nil => intro d rk ws _ _; rfl
  | cons k kt ih =>
      intro d rk ws hd hks
      obtain ⟨v, hv⟩ := amem_alookup (hks k (List.mem_cons_self _ _))
      have hmem := alookup_mem hv
      have hclean := (hd (k, v) hmem).1
      have hcheck := (hd (k, v) hmem).2
      have hrest : ∀ x ∈ kt, amem d x = true :=
        fun x hx => hks x (List.mem_cons_of_mem _ hx)
      have hshape : (∃ n, v = .scalar (.sInt n)) ∨
          (∃ q, v = .scalar (.sFloat (some q))) ∨
          (∃ s, v = .scalar (.sStr s)) := by
        cases v with
        | scalar s =>
            cases s with
            | sInt n => exact Or.inl ⟨n, rfl⟩
            | sFloat x =>
                cases x with
                | none => simp [cleanScalarV] at hclean
                | some q => exact Or.inr (Or.inl ⟨q, rfl⟩)
            | sStr s => exact Or.inr (Or.inr ⟨s, rfl⟩)
            | sBool b => simp [cleanScalarV] at hclean
            | sNone => simp [cleanScalarV] at hclean
        | arr1 l => simp [cleanScalarV] at hclean
        | arr2 l => simp [cleanScalarV] at hclean
      by_cases hc : ct.contains k = true
      · have hinst := hcheck hc
        rcases hshape with ⟨n, rfl⟩ | ⟨q, rfl⟩ | ⟨s, rfl⟩ <;>
          · simp only [filterTypePass, hv, Option.getD_some, hc, hinst,
              Bool.not_true, Bool.and_false]
            rw [if_neg (by simp), if_neg (by simp)]
            exact ih d rk ws hd hrest
      · rw [Bool.not_eq_true] at hc
        rcases hshape with ⟨n, rfl⟩ | ⟨q, rfl⟩ | ⟨s, rfl⟩ <;>
          · simp only [filterTypePass, hv, Option.getD_some, hc,
              Bool.false_and]
            rw [if_neg (by simp), if_neg (by simp)]
            exact ih d rk ws hd hrest

/-- On a record of clean scalar values whose checked labels already match
the declared type, `filter_netcdf4_metadata` is the identity and warns
nothing. -/
theorem filter_id {r : FlatRec} {t : PyType} {rm : Bool}
    {ct en : List String}
    (h : ∀ p ∈ r, cleanScalarV p.2 = true ∧
      (ct.contains p.1 = true → isinstanceOf p.2 (normColtype t) = true)) :
    filter_netcdf4_metadata r t rm ct en = .ok ⟨r, []⟩ := by
  unfold filter_netcdf4_metadata
  rw [filterNanPass_id r r (fun p hp => (h p hp).1)]
  show Except.ok
    (let x := filterTypePass (normColtype t) rm ct (akeys r) r [] []
     (⟨x.2.1.foldl adel x.1, x.2.2⟩ : FilterOut)) = _
  rw [filterTypePass_id (akeys r) r [] [] h (fun k hk => by
    obtain ⟨p, hp, hpk⟩ := List.mem_map.mp hk
    exact hpk ▸ amem_iff_exists.mpr ⟨p.2, by rw [Prod.mk.eta]; exact hp⟩)]
  rfl

/-! ## The default to-file translation as fill fan-out -/

theorem akeys_append (d e : List (String × α)) :
    akeys (d ++ e) = akeys d ++ akeys e := List.map_append _ _ _

theorem amem_false_of_nodup_append {d e : List (String × α)} {k : String}
    (hnd : (akeys (d ++ e)).Nodup) (hk : k ∈ akeys e) :
    amem d k = false := by
  rw [akeys_append] at hnd
  have hdisj := (List.nodup_append.mp hnd).2.2
  apply amem_false_of_forall
  intro p hp hpk
  exact hdisj (hpk ▸ List.mem_map.mpr ⟨p, hp, rfl⟩) hk

theorem defaultTo_eq : default_to_netcdf_translation_table =
    [("units", ["units"]), ("long_name", ["long_name"]),
     ("notes", ["notes"]), ("desc", ["desc"]),
     ("value_min", ["value_min"]), ("value_max", ["value_max"]),
     ("fill", ["_FillValue", "FillVal", "fill"])] := by rfl

theorem defaultTo_lookup_ne_fill {k : String} (h : k ≠ "fill") :
    alookup default_to_netcdf_translation_table k = none ∨
    alookup default_to_netcdf_translation_table k = some [k] := by
  rw [defaultTo_eq]
  by_cases h1 : ("units" : String) = k
  · exact Or.inr (by simp [alookup, if_pos h1, ← h1])
  by_cases h2 : ("long_name" : String) = k
  · exact Or.inr (by simp [alookup, h1, if_pos h2, ← h2])
  by_cases h3 : ("notes" : String) = k
  · exact Or.inr (by simp [alookup, h1, h2, if_pos h3, ← h3])
  by_cases h4 : ("desc" : String) = k
  · exact Or.inr (by simp [alookup, h1, h2, h3, if_pos h4, ← h4])
  by_cases h5 : ("value_min" : String) = k
  · exact Or.inr (by simp [alookup, h1, h2, h3, h4, if_pos h5, ← h5])
  by_cases h6 : ("value_max" : String) = k
  · exact Or.inr (by simp [alookup, h1, h2, h3, h4, h5, if_pos h6, ← h6])
  have h7 : ("fill" : String) ≠ k := fun hc => h hc.symm
  exact Or.inl (by simp [alookup, h1, h2, h3, h4, h5, h6, h7])

theorem defaultTo_lookup_fill :
    alookup default_to_netcdf_translation_table "fill" =
    some ["_FillValue", "FillVal", "fill"] := by rfl

/-- The per-record to-file translation fold, with the default table, is the
claim-side fill fan-out, provided the fanned-out keys are fresh. -/
theorem transToFold_eq_fan :
    ∀ (r acc : FlatRec), (akeys (acc ++ fanExpandRec r)).Nodup →
      r.foldl (fun acc p =>
        match alookup default_to_netcdf_translation_table p.1 with
        | some ts => ts.foldl (fun a t => aset a t p.2) acc
        | none => aset acc p.1 p.2) acc = acc ++ fanExpandRec r := by
  intro r
  induction r with
  | nil => intro acc _; simp [fanExpandRec]
  | cons p t ih =>
      intro acc hnd
      obtain ⟨k, v⟩ := p
      by_cases hk : k = labelFillVal
      · subst hk
        have hfan : fanExpandRec ((labelFillVal, v) :: t) =
            [("_FillValue", v), ("FillVal", v), ("fill", v)]
              ++ fanExpandRec t := by
          simp [fanExpandRec]
        rw [hfan] at hnd
        have hmem1 : "_FillValue" ∈ akeys
            ([("_FillValue", v), ("FillVal", v), ("fill", v)]
              ++ fanExpandRec t) := by
          rw [akeys_append]
          exact List.mem_append_left _ (by simp [akeys])
        have hmem2 : "FillVal" ∈ akeys
            ([("_FillValue", v), ("FillVal", v), ("fill", v)]
              ++ fanExpandRec t) := by
          rw [akeys_append]
          exact List.mem_append_left _ (by simp [akeys])
        have hmem3 : "fill" ∈ akeys
            ([("_FillValue", v), ("FillVal", v), ("fill", v)]
              ++ fanExpandRec t) := by
          rw [akeys_append]
          exact List.mem_append_left _ (by simp [akeys])
        have h1 : amem acc "_FillValue" = false :=
          amem_false_of_nodup_append (k := "_FillValue") hnd hmem1
        have h2 : amem acc "FillVal" = false :=
          amem_false_of_nodup_append (k := "FillVal") hnd hmem2
        have h3 : amem acc "fill" = false :=
          amem_false_of_nodup_append (k := "fill") hnd hmem3
        have h2' : amem (acc ++ [("_FillValue", v)]) "FillVal" = false := by
          rw [amem_append, h2]
          simp [amem]
        have h3' : amem ((acc ++ [("_FillValue", v)]) ++ [("FillVal", v)])
            "fill" = false := by
          rw [amem_append, amem_append, h3]
          simp [amem]
        rw [List.foldl_cons]
        have hstep : (match alookup default_to_netcdf_translation_table
            labelFillVal with
          | some ts => ts.foldl (fun a t => aset a t v) acc
          | none => aset acc labelFillVal v) =
            acc ++ [("_FillValue", v), ("FillVal", v), ("fill", v)] := by
          rw [show alookup default_to_netcdf_translation_table labelFillVal =
            some ["_FillValue", "FillVal", "fill"] from rfl]
          show aset (aset (aset acc "_FillValue" v) "FillVal" v) "fill" v = _
          rw [aset_of_not_amem _ h1, aset_of_not_amem _ h2',
            aset_of_not_amem _ h3']
          simp
        rw [hstep, ih]
        · rw [hfan]
          simp
        · simpa [akeys_append, List.append_assoc] using hnd
      · have hfan : fanExpandRec ((k, v) :: t) =
            (k, v) :: fanExpandRec t := by
          simp [fanExpandRec, hk]
        rw [hfan] at hnd
        have h1 : amem acc k = false :=
          amem_false_of_nodup_append hnd (by
            rw [show akeys ((k, v) :: fanExpandRec t) =
              k :: akeys (fanExpandRec t) from rfl]
            exact List.mem_cons_self _ _)
        rw [List.foldl_cons]
        have hstep : (match alookup default_to_netcdf_translation_table k with
          | some ts => ts.foldl (fun a t => aset a t v) acc
          | none => aset acc k v) = acc ++ [(k, v)] := by
          rcases defaultTo_lookup_ne_fill hk with hl | hl
          · rw [hl]
            exact aset_of_not_amem _ h1
          · rw [hl]
            show aset acc k v = _
            exact aset_of_not_amem _ h1
        rw [hstep, ih]
        · rw [hfan]
          simp
        · simpa [akeys_append, List.append_assoc] using hnd

/-- `apply_table_translation_to_file` with the default table performs the
fill fan-out on every record. -/
theorem applyTransRec_eq_fan {r : FlatRec}
    (hnd : (akeys (fanExpandRec r)).Nodup) :
    applyTransRecToFile default_to_netcdf_translation_table r
      = fanExpandRec r := by
  have h := transToFold_eq_fan r [] (by simpa using hnd)
  simpa [applyTransRecToFile] using h

/-! ## The from-file translation on fanned-out records -/

theorem except_bind_ok {α β : Type} (a : α) (f : α → Except PyErr β) :
    (Except.ok a >>= f) = f a := rfl

/-- Python `==` truth-tested on two copies of one clean scalar value is
`True`: the comparison is a plain scalar one and the value is not NaN. -/
theorem entryEqTruth_refl_clean {v : Val} (h : cleanScalarV v = true) :
    entryEqTruth (.v v) (.v v) = .ok true := by
  cases v with
  | scalar s =>
      cases s with
      | sInt n => simp [entryEqTruth, vEqTruth, sEq]
      | sFloat x =>
          cases x with
          | none => simp [cleanScalarV] at h
          | some q => simp [entryEqTruth, vEqTruth, sEq]
      | sStr s => simp [entryEqTruth, vEqTruth, sEq]
      | sBool b => simp [cleanScalarV] at h
      | sNone => simp [cleanScalarV] at h
  | arr1 l => simp [cleanScalarV] at h
  | arr2 l => simp [cleanScalarV] at h

theorem entryEq_refl_clean {v : Val} (h : cleanScalarV v = true) :
    entryEq (.v v) (.v v) = true := by
  cases v with
  | scalar s =>
      cases s with
      | sInt n => simp [entryEq, vEq, sEq]
      | sFloat x =>
          cases x with
          | none => simp [cleanScalarV] at h
          | some q => simp [entryEq, vEq, sEq]
      | sStr s => simp [entryEq, vEq, sEq]
      | sBool b => simp [cleanScalarV] at h
      | sNone => simp [cleanScalarV] at h
  | arr1 l => simp [cleanScalarV] at h
  | arr2 l => simp [cleanScalarV] at h

theorem defaultFrom_lookup_ne {k : String} (h1 : k ≠ "_FillValue")
    (h2 : k ≠ "FillVal") (h3 : k ≠ "fill") :
    alookup default_from_netcdf_translation_table k = none := by
  have g1 : ("_FillValue" : String) ≠ k := fun hc => h1 hc.symm
  have g2 : ("FillVal" : String) ≠ k := fun hc => h2 hc.symm
  have g3 : ("fill" : String) ≠ k := fun hc => h3 hc.symm
  simp [default_from_netcdf_translation_table, alookup, g1, g2, g3]

theorem foldl_aset_append :
    ∀ (es d : List (String × α)), (akeys (d ++ es)).Nodup →
      es.foldl (fun a p => aset a p.1 p.2) d = d ++ es := by
  intro es
  induction es with
  | nil => intro d _; simp
  | cons p t ih =>
      intro d hnd
      obtain ⟨k, v⟩ := p
      have h1 : amem d k = false :=
        amem_false_of_nodup_append hnd (by
          rw [show akeys ((k, v) :: t) = k :: akeys t from rfl]
          exact List.mem_cons_self _ _)
      rw [List.foldl_cons]
      show t.foldl (fun a p => aset a p.1 p.2) (aset d k v) = _
      rw [aset_of_not_amem _ h1, ih]
      · simp
      · simpa [akeys_append, List.append_assoc] using hnd

/-- The first-order loop of the from-file translation, applied to the
fill fan-out of a clean record, restores the record (first-seen value kept
at the pysat fill label) and emits no warnings. -/
theorem transFromLoop_fan :
    ∀ (xs : List (String × Val)) (acc : MRec) (ws : List TransWarning),
      (akeys xs).Nodup →
      (∀ p ∈ xs, p.1 ≠ "_FillValue" ∧ p.1 ≠ "FillVal") →
      (∀ p ∈ xs, cleanScalarV p.2 = true) →
      (∀ p ∈ xs, amem acc p.1 = false) →
      transFromRecLoop default_from_netcdf_translation_table
        (wrapRec (fanExpandRec xs)) acc ws = .ok (acc ++ wrapRec xs, ws) := by
  intro xs
  induction xs with
  | nil => intro acc ws _ _ _ _; simp [fanExpandRec, wrapRec, transFromRecLoop]
  | cons p t ih =>
      intro acc ws hnd hres hclean hdisj
      obtain ⟨k, v⟩ := p
      have hk_acc : amem acc k = false := hdisj (k, v) (List.mem_cons_self _ _)
      have hclean_v : cleanScalarV v = true :=
        hclean (k, v) (List.mem_cons_self _ _)
      have hnd_t : (akeys t).Nodup := (List.nodup_cons.mp hnd).2
      have hknot : k ∉ akeys t := by
        simpa [akeys] using (List.nodup_cons.mp hnd).1
      have hdisj' : ∀ q ∈ t, amem (acc ++ [(k, Entry.v v)]) q.1 = false := by
        intro q hq
        rw [amem_append, hdisj q (List.mem_cons_of_mem _ hq)]
        have : q.1 ≠ k := fun hc =>
          hknot (hc ▸ List.mem_map.mpr ⟨q, hq, rfl⟩)
        simp [amem, Ne.symm this]
      by_cases hk : k = labelFillVal
      · subst hk
        have hwrap : wrapRec (fanExpandRec ((labelFillVal, v) :: t)) =
            ("_FillValue", Entry.v v) :: ("FillVal", Entry.v v) ::
            ("fill", Entry.v v) :: wrapRec (fanExpandRec t) := by
          simp [fanExpandRec, wrapRec]
        have hfill : amem acc "fill" = false := hk_acc
        rw [hwrap]
        rw [transFromRecLoop]
        rw [show (alookup default_from_netcdf_translation_table
          "_FillValue").getD "_FillValue" = "fill" from rfl]
        rw [if_neg (by rw [hfill]; exact Bool.false_ne_true)]
        rw [aset_of_not_amem _ hfill]
        have hfmem : amem (acc ++ [("fill", Entry.v v)]) "fill" = true := by
          rw [amem_append, hfill]
          simp [amem]
        have hflook : alookup (acc ++ [("fill", Entry.v v)]) "fill"
            = some (Entry.v v) := by
          rw [alookup_append_right hfill, alookup, if_pos rfl]
        rw [transFromRecLoop]
        rw [show (alookup default_from_netcdf_translation_table
          "FillVal").getD "FillVal" = "fill" from rfl]
        rw [if_pos hfmem, hflook]
        simp only [Option.getD_some]
        simp only [entryEqTruth_refl_clean hclean_v, except_bind_ok,
          if_true]
        rw [transFromRecLoop]
        rw [show (alookup default_from_netcdf_translation_table
          "fill").getD "fill" = "fill" from rfl]
        rw [if_pos hfmem, hflook]
        simp only [Option.getD_some]
        simp only [entryEqTruth_refl_clean hclean_v, except_bind_ok,
          if_true]
        rw [ih (acc ++ [("fill", Entry.v v)]) ws hnd_t
          (fun q hq => hres q (List.mem_cons_of_mem _ hq))
          (fun q hq => hclean q (List.mem_cons_of_mem _ hq)) hdisj']
        simp [wrapRec, labelFillVal]
      · have hne1 : k ≠ "_FillValue" := (hres (k, v) (List.mem_cons_self _ _)).1
        have hne2 : k ≠ "FillVal" := (hres (k, v) (List.mem_cons_self _ _)).2
        have hwrap : wrapRec (fanExpandRec ((k, v) :: t)) =
            (k, Entry.v v) :: wrapRec (fanExpandRec t) := by
          simp [fanExpandRec, wrapRec, hk]
        rw [hwrap]
        rw [transFromRecLoop]
        rw [show (alookup default_from_netcdf_translation_table k).getD k = k
          from by rw [defaultFrom_lookup_ne hne1 hne2 hk]; rfl]
        rw [if_neg (by rw [hk_acc]; exact Bool.false_ne_true)]
        rw [aset_of_not_amem _ hk_acc]
        rw [ih (acc ++ [(k, Entry.v v)]) ws hnd_t
          (fun q hq => hres q (List.mem_cons_of_mem _ hq))
          (fun q hq => hclean q (List.mem_cons_of_mem _ hq)) hdisj']
        simp [wrapRec]

/-! ## The array expander as a flat map -/

theorem foldl_aset_map_append {β : Type} (h : β → String × α) :
    ∀ (l : List β) (d : List (String × α)),
      (akeys (d ++ l.map h)).Nodup →
      l.foldl (fun a x => aset a (h x).1 (h x).2) d = d ++ l.map h := by
  intro l
  induction l with
  | nil => intro d _; simp
  | cons b t ih =>
      intro d hnd
      have h1 : amem d (h b).1 = false :=
        amem_false_of_nodup_append hnd (by
          rw [List.map_cons]
          rw [show akeys (h b :: t.map h) = (h b).1 :: akeys (t.map h)
            from rfl]
          exact List.mem_cons_self _ _)
      rw [List.foldl_cons, aset_of_not_amem _ h1, ih]
      · simp
      · simpa [akeys_append, List.append_assoc] using hnd

theorem expandRecFold_eq :
    ∀ (r loop : MRec), (akeys (loop ++ r.flatMap expEntrySpec)).Nodup →
      r.foldl (fun loop q =>
        if q.1 = "meta" then loop else expandEntry q.1 q.2 loop) loop
      = loop ++ r.flatMap expEntrySpec := by
  intro r
  induction r with
  | nil => intro loop _; simp
  | cons p t ih =>
      intro loop hnd
      obtain ⟨k, e⟩ := p
      rw [List.foldl_cons]
      by_cases hk : k = "meta"
      · have hspec : expEntrySpec (k, e) = [] := by simp [expEntrySpec, hk]
        rw [if_pos hk, ih]
        · simp [hspec]
        · simpa [hspec] using hnd
      · rw [if_neg hk]
        have hspec_cons : ((k, e) :: t).flatMap expEntrySpec =
            expEntrySpec (k, e) ++ t.flatMap expEntrySpec := by
          simp
        rw [hspec_cons] at hnd
        have hnd1 : (akeys (loop ++ expEntrySpec (k, e))).Nodup := by
          refine List.Nodup.sublist (akeys_sublist ?_) hnd
          have h2 := List.sublist_append_left (loop ++ expEntrySpec (k, e))
            (t.flatMap expEntrySpec)
          rw [List.append_assoc] at h2
          exact h2
        have hstep : expandEntry k e loop = loop ++ expEntrySpec (k, e) := by
          cases e with
          | sub m =>
              have hspec : expEntrySpec (k, .sub m) = [(k, Entry.sub m)] := by
                simp [expEntrySpec, hk]
              rw [hspec] at hnd1
              have h1 : amem loop k = false :=
                amem_false_of_nodup_append hnd1 (by
                  rw [show akeys [(k, Entry.sub m)] = [k] from rfl]
                  exact List.mem_singleton.mpr rfl)
              rw [hspec]
              exact aset_of_not_amem _ h1
          | v x =>
              cases x with
              | scalar s =>
                  have hspec : expEntrySpec (k, .v (.scalar s)) =
                      [(k, Entry.v (.scalar s))] := by
                    simp [expEntrySpec, hk]
                  rw [hspec] at hnd1
                  have h1 : amem loop k = false :=
                    amem_false_of_nodup_append hnd1 (by
                      rw [show akeys [(k, Entry.v (.scalar s))] = [k] from rfl]
                      exact List.mem_singleton.mpr rfl)
                  rw [hspec]
                  exact aset_of_not_amem _ h1
              | arr1 l =>
                  match l with
                  | [] => simp [expandEntry, expEntrySpec, hk]
                  | [x] =>
                      have hspec : expEntrySpec (k, .v (.arr1 [x])) =
                          [(k, Entry.v (.scalar x))] := by
                        simp [expEntrySpec, hk]
                      rw [hspec] at hnd1
                      have h1 : amem loop k = false :=
                        amem_false_of_nodup_append hnd1 (by
                          rw [show akeys [(k, Entry.v (.scalar x))] = [k]
                            from rfl]
                          exact List.mem_singleton.mpr rfl)
                      rw [hspec]
                      exact aset_of_not_amem _ h1
                  | a :: b :: l =>
                      have hspec : expEntrySpec (k, .v (.arr1 (a :: b :: l))) =
                          ((a :: b :: l).enum).map (fun q =>
                            (k ++ toString q.1, Entry.v (.scalar q.2))) := by
                        simp [expEntrySpec, hk]
                      rw [hspec] at hnd1
                      rw [hspec]
                      exact foldl_aset_map_append _ _ _ hnd1
              | arr2 l =>
                  match l with
                  | [] => simp [expandEntry, expEntrySpec, hk]
                  | a :: l =>
                      have hspec : expEntrySpec (k, .v (.arr2 (a :: l))) =
                          ((a :: l).enum).map (fun q =>
                            (k ++ toString q.1, Entry.v (.arr1 q.2))) := by
                        simp [expEntrySpec, hk]
                      rw [hspec] at hnd1
                      rw [hspec]
                      exact foldl_aset_map_append _ _ _ hnd1
        rw [hstep, ih]
        · simp [hspec_cons]
        · simpa [akeys_append, List.append_assoc] using hnd

/-- `meta_array_expander` acts on every record as the claim-side flat map,
provided each record's expansion produces no key collisions. -/
theorem meta_array_expander_eq {m : MDict}
    (h : ∀ p ∈ m, (akeys (p.2.flatMap expEntrySpec)).Nodup) :
    meta_array_expander m
      = m.map (fun p => (p.1, p.2.flatMap expEntrySpec)) := by
  unfold meta_array_expander
  apply List.map_congr_left
  intro p hp
  have := expandRecFold_eq p.2 [] (by simpa using h p hp)
  simpa using this

/-! ## Monotonicity characterization (claim C3) -/

theorem monoIncr_iff {l : List Int} :
    monoIncr l = true ↔ List.Chain' (· ≤ ·) l := by
  induction l with
  | nil => simp [monoIncr]
  | cons a t ih =>
      cases t with
      | nil => simp [monoIncr]
      | cons b t' =>
          rw [show monoIncr (a :: b :: t') =
            (decide (a ≤ b) && monoIncr (b :: t')) from rfl]
          rw [List.chain'_cons]
          simp [ih]

theorem monoDecr_iff {l : List Int} :
    monoDecr l = true ↔ List.Chain' (fun a b => b ≤ a) l := by
  induction l with
  | nil => simp [monoDecr]
  | cons a t ih =>
      cases t with
      | nil => simp [monoDecr]
      | cons b t' =>
          rw [show monoDecr (a :: b :: t') =
            (decide (b ≤ a) && monoDecr (b :: t')) from rfl]
          rw [List.chain'_cons]
          simp [ih]

theorem return_epoch_metadata_basic (idx : List Int) :
    return_epoch_metadata (mkCleanInst [] idx) "Epoch" =
      .ok (aupdate
        [(labelUnits, .scalar (.sStr epochLabel)),
         (labelDesc, .scalar (.sStr epochLabel)),
         (labelNotes, .scalar (.sStr epochLabel)),
         (labelName, .scalar (.sStr "Epoch"))]
        (epochTimeDict idx)) := rfl

theorem epoch_monoTon_lookup (idx : List Int) :
    (return_epoch_metadata (mkCleanInst [] idx) "Epoch").map
      (fun r => alookup r "MonoTon")
    = .ok (if monoIncr idx then some (.scalar (.sStr "increase"))
       else if monoDecr idx then some (.scalar (.sStr "decrease"))
       else none) := by
  rw [return_epoch_metadata_basic]
  unfold epochTimeDict
  by_cases hi : monoIncr idx = true
  · simp only [hi, if_true]
    rfl
  · rw [Bool.not_eq_true] at hi
    simp only [hi, Bool.false_eq_true, if_false]
    by_cases hd : monoDecr idx = true
    · simp only [hd, if_true]
      rfl
    · rw [Bool.not_eq_true] at hd
      simp only [hd, Bool.false_eq_true, if_false]
      rfl

/-- C3, counterexample: the index `[5, 5]` has repeated adjacent values (so
it is not strictly monotonically increasing), yet the epoch metadata
produced at write time carries `MonoTon = "increase"` — the tag tracks
pandas' non-strict monotonicity, contradicting the claim that repeated
adjacent values get no tag. -/
theorem C3_monoton_counterexample :
    (¬ List.Chain' (· < ·) ([5, 5] : List Int)) ∧
    (return_epoch_metadata (mkCleanInst [] [5, 5]) "Epoch").map
      (fun r => alookup r "MonoTon")
      = .ok (some (.scalar (.sStr "increase"))) := by
  constructor
  · simp [List.chain'_cons]
  · rfl

/-- C3, amended: the epoch metadata's `MonoTon` tag is `"increase"` exactly
when the time index is non-strictly monotonically increasing, `"decrease"`
exactly when it is non-strictly monotonically decreasing but not
increasing, and absent otherwise. -/
theorem C3_monoton_tag (idx : List Int) :
    (return_epoch_metadata (mkCleanInst [] idx) "Epoch").map
      (fun r => alookup r "MonoTon")
    = .ok (if List.Chain' (· ≤ ·) idx then some (.scalar (.sStr "increase"))
       else if List.Chain' (fun a b => b ≤ a) idx then
         some (.scalar (.sStr "decrease"))
       else none) := by
  rw [epoch_monoTon_lookup idx]
  congr 1
  exact if_congr monoIncr_iff rfl (if_congr monoDecr_iff rfl rfl)

/-! ## Claim C9: the array expander -/

theorem flatMap_spec_scalar {r : MRec}
    (h : ∀ q ∈ r, (∃ s, q.2 = Entry.v (.scalar s)) ∨
      (∃ sm, q.2 = Entry.sub sm)) :
    r.flatMap expEntrySpec = r.filter (fun q => q.1 ≠ "meta") := by
  induction r with
  | nil => rfl
  | cons q t ih =>
      have ht : ∀ x ∈ t, (∃ s, x.2 = Entry.v (.scalar s)) ∨
          (∃ sm, x.2 = Entry.sub sm) :=
        fun x hx => h x (List.mem_cons_of_mem _ hx)
      obtain ⟨k, e⟩ := q
      by_cases hm : k = "meta"
      · rcases h (k, e) (List.mem_cons_self _ _) with ⟨s, he⟩ | ⟨sm, he⟩ <;>
          simp [expEntrySpec, hm, he, ih ht]
      · rcases h (k, e) (List.mem_cons_self _ _) with ⟨s, he⟩ | ⟨sm, he⟩ <;>
          · simp only at he
            subst he
            simp [expEntrySpec, hm, ih ht]

/-- C9, counterexample: on the record `{a: [], b: [[1,2],[3,4]],
meta: {...}}` the expander (i) drops the 0-length array label `a` instead
of unwrapping it to a scalar, (ii) drops the nested `meta` set instead of
recursing into it, and (iii) is not idempotent, because the rows of the
2-D value come back as array-valued labels that a second application
expands further. -/
theorem C9_expander_counterexample :
    meta_array_expander exC9 =
      [("v", [("b0", .v (.arr1 [.sInt 1, .sInt 2])),
              ("b1", .v (.arr1 [.sInt 3, .sInt 4]))])] ∧
    meta_array_expander (meta_array_expander exC9) ≠ meta_array_expander exC9
    := by
  constructor
  · rfl
  · decide

/-- C9, amended: (1) provided the expanded labels collide with nothing, the
expander rewrites every record as the per-entry flat map `expEntrySpec` —
each scalar-shaped value is kept, a one-element array is unwrapped to its
element, an array of length N ≥ 2 is replaced by suffixed labels
`label0..label(N-1)` holding its elements in order (rows, for a 2-D value),
a 0-length array label is dropped, and a nested `meta` set is dropped
rather than recursed into; and (2) the expander is idempotent on records
whose values are already scalar. -/
theorem C9_array_expander :
    (∀ m : MDict, (∀ p ∈ m, (akeys (p.2.flatMap expEntrySpec)).Nodup) →
      meta_array_expander m
        = m.map (fun p => (p.1, p.2.flatMap expEntrySpec))) ∧
    (∀ m : MDict, (∀ p ∈ m, (akeys p.2).Nodup) →
      (∀ p ∈ m, ∀ q ∈ p.2, (∃ s, q.2 = Entry.v (.scalar s)) ∨
        (∃ sm, q.2 = Entry.sub sm)) →
      meta_array_expander (meta_array_expander m) = meta_array_expander m)
    := by
  constructor
  · intro m h
    exact meta_array_expander_eq h
  · intro m hnd hsc
    have hfresh : ∀ p ∈ m, (akeys (p.2.flatMap expEntrySpec)).Nodup := by
      intro p hp
      rw [flatMap_spec_scalar (hsc p hp)]
      exact List.Nodup.sublist (akeys_sublist (List.filter_sublist _))
        (hnd p hp)
    have hE : meta_array_expander m
        = m.map (fun p => (p.1, p.2.filter (fun q => q.1 ≠ "meta"))) := by
      rw [meta_array_expander_eq hfresh]
      apply List.map_congr_left
      intro p hp
      rw [flatMap_spec_scalar (hsc p hp)]
    have hsc' : ∀ p ∈ meta_array_expander m, ∀ q ∈ p.2,
        (∃ s, q.2 = Entry.v (.scalar s)) ∨ (∃ sm, q.2 = Entry.sub sm) := by
      rw [hE]
      intro p hp q hq
      obtain ⟨p0, hp0, hpe⟩ := List.mem_map.mp hp
      subst hpe
      exact hsc p0 hp0 q (List.mem_of_mem_filter hq)
    have hnd' : ∀ p ∈ meta_array_expander m, (akeys p.2).Nodup := by
      rw [hE]
      intro p hp
      obtain ⟨p0, hp0, hpe⟩ := List.mem_map.mp hp
      subst hpe
      exact List.Nodup.sublist (akeys_sublist (List.filter_sublist _))
        (hnd p0 hp0)
    have hfresh' : ∀ p ∈ meta_array_expander m,
        (akeys (p.2.flatMap expEntrySpec)).Nodup := by
      intro p hp
      rw [flatMap_spec_scalar (hsc' p hp)]
      exact List.Nodup.sublist (akeys_sublist (List.filter_sublist _))
        (hnd' p hp)
    rw [meta_array_expander_eq hfresh']
    have : ∀ p ∈ meta_array_expander m,
        (p.1, p.2.flatMap expEntrySpec) = p := by
      intro p hp
      have hfe : p.2.flatMap expEntrySpec = p.2 := by
        rw [flatMap_spec_scalar (hsc' p hp)]
        rw [List.filter_eq_self]
        intro q hq
        rw [hE] at hp
        obtain ⟨p0, hp0, hpe⟩ := List.mem_map.mp hp
        subst hpe
        simpa using List.of_mem_filter hq
      rw [hfe]
    calc (meta_array_expander m).map
          (fun p => (p.1, p.2.flatMap expEntrySpec))
        = (meta_array_expander m).map id := List.map_congr_left this
      _ = meta_array_expander m := List.map_id _

/-- C9, witness for the amended theorem at a concrete dictionary. -/
theorem C9_array_expander_witness :
    meta_array_expander
      [("v", [("lab", .v (.arr1 [.sInt 7, .sInt 8, .sInt 9])),
              ("u", .v (.scalar (.sStr "x")))])]
      = [("v", [("lab0", .v (.scalar (.sInt 7))),
                ("lab1", .v (.scalar (.sInt 8))),
                ("lab2", .v (.scalar (.sInt 9))),
                ("u", .v (.scalar (.sStr "x")))])] ∧
    meta_array_expander (meta_array_expander
      [("w", [("u", .v (.scalar (.sInt 3))), ("meta", .sub [])])])
      = meta_array_expander
        [("w", [("u", .v (.scalar (.sInt 3))), ("meta", .sub [])])] := by
  constructor
  · have h := (C9_array_expander.1)
      [("v", [("lab", .v (.arr1 [.sInt 7, .sInt 8, .sInt 9])),
              ("u", .v (.scalar (.sStr "x")))])]
      (by decide)
    rw [h]
    rfl
  · exact (C9_array_expander.2)
      [("w", [("u", .v (.scalar (.sInt 3))), ("meta", .sub [])])]
      (by decide)
      (by
        intro p hp q hq
        rcases List.mem_singleton.mp hp with rfl
        rcases List.mem_cons.mp hq with rfl | hq2
        · exact Or.inl ⟨.sInt 3, rfl⟩
        · rcases List.mem_singleton.mp hq2 with rfl
          exact Or.inr ⟨[], rfl⟩)

/-! ## Claim C6: duplicate-target translation on read -/

/-- C6, counterexample: (i) the read-direction translation CAN raise — on
a duplicate target the guard `if filt != new` truth-tests the comparison,
which raises an uncaught `ValueError` when the kept value is a two-element
numeric array; (ii) it raises even when the two values are EQUAL
two-element arrays (structurally equal, as the `vEq` conjunct shows), so
the first-seen value is not silently kept; (iii) a warning IS emitted when
the kept value is NaN, if the later value is a nested dict (the
`TypeError` of its `np.isnan` is caught and forces the check true);
(iv) the warning does not name both source labels: two inputs whose
first-seen file labels differ (`A` vs `C`) produce identical warning
records naming only the later label `B`. -/
theorem C6_translation_counterexample :
    apply_table_translation_from_file [("B", "a")]
      [("v", [("a", .v (.arr1 [.sInt 1, .sInt 2])),
              ("B", .v (.scalar (.sInt 3)))])]
      = .error .valueError ∧
    apply_table_translation_from_file [("B", "a")]
      [("v", [("a", .v (.arr1 [.sInt 1, .sInt 2])),
              ("B", .v (.arr1 [.sInt 1, .sInt 2]))])]
      = .error .valueError ∧
    vEq (.arr1 [.sInt 1, .sInt 2]) (.arr1 [.sInt 1, .sInt 2]) = true ∧
    apply_table_translation_from_file [("B", "a")]
      [("v", [("a", .v (.scalar (.sFloat none))), ("B", .sub [])])]
      = .ok ([("v", [("a", .v (.scalar (.sFloat none)))])],
             [⟨"B", "a", .sub [], .v (.scalar (.sFloat none))⟩]) ∧
    apply_table_translation_from_file [("A", "t"), ("B", "t"), ("C", "t")]
      [("v", [("A", .v (.scalar (.sInt 1))), ("B", .v (.scalar (.sInt 2)))])]
      = .ok ([("v", [("t", .v (.scalar (.sInt 1)))])],
             [⟨"B", "t", .v (.scalar (.sInt 2)), .v (.scalar (.sInt 1))⟩]) ∧
    apply_table_translation_from_file [("A", "t"), ("B", "t"), ("C", "t")]
      [("v", [("C", .v (.scalar (.sInt 1))), ("B", .v (.scalar (.sInt 2)))])]
      = .ok ([("v", [("t", .v (.scalar (.sInt 1)))])],
             [⟨"B", "t", .v (.scalar (.sInt 2)), .v (.scalar (.sInt 1))⟩]) :=
  ⟨rfl, rfl, rfl, rfl, rfl, rfl⟩

/-- C6, amended: when two file labels map to the same internal label, the
guard `if filt != new` first truth-tests the comparison of the two values
— raising `ValueError` when either value is a multi-element array, even
for equal arrays; when the truth test completes with "equal" the
first-seen value is kept silently; when it completes with "different" the
NaN-check `transWarnCheck` runs (both `np.isnan` calls execute,
`TypeError` is caught as "not NaN", any other error propagates) and a
warning is appended exactly when the check passes, naming the later-seen
file label, the target label and both values (never the first-seen file
label).  In every non-raising outcome the first-seen value is kept. -/
theorem C6_translation_collision (table : List (String × String))
    (fk1 fk2 nk : String) (v1 v2 : Entry) (ws : List TransWarning)
    (h1 : (alookup table fk1).getD fk1 = nk)
    (h2 : (alookup table fk2).getD fk2 = nk) :
    transFromRecLoop table [(fk1, v1), (fk2, v2)] [] ws =
      (match entryEqTruth v1 v2 with
       | .error e => .error e
       | .ok true => Except.ok ([(nk, v1)], ws)
       | .ok false =>
         match transWarnCheck v1 v2 with
         | .error e => .error e
         | .ok true => .ok ([(nk, v1)], ws ++ [⟨fk2, nk, v2, v1⟩])
         | .ok false => .ok ([(nk, v1)], ws)) := by
  have step : transFromRecLoop table [(fk1, v1), (fk2, v2)] [] ws =
      (do
       let eqv ← entryEqTruth v1 v2
       if eqv then transFromRecLoop table [] [(nk, v1)] ws
       else do
         let check ← transWarnCheck v1 v2
         if check then
           transFromRecLoop table [] [(nk, v1)] (ws ++ [⟨fk2, nk, v2, v1⟩])
         else transFromRecLoop table [] [(nk, v1)] ws) := by
    simp only [transFromRecLoop, h1, h2, amem, aset, alookup]
    simp
  rw [step]
  cases he : entryEqTruth v1 v2 with
  | error e => simp [he, Bind.bind, Except.bind]
  | ok b =>
      cases b with
      | false =>
          simp only [he, except_bind_ok, Bool.false_eq_true, if_false]
          cases hc : transWarnCheck v1 v2 with
          | error e => simp [hc, Bind.bind, Except.bind]
          | ok c =>
              cases c <;> simp [hc, Bind.bind, Except.bind, transFromRecLoop]
      | true => simp [he, Bind.bind, Except.bind, transFromRecLoop]

/-- C6, witness: the collision theorem at a concrete table and record with
differing non-NaN values — first value kept, one warning naming the later
label. -/
theorem C6_translation_collision_witness :
    transFromRecLoop [("B", "a")]
      [("a", Entry.v (.scalar (.sInt 1))), ("B", Entry.v (.scalar (.sInt 2)))]
      [] []
      = Except.ok ([("a", Entry.v (.scalar (.sInt 1)))],
        [⟨"B", "a", Entry.v (.scalar (.sInt 2)),
          Entry.v (.scalar (.sInt 1))⟩]) := by
  have h := C6_translation_collision [("B", "a")] "a" "B" "a"
    (Entry.v (.scalar (.sInt 1))) (Entry.v (.scalar (.sInt 2))) [] rfl rfl
  rw [h]
  rfl

/-! ## Further dictionary lemmas -/

theorem alookup_aset_eq {d : List (String × α)} {k : String} {v : α} :
    alookup (aset d k v) k = some v := by
  induction d with
  | nil => simp [aset, alookup]
  | cons p t ih =>
      obtain ⟨k0, v0⟩ := p
      by_cases h : k0 = k
      · subst h; simp [aset, alookup]
      · rw [aset, if_neg h, alookup, if_neg h, ih]

theorem alookup_aset_ne {d : List (String × α)} {k' k : String} {v : α}
    (h : k' ≠ k) : alookup (aset d k' v) k = alookup d k := by
  induction d with
  | nil => simp [aset, alookup, h]
  | cons p t ih =>
      obtain ⟨k0, v0⟩ := p
      by_cases h0 : k0 = k'
      · subst h0
        rw [aset, if_pos rfl, alookup, if_neg h, alookup, if_neg h]
      · rw [aset, if_neg h0, alookup, alookup, ih]

theorem alookup_adel_ne {d : List (String × α)} {k' k : String}
    (h : k' ≠ k) : alookup (adel d k') k = alookup d k := by
  induction d with
  | nil => rfl
  | cons p t ih =>
      obtain ⟨k0, v0⟩ := p
      by_cases h0 : k0 = k'
      · subst h0
        rw [adel, if_pos rfl, alookup, if_neg h]
      · rw [adel, if_neg h0, alookup, alookup, ih]

theorem alookup_map_val {d : List (String × α)} {k : String} (f : α → β) :
    alookup (d.map (fun p => (p.1, f p.2))) k = (alookup d k).map f := by
  induction d with
  | nil => rfl
  | cons p t ih =>
      obtain ⟨k0, v0⟩ := p
      by_cases h0 : k0 = k
      · subst h0; simp [alookup]
      · simp [alookup, h0, ih]

theorem alookup_aupdate_of_not_mem {u d : List (String × α)} {k : String}
    (h : amem u k = false) : alookup (aupdate d u) k = alookup d k := by
  induction u generalizing d with
  | nil => rfl
  | cons p t ih =>
      obtain ⟨k0, v0⟩ := p
      simp only [amem, Bool.or_eq_false_iff, decide_eq_false_iff_not] at h
      show alookup (aupdate (aset d k0 v0) t) k = alookup d k
      rw [ih h.2, alookup_aset_ne h.1]

theorem alookup_popLoop_not_mem {k : String} :
    ∀ (ks : List String) (d : List (String × α)), k ∉ ks →
      alookup (ks.foldl (fun a k' => if amem a k' then adel a k' else a) d) k
        = alookup d k := by
  intro ks
  induction ks with
  | nil => intro d _; rfl
  | cons k0 t ih =>
      intro d h
      have h0 : k0 ≠ k := fun hc => h (hc ▸ List.mem_cons_self _ _)
      have ht : k ∉ t := fun hc => h (List.mem_cons_of_mem _ hc)
      rw [List.foldl_cons, ih _ ht]
      by_cases hm : amem d k0 = true
      · rw [if_pos hm, alookup_adel_ne h0]
      · rw [if_neg hm]

/-- The NaN pass of `filter_netcdf4_metadata` cannot raise on records whose
values are all scalars: `np.isnan` then either answers or raises a caught
`TypeError`. -/
theorem filterNanPass_scalar_ok (en : List String) :
    ∀ (l : List (String × Val)) (acc : FlatRec),
      (∀ p ∈ l, ∃ s, p.2 = Val.scalar s) →
      ∃ out, filterNanPass en l acc = .ok out := by
  intro l
  induction l with
  | nil => intro acc _; exact ⟨acc, rfl⟩
  | cons p t ih =>
      intro acc h
      obtain ⟨k, v⟩ := p
      obtain ⟨s, hs⟩ := h (k, v) (List.mem_cons_self _ _)
      simp only at hs
      subst hs
      have ht := fun q hq => h q (List.mem_cons_of_mem _ hq)
      cases s with
      | sInt n => exact ih acc ht
      | sStr s => exact ih acc ht
      | sBool b => exact ih acc ht
      | sNone => exact ih acc ht
      | sFloat x =>
          cases x with
          | some q => exact ih acc ht
          | none =>
              simp only [filterNanPass, isnanTruth, sIsnan]
              by_cases hk : en.contains k = true
              · rw [if_pos hk]; exact ih acc ht
              · rw [if_neg hk]; exact ih (adel acc k) ht

/-! ## Claim C10: write of an empty instrument -/

/-- C10: a write call on an instrument with empty data returns right away
with only a log-warning event and no file result — the output file is never
created, opened or modified. -/
theorem C10_empty_write (inst : Instrument) (env : WriteEnv)
    (epoch_name : String) (pmc : Bool) (ct en : Option (List String))
    (ut : Bool) (mt : Option (List (String × List String)))
    (h : inst.isEmpty = true) :
    inst_to_netcdf inst env epoch_name pmc ct en ut mt
      = ⟨[WEvent.logWarn], .ok none⟩ := by
  simp [inst_to_netcdf, h]

/-- C10, witness: the empty case-colliding instrument writes nothing. -/
theorem C10_empty_write_witness :
    inst_to_netcdf exInstCollEmpty exEnv "Epoch" false none none true none
      = ⟨[WEvent.logWarn], .ok none⟩ :=
  C10_empty_write exInstCollEmpty exEnv "Epoch" false none none true none rfl

/-! ## Claim C5: case-insensitive variable-name collisions -/

/-- C5, counterexample: an instrument carrying the case-colliding pair
`Foo`/`foo` but holding no data rows does NOT raise — the empty-data early
return fires before the collision check, and the write returns with only a
log warning. -/
theorem C5_collision_counterexample :
    lowerStr "Foo" = lowerStr "foo" ∧ "Foo" ≠ "foo" ∧
    exInstCollEmpty.variables = ["Foo", "foo"] ∧
    inst_to_netcdf exInstCollEmpty exEnv "Epoch" false none none true none
      = ⟨[WEvent.logWarn], .ok none⟩ :=
  ⟨rfl, by decide, rfl, rfl⟩

/-- C5, amended: on a NON-EMPTY instrument, two distinct variable names
that agree after case folding make the write raise `ValueError` with an
empty event trace — before the file is opened or any bytes are written
(an empty instrument instead returns with a warning and never reaches the
check). -/
theorem C5_case_collision (inst : Instrument) (env : WriteEnv)
    (epoch_name : String) (pmc : Bool) (ct en : Option (List String))
    (ut : Bool) (mt : Option (List (String × List String)))
    (a b : String)
    (hne : inst.isEmpty = false)
    (ha : a ∈ inst.variables) (hb : b ∈ inst.variables)
    (hab : a ≠ b) (hlow : lowerStr a = lowerStr b) :
    inst_to_netcdf inst env epoch_name pmc ct en ut mt
      = ⟨[], .error .valueError⟩ := by
  have hdup : (inst.variables.map lowerStr).dedup.length ≠
      (inst.variables.map lowerStr).length := by
    intro hlen
    have hself : (inst.variables.map lowerStr).dedup
        = inst.variables.map lowerStr :=
      List.Sublist.eq_of_length (List.dedup_sublist _) hlen
    have hnd : (inst.variables.map lowerStr).Nodup :=
      List.dedup_eq_self.mp hself
    exact hab (List.inj_on_of_nodup_map hnd ha hb hlow)
  simp only [inst_to_netcdf, hne, Bool.false_eq_true, if_false]
  rw [if_pos hdup]

/-- C5, witness: the non-empty `Foo`/`foo` instrument raises with no file
events. -/
theorem C5_case_collision_witness :
    inst_to_netcdf exInstColl exEnv "Epoch" false none none true none
      = ⟨[], .error .valueError⟩ :=
  C5_case_collision exInstColl exEnv "Epoch" false none none true none
    "Foo" "foo" rfl (by decide) (by decide) (by decide) rfl

/-! ## Claim C8: codec-owned global attributes -/

/-- C8, counterexample: the format-convention string is NOT codec-owned —
a caller-supplied `Conventions` header attribute survives into the written
file's global attributes verbatim (while the caller's `Date_Start` is
discarded in favour of the codec's value). -/
theorem C8_global_attrs_counterexample :
    (writtenFile (inst_to_netcdf exInstHdr exEnv "Epoch" false none
        (some []) true none)).map (fun f => alookup f.gattrs "Conventions")
      = some (some (.scalar (.sStr "X"))) ∧
    (writtenFile (inst_to_netcdf exInstHdr exEnv "Epoch" false none
        (some []) true none)).map (fun f => alookup f.gattrs "Date_Start")
      = some (some (.scalar (.sStr "ds"))) :=
  ⟨rfl, rfl⟩

/-- C8, amended: the codec-owned, never caller-overridable global
attributes are the SIX provenance items `Date_Start`, `Date_End`, `File`,
`File_Date`, `Generation_Date` and `Logical_File_ID`: for every instrument
and write environment their values in the assembled global-attribute dict
are the codec-computed ones (any caller value is popped first).  The
format-convention string `Conventions` is NOT among them: a caller value
(set in the header and not shadowed by a custom attribute) is kept
verbatim; the codec only fills in its default when the caller supplied
none. -/
theorem C8_global_attrs (inst : Instrument) (env : WriteEnv) :
    (alookup (buildGlobalAttrs inst env) "Date_Start"
        = some (pyCoerceAttr env.dateStart) ∧
     alookup (buildGlobalAttrs inst env) "Date_End"
        = some (pyCoerceAttr env.dateEnd) ∧
     alookup (buildGlobalAttrs inst env) "File"
        = some (pyCoerceAttr env.fileVal) ∧
     alookup (buildGlobalAttrs inst env) "File_Date"
        = some (pyCoerceAttr env.fileDate) ∧
     alookup (buildGlobalAttrs inst env) "Generation_Date"
        = some (pyCoerceAttr env.genDate) ∧
     alookup (buildGlobalAttrs inst env) "Logical_File_ID"
        = some (pyCoerceAttr env.logicalId)) ∧
    (∀ v, alookup inst.header "Conventions" = some v →
      amem inst.custom "Conventions" = false →
      alookup (buildGlobalAttrs inst env) "Conventions"
        = some (pyCoerceAttr v)) := by
  constructor
  · refine ⟨?_, ?_, ?_, ?_, ?_, ?_⟩
    · simp only [buildGlobalAttrs]
      rw [alookup_map_val, alookup_aset_ne (by decide),
        alookup_aset_ne (by decide), alookup_aset_ne (by decide),
        alookup_aset_ne (by decide), alookup_aset_eq]
      rfl
    · simp only [buildGlobalAttrs]
      rw [alookup_map_val, alookup_aset_ne (by decide),
        alookup_aset_ne (by decide), alookup_aset_ne (by decide),
        alookup_aset_ne (by decide), alookup_aset_ne (by decide),
        alookup_aset_eq]
      rfl
    · simp only [buildGlobalAttrs]
      rw [alookup_map_val, alookup_aset_ne (by decide),
        alookup_aset_ne (by decide), alookup_aset_ne (by decide),
        alookup_aset_eq]
      rfl
    · simp only [buildGlobalAttrs]
      rw [alookup_map_val, alookup_aset_ne (by decide),
        alookup_aset_ne (by decide), alookup_aset_eq]
      rfl
    · simp only [buildGlobalAttrs]
      rw [alookup_map_val, alookup_aset_ne (by decide), alookup_aset_eq]
      rfl
    · simp only [buildGlobalAttrs]
      rw [alookup_map_val, alookup_aset_eq]
      rfl
  · intro v hv hc
    have hne : inst.header.isEmpty = false := by
      cases hh : inst.header with
      | nil => rw [hh] at hv; exact absurd hv (by simp [alookup])
      | cons a t => rfl
    have h2 : alookup (aset (aupdate inst.header inst.custom)
        "pysat_version" env.pysatVersion) "Conventions" = some v := by
      rw [alookup_aset_ne (by decide), alookup_aupdate_of_not_mem hc, hv]
    have hm2 : amem (aset (aupdate inst.header inst.custom)
        "pysat_version" env.pysatVersion) "Conventions" = true :=
      amem_iff_exists.mpr ⟨v, alookup_mem h2⟩
    simp only [buildGlobalAttrs, hne, Bool.false_eq_true, if_false,
      hm2, if_true]
    rw [alookup_map_val, alookup_aset_ne (by decide),
      alookup_aset_ne (by decide), alookup_aset_ne (by decide),
      alookup_aset_ne (by decide), alookup_aset_ne (by decide),
      alookup_aset_ne (by decide), alookup_aset_ne (by decide),
      alookup_aset_ne (by decide), alookup_aset_ne (by decide),
      alookup_aset_ne (by decide), alookup_aset_ne (by decide),
      alookup_aset_ne (by decide),
      alookup_popLoop_not_mem pysatItems _ (by decide)]
    by_cases hts : amem (aset (aupdate inst.header inst.custom)
        "pysat_version" env.pysatVersion) "Text_Supplement" = true
    · rw [if_pos hts, h2]; rfl
    · rw [if_neg hts, alookup_aset_ne (by decide), h2]; rfl

/-- C8, witness: on the instrument whose header carries its own
`Conventions` and `Date_Start`, the codec's start date wins and the
caller's convention string survives. -/
theorem C8_global_attrs_witness :
    alookup (buildGlobalAttrs exInstHdr exEnv) "Date_Start"
      = some (pyCoerceAttr exEnv.dateStart) ∧
    alookup (buildGlobalAttrs exInstHdr exEnv) "Conventions"
      = some (pyCoerceAttr (Val.scalar (.sStr "X"))) :=
  ⟨(C8_global_attrs exInstHdr exEnv).1.1,
   (C8_global_attrs exInstHdr exEnv).2 (Val.scalar (.sStr "X")) rfl rfl⟩

/-! ## Claim C7: strict-mode metadata comparison -/

theorem smem_append {l m : List String} {a : String} :
    smem (l ++ m) a = (smem l a || smem m a) := by
  induction l with
  | nil => rfl
  | cons x t ih =>
      show (decide (x = a) || smem (t ++ m) a) = _
      rw [ih, ← Bool.or_assoc]
      rfl

theorem smem_true_of_mem {l : List String} {a : String} (h : a ∈ l) :
    smem l a = true := by
  induction l with
  | nil => cases h
  | cons x t ih =>
      rcases List.mem_cons.mp h with rfl | ht
      · simp [smem]
      · simp [smem, ih ht]

theorem alookup_of_mem_nodup {d : List (String × α)} {k : String} {v : α}
    (hnd : (akeys d).Nodup) (h : (k, v) ∈ d) : alookup d k = some v := by
  induction d with
  | nil => cases h
  | cons p t ih =>
      obtain ⟨k0, v0⟩ := p
      have hnd' := List.nodup_cons.mp hnd
      rcases List.mem_cons.mp h with he | ht
      · cases he
        rw [alookup, if_pos rfl]
      · have hk : k0 ≠ k := by
          intro hc
          subst hc
          exact hnd'.1 (List.mem_map.mpr ⟨(k0, v), ht, rfl⟩)
        rw [alookup, if_neg hk]
        exact ih hnd'.2 ht

theorem mem_aset_or {d : List (String × α)} {k : String} {v : α} :
    ∀ p ∈ aset d k v, p ∈ d ∨ p = (k, v) := by
  induction d with
  | nil =>
      intro p hp
      rcases List.mem_singleton.mp hp with rfl
      exact Or.inr rfl
  | cons q t ih =>
      intro p hp
      obtain ⟨k0, v0⟩ := q
      by_cases h0 : k0 = k
      · rw [aset, if_pos h0] at hp
        rcases List.mem_cons.mp hp with rfl | ht
        · exact Or.inr rfl
        · exact Or.inl (List.mem_cons_of_mem _ ht)
      · rw [aset, if_neg h0] at hp
        rcases List.mem_cons.mp hp with rfl | ht
        · exact Or.inl (List.mem_cons_self _ _)
        · rcases ih p ht with h | h
          · exact Or.inl (List.mem_cons_of_mem _ h)
          · exact Or.inr h

theorem mem_aupdate_or {u : List (String × α)} :
    ∀ {d : List (String × α)}, ∀ p ∈ aupdate d u, p ∈ d ∨ p ∈ u := by
  induction u with
  | nil => intro d p hp; exact Or.inl hp
  | cons q t ih =>
      intro d p hp
      rw [aupdate, List.foldl_cons] at hp
      rcases ih p (by simpa [aupdate] using hp) with h | h
      · rcases mem_aset_or p h with h2 | h2
        · exact Or.inl h2
        · exact Or.inr (h2 ▸ List.mem_cons_self _ _)
      · exact Or.inr (List.mem_cons_of_mem _ h)

theorem mem_akeys_aset {d : List (String × α)} {k x : String} {v : α}
    (h : x ∈ akeys (aset d k v)) : x ∈ akeys d ∨ x = k := by
  obtain ⟨p, hp, rfl⟩ := List.mem_map.mp h
  rcases mem_aset_or p hp with h2 | h2
  · exact Or.inl (List.mem_map.mpr ⟨p, h2, rfl⟩)
  · exact Or.inr (by rw [h2])

theorem akeys_aset_nodup {d : List (String × α)} {k : String} {v : α}
    (h : (akeys d).Nodup) : (akeys (aset d k v)).Nodup := by
  induction d with
  | nil => simp [aset, akeys]
  | cons q t ih =>
      obtain ⟨k0, v0⟩ := q
      have h' := List.nodup_cons.mp h
      by_cases h0 : k0 = k
      · subst h0
        rw [aset, if_pos rfl]
        exact h
      · rw [aset, if_neg h0]
        rw [show akeys ((k0, v0) :: aset t k v)
          = k0 :: akeys (aset t k v) from rfl]
        rw [List.nodup_cons]
        refine ⟨?_, ih h'.2⟩
        intro hmem
        rcases mem_akeys_aset hmem with h2 | h2
        · exact h'.1 h2
        · exact h0 h2

theorem akeys_aupdate_nodup {u : List (String × α)} :
    ∀ {d : List (String × α)}, (akeys d).Nodup →
      (akeys (aupdate d u)).Nodup := by
  induction u with
  | nil => intro d h; exact h
  | cons q t ih =>
      intro d h
      rw [aupdate, List.foldl_cons]
      exact ih (akeys_aset_nodup h)

theorem entryEq_refl_scalar {e : Entry} (h : scalarEntryB e = true) :
    entryEq e e = true := by
  cases e with
  | v x =>
      cases x with
      | scalar s => simpa [entryEq, vEq, scalarEntryB] using h
      | arr1 l => simp [scalarEntryB] at h
      | arr2 l => simp [scalarEntryB] at h
  | sub m => simp [scalarEntryB] at h

theorem entryEqTruth_scalar {a b : Entry}
    (ha : scalarEntryB a = true) (hb : scalarEntryB b = true) :
    entryEqTruth a b = .ok (entryEq a b) := by
  cases a with
  | v x =>
      cases x with
      | scalar s =>
          cases b with
          | v y =>
              cases y with
              | scalar u => rfl
              | arr1 l => simp [scalarEntryB] at hb
              | arr2 l => simp [scalarEntryB] at hb
          | sub m => simp [scalarEntryB] at hb
      | arr1 l => simp [scalarEntryB] at ha
      | arr2 l => simp [scalarEntryB] at ha
  | sub m => simp [scalarEntryB] at ha

theorem mrecEqAux_scalar {b : MRec}
    (hb : ∀ q ∈ b, scalarEntryB q.2 = true) :
    ∀ (a : MRec), (∀ q ∈ a, scalarEntryB q.2 = true) →
      mrecEqAux b a = .ok (a.all (fun p =>
        match alookup b p.1 with
        | some w => entryEq p.2 w
        | none => false)) := by
  intro a
  induction a with
  | nil => intro _; rfl
  | cons q t ih =>
      intro ha
      obtain ⟨k, e⟩ := q
      rw [mrecEqAux]
      cases hl : alookup b k with
      | none => simp [hl]
      | some w =>
          have hw : scalarEntryB w = true := hb (k, w) (alookup_mem hl)
          have he : scalarEntryB e = true :=
            ha (k, e) (List.mem_cons_self _ _)
          show (do
            let q ← entryEqTruth e w
            if q = true then mrecEqAux b t else Except.ok false) = _
          rw [entryEqTruth_scalar he hw, except_bind_ok]
          cases hq : entryEq e w with
          | true =>
              rw [if_pos rfl,
                ih (fun q hq' => ha q (List.mem_cons_of_mem _ hq'))]
              simp [hl, hq]
          | false =>
              rw [if_neg (by simp)]
              simp [hl, hq]

theorem mrecEqTruth_scalar {a b : MRec}
    (ha : ∀ q ∈ a, scalarEntryB q.2 = true)
    (hb : ∀ q ∈ b, scalarEntryB q.2 = true) :
    mrecEqTruth a b = .ok (mrecEq a b) := by
  unfold mrecEqTruth mrecEq
  by_cases hl : a.length = b.length
  · rw [if_pos hl, mrecEqAux_scalar hb a ha]
    simp [hl]
  · rw [if_neg hl]
    simp [hl]

theorem mrecEq_refl {r : MRec} (hnd : (akeys r).Nodup)
    (hs : ∀ q ∈ r, scalarEntryB q.2 = true) : mrecEq r r = true := by
  unfold mrecEq
  rw [Bool.and_eq_true]
  refine ⟨by simp, List.all_eq_true.mpr ?_⟩
  intro p hp
  rw [alookup_of_mem_nodup hnd (show (p.1, p.2) ∈ r by simpa using hp)]
  exact entryEq_refl_scalar (hs p hp)

theorem savedEqAux_scalar {rks : List String} {sv : MDict}
    (hsv : ScalarDict sv) :
    ∀ (l : MDict), ScalarDict l →
      (∀ p ∈ l, smem rks p.1 = false → alookup sv p.1 = some p.2) →
      savedEqAux rks sv l = .ok (l.all (fun p =>
        match alookup sv p.1 with
        | some r => mrecEq p.2 r
        | none => false)) := by
  intro l
  induction l with
  | nil => intro _ _; rfl
  | cons p t ih =>
      intro hsc hid
      obtain ⟨k, r⟩ := p
      have hsc_h := hsc (k, r) (List.mem_cons_self _ _)
      have hsc_t : ScalarDict t :=
        fun q hq => hsc q (List.mem_cons_of_mem _ hq)
      have hid_t : ∀ p ∈ t, smem rks p.1 = false →
          alookup sv p.1 = some p.2 :=
        fun q hq => hid q (List.mem_cons_of_mem _ hq)
      rw [savedEqAux]
      cases hm : smem rks k with
      | true =>
          rw [if_pos rfl]
          cases hl : alookup sv k with
          | none => simp [hl]
          | some r' =>
              have hr' := hsv (k, r') (alookup_mem hl)
              show (do
                let q ← mrecEqTruth r r'
                if q = true then savedEqAux rks sv t
                else Except.ok false) = _
              rw [mrecEqTruth_scalar hsc_h.2 hr'.2, except_bind_ok]
              cases hq : mrecEq r r' with
              | true =>
                  rw [if_pos rfl, ih hsc_t hid_t]
                  simp [hl, hq]
              | false =>
                  rw [if_neg (by simp)]
                  simp [hl, hq]
      | false =>
          rw [if_neg (by simp), ih hsc_t hid_t]
          have hlk : alookup sv k = some r := hid (k, r)
            (List.mem_cons_self _ _) hm
          simp [hlk, mrecEq_refl hsc_h.1 hsc_h.2]

theorem strictDictEq_scalar {fm sv : MDict} {rks : List String}
    (hfm : ScalarDict fm) (hsv : ScalarDict sv)
    (hid : ∀ p ∈ fm, smem rks p.1 = false → alookup sv p.1 = some p.2) :
    strictDictEqTruth fm sv rks = .ok (mdictEq fm sv) := by
  unfold strictDictEqTruth mdictEq
  by_cases hl : fm.length = sv.length
  · rw [if_pos hl, savedEqAux_scalar hsv fm hfm hid]
    simp [hl]
  · rw [if_neg hl]
    simp [hl]

/-- The strict scan on scalar-fragment dictionaries, against a saved state
whose records agree with the running dictionary outside the reassigned
keys: every step's comparison is total, and the scan succeeds exactly when
every accumulated state is dict-equal to the saved one. -/
theorem strictScan_saved_eq (sv : MDict) (hsv : ScalarDict sv) :
    ∀ (t : List MDict) (fm : MDict) (rks : List String),
      (∀ m ∈ t, ScalarDict m) → ScalarDict fm →
      (∀ p ∈ fm, smem rks p.1 = false → alookup sv p.1 = some p.2) →
      strictMetaScan true t fm (some (sv, rks)) =
        (if ((List.range t.length).all (fun i =>
            mdictEq ((t.take (i + 1)).foldl aupdate fm) sv)) = true
         then .ok (t.foldl aupdate fm)
         else .error .valueError) := by
  intro t
  induction t with
  | nil => intro fm rks _ _ _; rfl
  | cons f t ih =>
      intro fm rks hts hfm hid
      have hf : ScalarDict f := hts f (List.mem_cons_self _ _)
      have hfm' : ScalarDict (aupdate fm f) := by
        intro p hp
        rcases mem_aupdate_or p hp with h | h
        · exact hfm p h
        · exact hf p h
      have hid' : ∀ p ∈ aupdate fm f,
          smem (rks ++ akeys f) p.1 = false →
          alookup sv p.1 = some p.2 := by
        intro p hp hc
        rw [smem_append, Bool.or_eq_false_iff] at hc
        rcases mem_aupdate_or p hp with h | h
        · exact hid p h hc.1
        · have hmem : p.1 ∈ akeys f := List.mem_map.mpr ⟨p, h, rfl⟩
          rw [smem_true_of_mem hmem] at hc
          exact absurd hc.2 (by simp)
      show (do
        let q ← strictDictEqTruth (aupdate fm f) sv (rks ++ akeys f)
        if q then
          strictMetaScan true t (aupdate fm f) (some (sv, rks ++ akeys f))
        else .error .valueError) = _
      rw [strictDictEq_scalar hfm' hsv hid', except_bind_ok]
      by_cases h : mdictEq (aupdate fm f) sv = true
      · rw [if_pos h, ih (aupdate fm f) (rks ++ akeys f)
          (fun m hm => hts m (List.mem_cons_of_mem _ hm)) hfm' hid']
        have hcond : ((List.range (f :: t).length).all (fun i =>
            mdictEq (((f :: t).take (i + 1)).foldl aupdate fm) sv))
            = ((List.range t.length).all (fun i =>
            mdictEq ((t.take (i + 1)).foldl aupdate (aupdate fm f)) sv)) := by
          rw [List.length_cons, List.range_succ_eq_map]
          simp only [List.all_cons, List.all_map, Function.comp_def,
            List.take_succ_cons, List.foldl_cons]
          rw [show mdictEq ((t.take 0).foldl aupdate (aupdate fm f)) sv
            = true from h]
          simp
        rw [hcond]
        rfl
      · rw [if_neg h]
        have hfneg : mdictEq (aupdate fm f) sv = false := by
          simpa using h
        have hcond : ((List.range (f :: t).length).all (fun i =>
            mdictEq (((f :: t).take (i + 1)).foldl aupdate fm) sv))
            = false := by
          rw [List.length_cons, List.range_succ_eq_map]
          simp only [List.all_cons, List.all_map, Function.comp_def,
            List.take_succ_cons, List.foldl_cons]
          rw [show mdictEq ((t.take 0).foldl aupdate (aupdate fm f)) sv
            = false from hfneg]
          simp
        rw [hcond]
        simp

/-- C7, counterexample: (i) the strict comparison is made against the
ACCUMULATED dictionary, not file-by-file — a second file whose own
post-filter metadata dictionary differs from the first file's (here: it
lacks variable `b` entirely) loads WITHOUT error under strict mode,
because merging it into the accumulated dictionary leaves that dictionary
unchanged; (ii) the comparison itself can raise — re-reading the SAME
file, whose variable `a` carries a two-element array attribute, raises
`ValueError` although the metadata is identical (the freshly read record
compares by value and the array comparison's truth test raises). -/
theorem C7_strict_meta_counterexample :
    (loadOneFile "Epoch" [] exFileAB).map Prod.snd
      = .ok [("Epoch", []), ("a", [("units", .v (.scalar (.sStr "u")))]),
             ("b", [])] ∧
    (loadOneFile "Epoch" [] exFileA).map Prod.snd
      = .ok [("Epoch", []), ("a", [("units", .v (.scalar (.sStr "u")))])] ∧
    mdictEq [("Epoch", []), ("a", [("units", .v (.scalar (.sStr "u")))])]
        [("Epoch", []), ("a", [("units", .v (.scalar (.sStr "u")))]),
         ("b", [])]
      = false ∧
    (match load_netcdf_pandas [exFileAB, exFileA] true "Epoch" none [] with
     | .ok _ => true
     | .error _ => false) = true ∧
    (load_netcdf_pandas [exFileAB, exFileA'] true "Epoch" none []).isOk
      = false ∧
    (load_netcdf_pandas [exFileArr] true "Epoch" none []).isOk = true ∧
    load_netcdf_pandas [exFileArr, exFileArr] true "Epoch" none []
      = .error .valueError :=
  ⟨rfl, rfl, rfl, rfl, rfl, rfl, rfl⟩

/-- C7, amended: under strict mode the loop compares the ACCUMULATED
metadata dictionary — the running union of the files read so far —
against the shallow copy saved after the first file.  On the directly
comparable fragment (records with unique labels and non-NaN scalar
values) the scan raises `ValueError` exactly when some accumulated state
differs under dict equality from the saved state, and succeeds with the
full union otherwise (so a later file whose own dictionary is merely a
subset of the first's passes); outside that fragment the comparison
itself can raise: records reassigned by a later file compare by value,
and a multi-element array attribute value makes the truth test raise
`ValueError` even when the dictionaries are equal — as the concrete
conjuncts show, at the scan and at the full read.  On failure the result
is the error, not the first file's dictionary. -/
theorem C7_strict_meta :
    (∀ (f0 : MDict) (files : List MDict),
      ScalarDict f0 → (∀ m ∈ files, ScalarDict m) →
      strictMetaScan true (f0 :: files) [] none =
        (if ((List.range files.length).all (fun i =>
            mdictEq (accumUpTo (f0 :: files) (i + 1))
              (accumUpTo (f0 :: files) 0))) = true
         then .ok ((f0 :: files).foldl aupdate [])
         else .error .valueError)) ∧
    strictMetaScan true [exMetaArr, exMetaArr] [] none
      = .error .valueError ∧
    mdictEq (aupdate [] exMetaArr) (aupdate [] exMetaArr) = true := by
  refine ⟨?_, rfl, rfl⟩
  intro f0 files h0 hts
  have hsv : ScalarDict (aupdate [] f0) := by
    intro p hp
    rcases mem_aupdate_or p hp with h | h
    · cases h
    · exact h0 p h
  have hstart : strictMetaScan true (f0 :: files) [] none
      = strictMetaScan true files (aupdate [] f0)
          (some (aupdate [] f0, [])) := rfl
  rw [hstart, strictScan_saved_eq (aupdate [] f0) hsv files
    (aupdate [] f0) [] hts hsv
    (fun p hp _ => alookup_of_mem_nodup
      (akeys_aupdate_nodup List.nodup_nil) hp)]
  rfl

/-- C7, witness: the scalar-fragment strict scan at two identical
one-variable scalar dictionaries — the comparison is total there and the
scan succeeds with the union. -/
theorem C7_strict_meta_witness :
    strictMetaScan true
      [[("a", [("u", Entry.v (.scalar (.sStr "x")))])],
       [("a", [("u", Entry.v (.scalar (.sStr "x")))])]] [] none
      = .ok [("a", [("u", Entry.v (.scalar (.sStr "x")))])] := by
  have h := C7_strict_meta.1 [("a", [("u", Entry.v (.scalar (.sStr "x")))])]
    [[("a", [("u", Entry.v (.scalar (.sStr "x")))])]] (by decide) (by decide)
  rw [h]
  rfl

/-! ## Claim C4: the metadata filter -/

/-- C4, counterexample: (i) `filter_netcdf4_metadata` CAN raise — a
two-element numeric array value makes the `np.isnan` truth test raise an
uncaught `ValueError`, failing the write; (ii) with `export_nan = []` a
NaN can still appear in the returned dict: the string value `"nan"` on the
`fill` label, declared float, is "successfully" cast by `float(\x22nan\x22)`
back to NaN and kept. -/
theorem C4_filter_counterexample :
    filter_netcdf4_metadata [("x", .arr1 [.sInt 1, .sInt 2])] .tFloat false
      [] [] = .error .valueError ∧
    filter_netcdf4_metadata [("fill", .scalar (.sStr "nan"))] .tFloat false
      ["fill"] []
      = .ok ⟨[("fill", .scalar (.sFloat none))], []⟩ :=
  ⟨rfl, rfl⟩

/-- C4, amended: (1) on metadata whose values are all scalars the filter
never raises (malformed scalar values degrade to omissions or casts); an
array value can instead abort it with `ValueError`.  (2) The concrete
`mlt` scenario holds as stated: writing `{units: hours, fill: NaN}` with
`export_nan = []` reads back with the `fill` label absent, and with
`export_nan = [\x22fill\x22]` it reads back present and NaN. -/
theorem C4_filter :
    (∀ (mdata : FlatRec) (coltype : PyType) (remove : Bool)
      (ct en : List String),
      (∀ p ∈ mdata, ∃ s, p.2 = Val.scalar s) →
      (filter_netcdf4_metadata mdata coltype remove ct en).isOk = true) ∧
    mltReadRec [] = some (.ok (some
      [("units", .v (.scalar (.sStr "hours")))])) ∧
    mltReadRec ["fill"] = some (.ok (some
      [("units", .v (.scalar (.sStr "hours"))),
       ("fill", .v (.scalar (.sFloat none)))])) := by
  refine ⟨?_, rfl, rfl⟩
  intro mdata coltype remove ct en h
  obtain ⟨f, hf⟩ := filterNanPass_scalar_ok en mdata mdata h
  show (Except.bind (filterNanPass en mdata mdata) _).isOk = true
  rw [hf]
  rfl

/-- C4, witness: the scalar-record no-raise statement at a concrete
record. -/
theorem C4_filter_witness :
    (filter_netcdf4_metadata [("units", Val.scalar (.sStr "h"))] .tFloat
      false ["fill", "value_max", "value_min"] []).isOk = true :=
  C4_filter.1 [("units", Val.scalar (.sStr "h"))] .tFloat false
    ["fill", "value_max", "value_min"] []
    (by
      intro p hp
      rcases List.mem_singleton.mp hp with rfl
      exact ⟨.sStr "h", rfl⟩)

/-! ## The standards overlay on clean records -/

theorem cleanKey_not_std {k : String} (h : cleanKey k = true) :
    stdLowerVals.contains (lowerStr k) = false := by
  simp only [cleanKey, Bool.and_eq_true, Bool.not_eq_true'] at h
  exact h.1.1.1

theorem cleanKey_not_meta {k : String} (h : cleanKey k = true) :
    lowerStr k ≠ "meta" := by
  simp only [cleanKey, Bool.and_eq_true, decide_eq_true_eq] at h
  exact h.2

theorem amem_false_of_cleanKeys {r : FlatRec}
    (hr : ∀ p ∈ r, cleanKey p.1 = true) {k : String}
    (hk : cleanKey k = false) : amem r k = false := by
  apply amem_false_of_forall
  intro q hq hqk
  have h := hr q hq
  rw [hqk, hk] at h
  exact Bool.false_ne_true h

theorem mapM_ok_of_forall {α β : Type} (f : α → Except PyErr β)
    (g : α → β) :
    ∀ l : List α, (∀ x ∈ l, f x = .ok (g x)) →
      l.mapM f = .ok (l.map g) := by
  intro l
  induction l with
  | nil => intro _; rfl
  | cons x t ih =>
      intro h
      rw [List.mapM_cons, h x (List.mem_cons_self _ _),
        ih (fun y hy => h y (List.mem_cons_of_mem _ hy))]
      rfl

theorem akeys_wrapRec (r : FlatRec) : akeys (wrapRec r) = akeys r := by
  simp [akeys, wrapRec, List.map_map, Function.comp_def]

theorem wrapRec_filter (r : FlatRec) :
    (wrapRec r).filter (fun q => !(stdLowerVals.contains (lowerStr q.1)))
      = wrapRec (r.filter
          (fun q => !(stdLowerVals.contains (lowerStr q.1)))) := by
  rw [wrapRec, List.filter_map]
  rfl

/-- One record of the standards removal, on a wrapped flat record with
unique keys and no (case-insensitive) `meta` label: all case-insensitive
standards matches are filtered out. -/
theorem removeOneRec_flat (n : String) (xs : FlatRec)
    (hnd : (akeys xs).Nodup)
    (hmeta : ∀ p ∈ xs, lowerStr p.1 ≠ "meta") :
    removeOneRec (n, wrapRec xs)
      = .ok (n, (wrapRec xs).filter
          (fun q => !(stdLowerVals.contains (lowerStr q.1)))) := by
  have hnotm : "meta" ∉ (akeys (wrapRec xs)).map lowerStr := by
    rw [akeys_wrapRec]
    intro hc
    obtain ⟨k, hk, hke⟩ := List.mem_map.mp hc
    obtain ⟨q, hq, hqk⟩ := List.mem_map.mp hk
    exact hmeta q hq (by rw [hqk]; exact hke)
  have hcont : ((akeys (wrapRec xs)).map lowerStr).contains "meta"
      = false := by
    rcases hb : ((akeys (wrapRec xs)).map lowerStr).contains "meta" with _ | _
    · rfl
    · exact absurd (List.mem_of_elem_eq_true hb) hnotm
  simp only [removeOneRec, hcont, Bool.false_eq_true, if_false]
  rw [stripStdRec_eq_filter (by rw [akeys_wrapRec]; exact hnd)]
  rfl

/-- The per-variable loop of `add_netcdf4_standards_to_metadict` over a
clean instrument: enriched records accumulate left to right, everything
else (the `tail`, e.g. an epoch record) is left in place. -/
theorem addStd_loop (cvs : List CleanVar) (index : List Int)
    (tail : WMeta)
    (hok : ∀ c ∈ cvs, CleanVarOK c)
    (hnd : (cvs.map CleanVar.cname).Nodup) :
    ∀ (todo pre : List CleanVar), cvs = pre ++ todo →
      (todo.map (fun c =>
          (⟨c.cname, .scalar ⟨c.ctype, false, c.values⟩⟩ : IVar))).foldlM
        (fun md v =>
          if metaHasVar (mkCleanInst cvs index).meta v.name
              && v.name ≠ "Epoch" then
            addStdOneVar (mkCleanInst cvs index) "Epoch"
              ["fill", "value_max", "value_min"] [] md v
          else pure md)
        (pre.map (fun c => (c.cname, enrichRec "Epoch" c))
          ++ todo.map (fun c => (c.cname, c.crec)) ++ tail)
      = .ok (pre.map (fun c => (c.cname, enrichRec "Epoch" c))
          ++ todo.map (fun c => (c.cname, enrichRec "Epoch" c)) ++ tail) := by
  intro todo
  induction todo with
  | nil => intro pre hsplit; rfl
  | cons c rest ih =>
      intro pre hsplit
      have hcmem : c ∈ cvs := by
        rw [hsplit]
        exact List.mem_append_right _ (List.mem_cons_self _ _)
      obtain ⟨hlow, hnotep, hty, hvals, ⟨hndr, hclean⟩, hfmm⟩ := hok c hcmem
      have hepoch : c.cname ≠ "Epoch" := fun h => by
        rw [h] at hlow
        exact absurd hlow (by decide)
      have hmetaHas : metaHasVar (mkCleanInst cvs index).meta c.cname
          = true := by
        unfold metaHasVar
        rw [List.any_eq_true]
        exact ⟨(c.cname, c.crec), List.mem_map.mpr ⟨c, hcmem, rfl⟩, by simp⟩
      have hcond : (metaHasVar (mkCleanInst cvs index).meta c.cname
          && decide (c.cname ≠ "Epoch")) = true := by
        rw [hmetaHas, decide_eq_true hepoch]
        rfl
      -- the type membership, concretely
      have hty' : c.ctype = .tInt ∨ c.ctype = .tFloat ∨ c.ctype = .tStr := by
        simpa using hty
      have hnorm : normColtype c.ctype = c.ctype := by
        rcases hty' with h | h | h <;> rw [h] <;> rfl
      -- name disjointness from the prefix
      have hnd' : (pre.map CleanVar.cname
          ++ (c :: rest).map CleanVar.cname).Nodup := by
        rw [← List.map_append, ← hsplit]
        exact hnd
      have hnotpre : c.cname ∉ pre.map CleanVar.cname := by
        intro hmem
        exact (List.nodup_append.mp hnd').2.2 hmem
          (List.mem_cons_self _ _)
      have hpre_amem :
          amem (pre.map (fun c => (c.cname, enrichRec "Epoch" c))) c.cname
            = false := by
        apply amem_false_of_forall
        intro q hq hqk
        obtain ⟨c', hc', hce⟩ := List.mem_map.mp hq
        apply hnotpre
        rw [← hqk, ← hce]
        exact List.mem_map.mpr ⟨c', hc', rfl⟩
      -- the standards block and its disjointness from the clean record
      have hbkeys : ∀ k ∈ ["Depend_0", "Display_Type", "Var_Type", "Format"],
          cleanKey k = false := by decide
      have hbdisj : ∀ p ∈ addedStdBlock "Epoch" c.ctype,
          amem c.crec p.1 = false := by
        intro p hp
        apply amem_false_of_cleanKeys (fun q hq => (hclean q hq).1)
        apply hbkeys
        have : p.1 ∈ akeys (addedStdBlock "Epoch" c.ctype) :=
          List.mem_map.mpr ⟨p, hp, rfl⟩
        rw [show akeys (addedStdBlock "Epoch" c.ctype)
          = ["Depend_0", "Display_Type", "Var_Type", "Format"] from rfl] at this
        exact this
      have hupd : aupdate c.crec (addedStdBlock "Epoch" c.ctype)
          = enrichRec "Epoch" c :=
        aupdate_append hbdisj (by
          rw [show akeys (addedStdBlock "Epoch" c.ctype)
            = ["Depend_0", "Display_Type", "Var_Type", "Format"] from rfl]
          decide)
      -- the filter is the identity on the enriched record
      have hfilt : ∀ rm, filter_netcdf4_metadata (enrichRec "Epoch" c)
          c.ctype rm ["fill", "value_max", "value_min"] []
          = .ok ⟨enrichRec "Epoch" c, []⟩ := by
        intro rm
        apply filter_id
        intro p hp
        rcases List.mem_append.mp hp with hp | hp
        · refine ⟨(hclean p hp).2, fun hcon => ?_⟩
          rw [hnorm]
          apply hfmm p hp
          have := List.mem_of_elem_eq_true hcon
          simpa using this
        · rcases List.mem_append.mp hp with hp | hp
          · simp only [stdBaseDict, List.mem_cons, List.mem_singleton,
              List.not_mem_nil, or_false] at hp
            rcases hp with rfl | rfl | rfl <;>
              exact ⟨rfl, fun hcon => absurd hcon (by decide)⟩
          · rw [List.mem_singleton] at hp
            subst hp
            exact ⟨rfl, fun hcon => absurd hcon
              (show ¬(["fill", "value_max", "value_min"].contains "Format"
                = true) by decide)⟩
      -- one step of the loop
      have hlookup : alookup
          (pre.map (fun c => (c.cname, enrichRec "Epoch" c))
            ++ ((c.cname, c.crec) :: (rest.map (fun c => (c.cname, c.crec))
              ++ tail))) c.cname = some c.crec := by
        rw [alookup_append_right hpre_amem, alookup, if_pos rfl]
      have hstep : (if metaHasVar (mkCleanInst cvs index).meta c.cname
            && c.cname ≠ "Epoch" then
          addStdOneVar (mkCleanInst cvs index) "Epoch"
            ["fill", "value_max", "value_min"] []
            (pre.map (fun c => (c.cname, enrichRec "Epoch" c))
              ++ ((c.cname, c.crec) :: (rest.map (fun c => (c.cname, c.crec))
                ++ tail)))
            ⟨c.cname, .scalar ⟨c.ctype, false, c.values⟩⟩
        else pure (pre.map (fun c => (c.cname, enrichRec "Epoch" c))
              ++ ((c.cname, c.crec) :: (rest.map (fun c => (c.cname, c.crec))
                ++ tail))))
          = .ok (pre.map (fun c => (c.cname, enrichRec "Epoch" c))
              ++ ((c.cname, enrichRec "Epoch" c)
                :: (rest.map (fun c => (c.cname, c.crec)) ++ tail))) := by
        rw [if_pos hcond]
        simp only [addStdOneVar, hlow, Bool.false_eq_true, if_false,
          hlookup]
        rw [show aset (stdBaseDict "Epoch") "Format"
            (Val.scalar (.sStr (varTypeCode c.ctype)))
          = addedStdBlock "Epoch" c.ctype from rfl]
        rw [hupd, hfilt]
        show Except.ok (aset _ c.cname (enrichRec "Epoch" c)) = _
        rw [aset_middle hpre_amem]
      rw [List.map_cons, List.map_cons, List.append_assoc, List.cons_append,
        List.foldlM_cons, hstep]
      show (rest.map (fun c =>
          (⟨c.cname, .scalar ⟨c.ctype, false, c.values⟩⟩ : IVar))).foldlM _ _
        = _
      have hihres := ih (pre ++ [c]) (by
        rw [hsplit, List.append_assoc]
        rfl)
      rw [List.map_append] at hihres
      simp only [List.map_cons, List.map_nil, List.append_assoc,
        List.singleton_append, List.cons_append] at hihres ⊢
      exact hihres

/-- `add_netcdf4_standards_to_metadict` on a clean instrument: every
variable's record gains exactly the flat standards block; any extra
records (`tail`) pass through untouched. -/
theorem addStd_clean (cvs : List CleanVar) (index : List Int) (tail : WMeta)
    (hok : ∀ c ∈ cvs, CleanVarOK c)
    (hnd : (cvs.map CleanVar.cname).Nodup) :
    add_netcdf4_standards_to_metadict (mkCleanInst cvs index)
      (cvs.map (fun c => (c.cname, c.crec)) ++ tail) "Epoch"
      ["fill", "value_max", "value_min"] []
      = .ok (cvs.map (fun c => (c.cname, enrichRec "Epoch" c)) ++ tail) := by
  have h := addStd_loop cvs index tail hok hnd cvs [] rfl
  rw [List.map_nil, List.nil_append, List.nil_append] at h
  exact h

/-- The standards filter restores a clean record: the clean labels
survive, the appended standards block is deleted wholesale. -/
theorem enrich_strip (c : CleanVar)
    (h : ∀ p ∈ c.crec, cleanKey p.1 = true) :
    (enrichRec "Epoch" c).filter
        (fun q => !(stdLowerVals.contains (lowerStr q.1)))
      = c.crec := by
  rw [enrichRec, List.filter_append]
  rw [show (addedStdBlock "Epoch" c.ctype).filter
      (fun q => !(stdLowerVals.contains (lowerStr q.1))) = [] from rfl]
  rw [List.append_nil, List.filter_eq_self]
  intro p hp
  rw [cleanKey_not_std (h p hp)]
  rfl

/-- The dict-level standards removal on records without nested sets and
without an epoch record: every record is filtered in place. -/
theorem remove_clean_noepoch (m : List (String × FlatRec))
    (hnd : ∀ p ∈ m, (akeys p.2).Nodup)
    (hmeta : ∀ p ∈ m, ∀ q ∈ p.2, lowerStr q.1 ≠ "meta")
    (hepoch : ∀ p ∈ m, p.1 ≠ "Epoch") :
    remove_netcdf4_standards_from_meta (wrapM m) "Epoch"
      = .ok (m.map (fun p => (p.1, wrapRec (p.2.filter
          (fun q => !(stdLowerVals.contains (lowerStr q.1))))))) := by
  have hmapM : (wrapM m).mapM removeOneRec
      = .ok ((wrapM m).map (fun x => (x.1, x.2.filter
          (fun q => !(stdLowerVals.contains (lowerStr q.1)))))) := by
    apply mapM_ok_of_forall
    intro x hx
    obtain ⟨p, hp, hpe⟩ := List.mem_map.mp hx
    subst hpe
    exact removeOneRec_flat p.1 p.2 (hnd p hp) (hmeta p hp)
  have hmap : (wrapM m).map (fun x => (x.1, x.2.filter
        (fun q => !(stdLowerVals.contains (lowerStr q.1)))))
      = m.map (fun p => (p.1, wrapRec (p.2.filter
          (fun q => !(stdLowerVals.contains (lowerStr q.1)))))) := by
    rw [wrapM, List.map_map]
    apply List.map_congr_left
    intro p _
    show (p.1, (wrapRec p.2).filter _) = _
    rw [wrapRec_filter]
  have hmem : amem (m.map (fun p => (p.1, wrapRec (p.2.filter
        (fun q => !(stdLowerVals.contains (lowerStr q.1))))))) "Epoch"
      = false := by
    apply amem_false_of_forall
    intro q hq hqk
    obtain ⟨p, hp, hpe⟩ := List.mem_map.mp hq
    apply hepoch p hp
    rw [← hpe] at hqk
    exact hqk
  unfold remove_netcdf4_standards_from_meta
  rw [hmapM, hmap, except_bind_ok]
  rw [hmem]
  rfl

/-! ## Claim C2: the standards overlay -/

/-- C2, counterexample: (i) `remove(add(M))` loses a `None`-valued label
(`extra`) even though it is none of the fill/min/max exceptions; (ii) the
removal deletes case-INSENSITIVELY, wiping the non-member label `FORMAT`;
(iii) a record carrying a nested `meta` key keeps its top-level standards
labels — the member `Format` is NOT deleted there. -/
theorem C2_overlay_counterexample :
    (add_netcdf4_standards_to_metadict exInstNone exInstNone.meta "Epoch"
        ["fill", "value_max", "value_min"] []).map
      (fun m => remove_netcdf4_standards_from_meta (wrapM m) "Epoch")
      = .ok (.ok [("mlt", [("units", .v (.scalar (.sStr "hours")))])]) ∧
    wrapM exInstNone.meta
      ≠ [("mlt", [("units", .v (.scalar (.sStr "hours")))])] ∧
    remove_netcdf4_standards_from_meta
        [("v", [("FORMAT", .v (.scalar (.sStr "s"))),
                ("u8", .v (.scalar (.sInt 1)))])] ""
      = .ok [("v", [("u8", .v (.scalar (.sInt 1)))])] ∧
    stdVals.contains "FORMAT" = false ∧
    remove_netcdf4_standards_from_meta
        [("p", [("Format", .v (.scalar (.sStr "s"))), ("meta", .sub [])])] ""
      = .ok [("p", [("Format", .v (.scalar (.sStr "s"))),
                    ("meta", .sub [])])] :=
  ⟨rfl, by decide, rfl, rfl, rfl⟩

/-- C2, amended: on clean metadata — scalar non-None/non-NaN/non-bool
values, labels that do not case-fold into the standards set, no reserved
fill labels, no nested `meta` keys, and fill/min/max values matching the
declared type — the overlay add appends exactly the flat standards block
to each variable's record, and the removal deletes it again, restoring the
metadata exactly; in general the per-record removal deletes exactly the
labels that MATCH A STANDARDS LABEL CASE-INSENSITIVELY (not just the
literal set members). -/
theorem C2_overlay (cvs : List CleanVar) (index : List Int)
    (hok : ∀ c ∈ cvs, CleanVarOK c)
    (hnd : (cvs.map CleanVar.cname).Nodup) :
    (add_netcdf4_standards_to_metadict (mkCleanInst cvs index)
        (mkCleanInst cvs index).meta "Epoch"
        ["fill", "value_max", "value_min"] []
      = .ok (cvs.map (fun c => (c.cname, enrichRec "Epoch" c)))) ∧
    (remove_netcdf4_standards_from_meta
        (wrapM (cvs.map (fun c => (c.cname, enrichRec "Epoch" c)))) "Epoch"
      = .ok (wrapM (cvs.map (fun c => (c.cname, c.crec))))) ∧
    (∀ (r : MRec), (akeys r).Nodup →
      stripStdRec r = r.filter
        (fun p => !(stdLowerVals.contains (lowerStr p.1)))) := by
  have hall : ∀ k ∈ ["Depend_0", "Display_Type", "Var_Type", "Format"],
      cleanKey k = false := by decide
  refine ⟨?_, ?_, fun r h => stripStdRec_eq_filter h⟩
  · have h := addStd_clean cvs index [] hok hnd
    rw [List.append_nil, List.append_nil] at h
    exact h
  · have h := remove_clean_noepoch
      (cvs.map (fun c => (c.cname, enrichRec "Epoch" c)))
      (by
        intro p hp
        obtain ⟨c, hc, rfl⟩ := List.mem_map.mp hp
        obtain ⟨hlow, hnotep, hty, hvals, ⟨hndr, hclean⟩, hfmm⟩ := hok c hc
        show (akeys (c.crec ++ addedStdBlock "Epoch" c.ctype)).Nodup
        rw [akeys_append,
          show akeys (addedStdBlock "Epoch" c.ctype)
            = ["Depend_0", "Display_Type", "Var_Type", "Format"] from rfl,
          List.nodup_append]
        refine ⟨hndr, by decide, ?_⟩
        intro a ha hb
        obtain ⟨q, hq, hqa⟩ := List.mem_map.mp ha
        have hck := (hclean q hq).1
        rw [hqa, hall a hb] at hck
        exact Bool.false_ne_true hck)
      (by
        intro p hp q hq
        obtain ⟨c, hc, rfl⟩ := List.mem_map.mp hp
        obtain ⟨hlow, hnotep, hty, hvals, ⟨hndr, hclean⟩, hfmm⟩ := hok c hc
        rcases List.mem_append.mp hq with hq | hq
        · exact cleanKey_not_meta (hclean q hq).1
        · have hk : q.1 ∈ akeys (addedStdBlock "Epoch" c.ctype) :=
            List.mem_map.mpr ⟨q, hq, rfl⟩
          rw [show akeys (addedStdBlock "Epoch" c.ctype)
            = ["Depend_0", "Display_Type", "Var_Type", "Format"]
            from rfl] at hk
          have hall2 : ∀ k ∈ ["Depend_0", "Display_Type", "Var_Type",
              "Format"], lowerStr k ≠ "meta" := by decide
          exact hall2 q.1 hk)
      (by
        intro p hp
        obtain ⟨c, hc, rfl⟩ := List.mem_map.mp hp
        obtain ⟨hlow, _, _, _, _, _⟩ := hok c hc
        intro h
        have h' : c.cname = "Epoch" := h
        rw [h'] at hlow
        exact absurd hlow (by decide))
    rw [h, List.map_map, wrapM, List.map_map]
    apply congrArg Except.ok
    apply List.map_congr_left
    intro c hc
    show (c.cname, wrapRec ((enrichRec "Epoch" c).filter _)) = _
    rw [enrich_strip c (fun p hp =>
      ((hok c hc).2.2.2.2.1.2 p hp).1)]
    rfl

/-- C2, witness: the overlay theorem at a concrete one-variable clean
metadata set. -/
theorem C2_overlay_witness :
    add_netcdf4_standards_to_metadict
        (mkCleanInst [⟨"mlt", .tFloat, [.sFloat (some 1)],
          [("units", .scalar (.sStr "hours"))]⟩] [0])
        (mkCleanInst [⟨"mlt", .tFloat, [.sFloat (some 1)],
          [("units", .scalar (.sStr "hours"))]⟩] [0]).meta "Epoch"
        ["fill", "value_max", "value_min"] []
      = .ok [("mlt", enrichRec "Epoch"
          ⟨"mlt", .tFloat, [.sFloat (some 1)],
            [("units", .scalar (.sStr "hours"))]⟩)] ∧
    remove_netcdf4_standards_from_meta
        (wrapM [("mlt", enrichRec "Epoch"
          ⟨"mlt", .tFloat, [.sFloat (some 1)],
            [("units", .scalar (.sStr "hours"))]⟩)]) "Epoch"
      = .ok (wrapM [("mlt", [("units", .scalar (.sStr "hours"))])]) := by
  have h := C2_overlay [⟨"mlt", .tFloat, [.sFloat (some 1)],
    [("units", .scalar (.sStr "hours"))]⟩] [0] (by decide) (by decide)
  exact ⟨h.1, h.2.1⟩

/-! ## Toward the round trip: element conversions and the fill fan-out -/

theorem astype_typed {t : PyType} {s : SVal} (h : sTyped t s = true) :
    astypeS t s = s := by
  cases t <;> cases s <;> first
    | rfl
    | simp [sTyped] at h

theorem map_astype_typed {t : PyType} {l : List SVal}
    (h : ∀ s ∈ l, sTyped t s = true) : l.map (astypeS t) = l := by
  rw [List.map_congr_left (fun s hs => astype_typed (h s hs))]
  exact List.map_id _

theorem msns_roundtrip {n : Int} (h : (1000000 : Int) ∣ n) :
    msToNs (nsToMs n) = n := by
  obtain ⟨k, rfl⟩ := h
  rw [nsToMs, msToNs]
  by_cases hk : (1000000 : Int) * k ≥ 0
  · rw [if_pos hk, Int.mul_ediv_cancel_left _ (by norm_num), Int.mul_comm]
  · rw [if_neg hk, ← Int.mul_neg, Int.mul_ediv_cancel_left _ (by norm_num)]
    rw [Int.neg_neg, Int.mul_comm]

theorem fanExpand_no_fill {xs : FlatRec}
    (h : ∀ p ∈ xs, p.1 ≠ "fill") : fanExpandRec xs = xs := by
  induction xs with
  | nil => rfl
  | cons p t ih =>
      have hp := h p (List.mem_cons_self _ _)
      have ht := fun q hq => h q (List.mem_cons_of_mem _ hq)
      show (if p.1 = labelFillVal then _ else [p]) ++ fanExpandRec t = _
      rw [if_neg (show ¬(p.1 = labelFillVal) from hp), ih ht]
      rfl

theorem mem_fan_entry {xs : FlatRec} {p : String × Val}
    (h : p ∈ fanExpandRec xs) :
    p ∈ xs ∨ p.1 ∈ ["_FillValue", "FillVal", "fill"] := by
  rw [fanExpandRec] at h
  obtain ⟨q, hq, hp⟩ := List.mem_flatMap.mp h
  by_cases hk : q.1 = labelFillVal
  · rw [if_pos hk] at hp
    simp only [List.mem_cons, List.not_mem_nil, or_false] at hp
    rcases hp with hp | hp | hp <;>
      · subst hp
        exact Or.inr (by simp)
  · rw [if_neg hk, List.mem_singleton] at hp
    exact Or.inl (hp ▸ hq)

theorem mem_fanKeys {xs : FlatRec} {a : String}
    (h : a ∈ akeys (fanExpandRec xs)) :
    a ∈ akeys xs ∨ a ∈ ["_FillValue", "FillVal", "fill"] := by
  obtain ⟨p, hp, hpa⟩ := List.mem_map.mp h
  rcases mem_fan_entry hp with hm | hm
  · exact Or.inl (hpa ▸ List.mem_map.mpr ⟨p, hm, rfl⟩)
  · exact Or.inr (hpa ▸ hm)

theorem fanKeys_nodup {xs : FlatRec}
    (hnd : (akeys xs).Nodup)
    (hres : ∀ p ∈ xs, p.1 ≠ "_FillValue" ∧ p.1 ≠ "FillVal") :
    (akeys (fanExpandRec xs)).Nodup := by
  induction xs with
  | nil => exact List.nodup_nil
  | cons p t ih =>
      obtain ⟨k, v⟩ := p
      have hknot : k ∉ akeys t := by
        simpa [akeys] using (List.nodup_cons.mp hnd).1
      have hndt : (akeys t).Nodup := (List.nodup_cons.mp hnd).2
      have hrest := fun q hq => hres q (List.mem_cons_of_mem _ hq)
      by_cases hk : k = labelFillVal
      · subst hk
        have hfan : fanExpandRec ((labelFillVal, v) :: t)
            = [("_FillValue", v), ("FillVal", v), ("fill", v)]
              ++ fanExpandRec t := by
          simp [fanExpandRec]
        have hnof : ∀ q ∈ t, q.1 ≠ "fill" := by
          intro q hq hqf
          exact hknot (by
            rw [show (labelFillVal : String) = "fill" from rfl, ← hqf]
            exact List.mem_map.mpr ⟨q, hq, rfl⟩)
        rw [hfan, fanExpand_no_fill hnof, akeys_append]
        rw [show akeys [("_FillValue", v), ("FillVal", v), ("fill", v)]
          = ["_FillValue", "FillVal", "fill"] from rfl]
        rw [List.nodup_append]
        refine ⟨by decide, hndt, ?_⟩
        intro a ha hb
        obtain ⟨q, hq, hqa⟩ := List.mem_map.mp hb
        simp only [List.mem_cons, List.not_mem_nil, or_false] at ha
        rcases ha with rfl | rfl | rfl
        · exact (hres q (List.mem_cons_of_mem _ hq)).1 hqa
        · exact (hres q (List.mem_cons_of_mem _ hq)).2 hqa
        · exact hnof q hq hqa
      · have hfan : fanExpandRec ((k, v) :: t) = (k, v) :: fanExpandRec t := by
          simp [fanExpandRec, hk]
        rw [hfan]
        rw [show akeys ((k, v) :: fanExpandRec t)
          = k :: akeys (fanExpandRec t) from rfl]
        rw [List.nodup_cons]
        refine ⟨?_, ih hndt hrest⟩
        intro hmem
        rcases mem_fanKeys hmem with hm | hm
        · exact hknot hm
        · simp only [List.mem_cons, List.not_mem_nil, or_false] at hm
          rcases hm with rfl | rfl | rfl
          · exact (hres ("_FillValue", v) (List.mem_cons_self _ _)).1 rfl
          · exact (hres ("FillVal", v) (List.mem_cons_self _ _)).2 rfl
          · exact hk rfl

/-- Case-insensitive name lookup in the clean metadata store. -/
theorem alookup_map_name {cvs : List CleanVar} {c : CleanVar}
    {β : Type} (g : CleanVar → β)
    (hnd : (cvs.map CleanVar.cname).Nodup) (hc : c ∈ cvs) :
    alookup (cvs.map (fun x => (x.cname, g x))) c.cname = some (g c) := by
  induction cvs with
  | nil => exact absurd hc (List.not_mem_nil c)
  | cons c0 t ih =>
      by_cases h0 : c0.cname = c.cname
      · have hceq : c = c0 := by
          rcases List.mem_cons.mp hc with h | h
          · exact h.symm ▸ rfl
          · exfalso
            apply (List.nodup_cons.mp hnd).1
            rw [h0]
            exact List.mem_map.mpr ⟨c, h, rfl⟩
        show (if c0.cname = c.cname then some (g c0) else _) = _
        rw [if_pos h0, hceq]
      · have hct : c ∈ t := by
          rcases List.mem_cons.mp hc with h | h
          · exact absurd (h ▸ rfl) h0
          · exact h
        show (if c0.cname = c.cname then some (g c0) else _) = _
        rw [if_neg h0]
        exact ih (List.nodup_cons.mp hnd).2 hct

/-! ## The epoch record through the pipeline -/

theorem ret_epoch_clean (cvs : List CleanVar) (index : List Int)
    (hok : ∀ c ∈ cvs, CleanVarOK c) :
    return_epoch_metadata (mkCleanInst cvs index) "Epoch"
      = .ok (epochWriteRec "Epoch" index) := by
  have h0 : metaHasVar (mkCleanInst cvs index).meta "Epoch" = false := by
    unfold metaHasVar
    cases hb : (mkCleanInst cvs index).meta.any
        (fun p => lowerStr p.1 = lowerStr "Epoch") with
    | false => rfl
    | true =>
        exfalso
        obtain ⟨p, hp, hpe⟩ := List.any_eq_true.mp hb
        obtain ⟨c, hc, rfl⟩ := List.mem_map.mp hp
        obtain ⟨hlow, hne, _, _, _, _⟩ := hok c hc
        rw [decide_eq_true_eq] at hpe
        apply hne
        rw [← hlow]
        exact hpe
  simp only [return_epoch_metadata, h0, Bool.false_eq_true, if_false]
  rw [show (mkCleanInst cvs index).index = index from rfl]
  by_cases h1 : monoIncr index = true
  · simp only [epochWriteRec, epochTimeDict, h1]
    rfl
  · rw [Bool.not_eq_true] at h1
    by_cases h2 : monoDecr index = true
    · simp only [epochWriteRec, epochTimeDict, h1, h2]
      rfl
    · rw [Bool.not_eq_true] at h2
      simp only [epochWriteRec, epochTimeDict, h1, h2]
      rfl

theorem transF_epoch (index : List Int) :
    applyTransRecToFile default_to_netcdf_translation_table
      (epochWriteRec "Epoch" index) = epochWriteRec "Epoch" index := by
  by_cases h1 : monoIncr index = true
  · simp only [epochWriteRec, epochTimeDict, h1]
    rfl
  · rw [Bool.not_eq_true] at h1
    by_cases h2 : monoDecr index = true
    · simp only [epochWriteRec, epochTimeDict, h1, h2]
      rfl
    · rw [Bool.not_eq_true] at h2
      simp only [epochWriteRec, epochTimeDict, h1, h2]
      rfl

theorem strip_epoch (index : List Int) :
    (epochWriteRec "Epoch" index).filter
      (fun q => !(stdLowerVals.contains (lowerStr q.1)))
      = [(labelUnits, .scalar (.sStr epochLabel)),
         (labelDesc, .scalar (.sStr epochLabel)),
         (labelNotes, .scalar (.sStr epochLabel)),
         (labelName, .scalar (.sStr "Epoch"))] := by
  by_cases h1 : monoIncr index = true
  · simp only [epochWriteRec, epochTimeDict, h1]
    rfl
  · rw [Bool.not_eq_true] at h1
    by_cases h2 : monoDecr index = true
    · simp only [epochWriteRec, epochTimeDict, h1, h2]
      rfl
    · rw [Bool.not_eq_true] at h2
      simp only [epochWriteRec, epochTimeDict, h1, h2]
      rfl

theorem epoch_keys_nodup (index : List Int) :
    (akeys (epochWriteRec "Epoch" index)).Nodup := by
  by_cases h1 : monoIncr index = true
  · simp only [epochWriteRec, epochTimeDict, h1, eq_self_iff_true, if_true]
    decide
  · rw [Bool.not_eq_true] at h1
    by_cases h2 : monoDecr index = true
    · simp only [epochWriteRec, epochTimeDict, h1, h2, Bool.false_eq_true,
        if_false, eq_self_iff_true, if_true]
      decide
    · rw [Bool.not_eq_true] at h2
      simp only [epochWriteRec, epochTimeDict, h1, h2, Bool.false_eq_true,
        if_false]
      decide

theorem epoch_no_meta (index : List Int) :
    ∀ p ∈ epochWriteRec "Epoch" index, lowerStr p.1 ≠ "meta" := by
  by_cases h1 : monoIncr index = true
  · simp only [epochWriteRec, epochTimeDict, h1, eq_self_iff_true, if_true]
    decide
  · rw [Bool.not_eq_true] at h1
    by_cases h2 : monoDecr index = true
    · simp only [epochWriteRec, epochTimeDict, h1, h2, Bool.false_eq_true,
        if_false, eq_self_iff_true, if_true]
      decide
    · rw [Bool.not_eq_true] at h2
      simp only [epochWriteRec, epochTimeDict, h1, h2, Bool.false_eq_true,
        if_false]
      decide

/-! ## The per-variable write loop on clean variables -/

theorem writeOneVar_clean (cvs : List CleanVar) (index : List Int)
    (export_meta : WMeta) (num : Nat)
    (c : CleanVar) (hc : CleanVarOK c)
    (hattrs : alookup export_meta c.cname
      = some (fanExpandRec (enrichRec "Epoch" c)))
    (st : WState) :
    writeOneVar (mkCleanInst cvs index) export_meta "Epoch" false num st
      ⟨c.cname, .scalar ⟨c.ctype, false, c.values⟩⟩
      = .ok { events := st.events
                ++ [.createVar c.cname, .writeData c.cname],
              file := { st.file with fvars := st.file.fvars
                ++ [⟨c.cname, ["Epoch"], fanExpandRec (enrichRec "Epoch" c),
                    .d1 c.values⟩] } } := by
  obtain ⟨hlow, _, hty, hvals, _, _⟩ := hc
  have hty' : c.ctype = .tInt ∨ c.ctype = .tFloat ∨ c.ctype = .tStr := by
    simpa using hty
  simp only [writeOneVar, lookupAttrs, hlow, hattrs]
  rcases hty' with h | h | h <;> rw [h] <;> rw [h] at hvals <;>
    simp [map_astype_typed hvals] <;> rfl

theorem writeLoop_clean (cvs : List CleanVar) (index : List Int)
    (export_meta : WMeta) (num : Nat)
    (hok : ∀ c ∈ cvs, CleanVarOK c)
    (hattrs : ∀ c ∈ cvs, alookup export_meta c.cname
      = some (fanExpandRec (enrichRec "Epoch" c))) :
    ∀ (todo : List CleanVar) (st : WState), (∀ c ∈ todo, c ∈ cvs) →
      writeVarsLoop (mkCleanInst cvs index) export_meta "Epoch" false num
        (todo.map (fun c =>
          (⟨c.cname, .scalar ⟨c.ctype, false, c.values⟩⟩ : IVar))) st
      = ({ events := st.events ++ todo.flatMap (fun c =>
            [.createVar c.cname, .writeData c.cname]),
           file := { st.file with fvars :=
             st.file.fvars ++ todo.map (fun c =>
               (⟨c.cname, ["Epoch"],
                 fanExpandRec (enrichRec "Epoch" c), .d1 c.values⟩ : NcVar)) } },
         none) := by
  intro todo
  induction todo with
  | nil =>
      intro st _
      simp [writeVarsLoop]
  | cons c rest ih =>
      intro st hsub
      rw [List.map_cons, writeVarsLoop,
        writeOneVar_clean cvs index export_meta num c
          (hok c (hsub c (List.mem_cons_self _ _)))
          (hattrs c (hsub c (List.mem_cons_self _ _)))]
      show writeVarsLoop _ _ _ _ _ _ _ = _
      rw [ih _ (fun x hx => hsub x (List.mem_cons_of_mem _ hx))]
      simp [List.append_assoc]

/-! ## The fanned-out enriched record -/

theorem fan_enrich (c : CleanVar) :
    fanExpandRec (enrichRec "Epoch" c)
      = fanExpandRec c.crec ++ addedStdBlock "Epoch" c.ctype := by
  rw [enrichRec, fanExpandRec, List.flatMap_append]
  rw [show (addedStdBlock "Epoch" c.ctype).flatMap (fun p =>
    if p.1 = labelFillVal then
      [("_FillValue", p.2), ("FillVal", p.2), ("fill", p.2)]
    else [p]) = addedStdBlock "Epoch" c.ctype from rfl]
  rfl

theorem fan_enrich_keys_nodup (c : CleanVar)
    (hndr : (akeys c.crec).Nodup)
    (hclean : ∀ p ∈ c.crec, cleanKey p.1 = true) :
    (akeys (fanExpandRec (enrichRec "Epoch" c))).Nodup := by
  have hres : ∀ p ∈ c.crec, p.1 ≠ "_FillValue" ∧ p.1 ≠ "FillVal" := by
    intro p hp
    have h := hclean p hp
    simp only [cleanKey, Bool.and_eq_true, decide_eq_true_eq] at h
    exact ⟨h.1.1.2, h.1.2⟩
  rw [fan_enrich, akeys_append,
    show akeys (addedStdBlock "Epoch" c.ctype)
      = ["Depend_0", "Display_Type", "Var_Type", "Format"] from rfl,
    List.nodup_append]
  refine ⟨fanKeys_nodup hndr hres, by decide, ?_⟩
  intro a ha hb
  rcases mem_fanKeys ha with hm | hm
  · obtain ⟨q, hq, hqa⟩ := List.mem_map.mp hm
    have hall : ∀ k ∈ ["Depend_0", "Display_Type", "Var_Type", "Format"],
        cleanKey k = false := by decide
    have h := hclean q hq
    rw [hqa, hall a hb] at h
    exact Bool.false_ne_true h
  · have : ∀ k ∈ (["_FillValue", "FillVal", "fill"] : List String),
        k ∉ (["Depend_0", "Display_Type", "Var_Type", "Format"]
          : List String) := by decide
    exact this a hm hb

theorem fan_enrich_no_meta (c : CleanVar)
    (hclean : ∀ p ∈ c.crec, cleanKey p.1 = true) :
    ∀ p ∈ fanExpandRec (enrichRec "Epoch" c), lowerStr p.1 ≠ "meta" := by
  intro p hp
  rw [fan_enrich] at hp
  rcases List.mem_append.mp hp with hp | hp
  · rcases mem_fan_entry hp with hm | hm
    · exact cleanKey_not_meta (hclean p hm)
    · have : ∀ k ∈ (["_FillValue", "FillVal", "fill"] : List String),
          lowerStr k ≠ "meta" := by decide
      exact this p.1 hm
  · have hk : p.1 ∈ akeys (addedStdBlock "Epoch" c.ctype) :=
      List.mem_map.mpr ⟨p, hp, rfl⟩
    rw [show akeys (addedStdBlock "Epoch" c.ctype)
      = ["Depend_0", "Display_Type", "Var_Type", "Format"] from rfl] at hk
    have : ∀ k ∈ (["Depend_0", "Display_Type", "Var_Type", "Format"]
        : List String), lowerStr k ≠ "meta" := by decide
    exact this p.1 hk

theorem strip_fan_enrich (c : CleanVar)
    (hclean : ∀ p ∈ c.crec, cleanKey p.1 = true) :
    (fanExpandRec (enrichRec "Epoch" c)).filter
        (fun q => !(stdLowerVals.contains (lowerStr q.1)))
      = fanExpandRec c.crec := by
  rw [fan_enrich, List.filter_append,
    show (addedStdBlock "Epoch" c.ctype).filter
      (fun q => !(stdLowerVals.contains (lowerStr q.1))) = [] from rfl,
    List.append_nil, List.filter_eq_self]
  intro p hp
  rcases mem_fan_entry hp with hm | hm
  · rw [cleanKey_not_std (hclean p hm)]
    rfl
  · have : ∀ k ∈ (["_FillValue", "FillVal", "fill"] : List String),
        (!(stdLowerVals.contains (lowerStr k))) = true := by decide
    exact this p.1 hm

/-! ## Reading back a written clean file -/

theorem epoch_index_roundtrip (index : List Int)
    (hms : ∀ n ∈ index, (1000000 : Int) ∣ n) :
    ((index.map (fun n => SVal.sInt (nsToMs n))).map (fun s => match s with
        | SVal.sInt n => SVal.sInt (msToNs n)
        | x => x)).filterMap (fun s => match s with
        | SVal.sInt n => some n
        | _ => none) = index := by
  induction index with
  | nil => rfl
  | cons n t ih =>
      have h := msns_roundtrip (hms n (List.mem_cons_self _ _))
      show msToNs (nsToMs n) :: _ = _
      rw [h, ih (fun m hm => hms m (List.mem_cons_of_mem _ hm))]

theorem dropMeta_nil (m : MDict) : dropMetaLabels [] m = m := by
  unfold dropMetaLabels
  simp

theorem loadFold_clean (epoch_name : String) :
    ∀ (l : List (String × FlatRec × List SVal))
      (lv : List (String × LoadedVar)) (fm : MDict)
      (twod : List (String × List String)),
      (∀ x ∈ l, amem lv x.1 = false) →
      (∀ x ∈ l, amem fm x.1 = false) →
      ((l.map Prod.fst).Nodup) →
      ((l.map (fun x =>
        (⟨x.1, [epoch_name], x.2.1, .d1 x.2.2⟩ : NcVar))).foldlM
        (fun (acc : (List (String × LoadedVar)) × MDict
            × List (String × List String)) (nv : NcVar) => do
          let (lv, fm, twod) := acc
          if nv.vdims.length = 1 then
            pure (aset lv nv.vname (.one (flatPayload nv)),
              aset fm nv.vname (nv.attrs.map (fun p => (p.1, Entry.v p.2))),
              twod)
          else if nv.vdims.length = 2 then
            pure (lv, fm, twod ++ [(nv.vname, nv.vdims)])
          else if nv.vdims.length ≥ 3 then .error .valueError
          else pure (lv, fm, twod))
        (lv, fm, twod)
        : Except PyErr ((List (String × LoadedVar)) × MDict
            × List (String × List String)))
      = .ok (lv ++ l.map (fun x => (x.1, LoadedVar.one x.2.2)),
             fm ++ l.map (fun x => (x.1, wrapRec x.2.1)), twod) := by
  intro l
  induction l with
  | nil =>
      intro lv fm twod _ _ _
      simp only [List.map_nil, List.append_nil]
      rfl
  | cons x t ih =>
      intro lv fm twod hlv hfm hnd
      obtain ⟨n, attrs, vals⟩ := x
      have h1 : amem lv n = false := hlv _ (List.mem_cons_self _ _)
      have h2 : amem fm n = false := hfm _ (List.mem_cons_self _ _)
      have hknot : n ∉ t.map Prod.fst := by
        simpa using (List.nodup_cons.mp hnd).1
      rw [List.map_cons, List.foldlM_cons]
      show (t.map (fun x =>
        (⟨x.1, [epoch_name], x.2.1, .d1 x.2.2⟩ : NcVar))).foldlM _
          (aset lv n (.one vals), aset fm n (wrapRec attrs), twod) = _
      rw [aset_of_not_amem _ h1, aset_of_not_amem _ h2]
      rw [ih (lv ++ [(n, LoadedVar.one vals)]) (fm ++ [(n, wrapRec attrs)])
        twod
        (by
          intro y hy
          rw [amem_append, hlv y (List.mem_cons_of_mem _ hy)]
          have : y.1 ≠ n := fun hc =>
            hknot (hc ▸ List.mem_map.mpr ⟨y, hy, rfl⟩)
          simp [amem, Ne.symm this])
        (by
          intro y hy
          rw [amem_append, hfm y (List.mem_cons_of_mem _ hy)]
          have : y.1 ≠ n := fun hc =>
            hknot (hc ▸ List.mem_map.mpr ⟨y, hy, rfl⟩)
          simp [amem, Ne.symm this])
        (List.nodup_cons.mp hnd).2]
      simp

theorem transFrom_fold_ok (table : List (String × String)) :
    ∀ (l : List ((String × MRec) × MRec)) (done : MDict),
      (∀ x ∈ l, transFromRecLoop table x.1.2 [] [] = .ok (x.2, []) ∧
        transFromNested table x.1.2 x.2 = .ok x.2) →
      (l.map Prod.fst).foldlM (fun acc p => do
          let (filt, ws) ← transFromRecLoop table p.2 [] acc.2
          let filt ← transFromNested table p.2 filt
          pure (acc.1 ++ [(p.1, filt)], ws)) (done, [])
        = .ok (done ++ l.map (fun x => (x.1.1, x.2)), []) := by
  intro l
  induction l with
  | nil =>
      intro done _
      simp only [List.map_nil, List.append_nil]
      rfl
  | cons x t ih =>
      intro done h
      have hx := h x (List.mem_cons_self _ _)
      rw [List.map_cons, List.foldlM_cons]
      simp only [hx.1, hx.2, except_bind_ok, pure_bind]
      rw [ih (done ++ [(x.1.1, x.2)])
        (fun y hy => h y (List.mem_cons_of_mem _ hy))]
      simp

set_option maxHeartbeats 2000000 in
/-- The full pandas write on a clean instrument: the file holds the epoch
variable (standards epoch record, millisecond payload) and one typed 1-D
variable per clean variable, carrying the fanned-out enriched record. -/
theorem write_clean (cvs : List CleanVar) (index : List Int)
    (hok : ∀ c ∈ cvs, CleanVarOK c)
    (hnd : (cvs.map CleanVar.cname).Nodup)
    (hne : index ≠ []) :
    inst_to_netcdf (mkCleanInst cvs index) exEnv "Epoch" false none (some [])
      true none
      = ⟨[.fileOpen, .setGlobalAttrs, .createDim "Epoch" none,
          .createVar "Epoch", .writeData "Epoch"]
          ++ cvs.flatMap (fun c => [.createVar c.cname, .writeData c.cname]),
         .ok (some
          { gattrs := buildGlobalAttrs (mkCleanInst cvs index) exEnv,
            fdims := [("Epoch", none)],
            fvars := (⟨"Epoch", ["Epoch"], epochWriteRec "Epoch" index,
                .d1 (index.map (fun n => .sInt (nsToMs n)))⟩ : NcVar)
              :: cvs.map (fun c =>
                (⟨c.cname, ["Epoch"], fanExpandRec (enrichRec "Epoch" c),
                  .d1 c.values⟩ : NcVar)) })⟩ := by
  have hempty : (mkCleanInst cvs index).isEmpty = false := by
    unfold Instrument.isEmpty
    cases index with
    | nil => exact absurd rfl hne
    | cons a t => rfl
  have hvars : (mkCleanInst cvs index).variables.map lowerStr
      = cvs.map CleanVar.cname := by
    show ((cvs.map (fun c =>
      (⟨c.cname, .scalar ⟨c.ctype, false, c.values⟩⟩ : IVar))).map
        (fun v => v.name)).map lowerStr = _
    rw [List.map_map, List.map_map]
    exact List.map_congr_left (fun c hc => (hok c hc).1)
  have hdedup : ¬((mkCleanInst cvs index).variables.map lowerStr).dedup.length
      ≠ ((mkCleanInst cvs index).variables.map lowerStr).length := by
    rw [hvars, List.dedup_eq_self.mpr hnd]
    exact fun h => h rfl
  have hnameE : ∀ p ∈ cvs.map (fun c => (c.cname, c.crec)),
      p.1 = "Epoch" → False := by
    intro p hp hpk
    obtain ⟨c, hc, rfl⟩ := List.mem_map.mp hp
    obtain ⟨hlow, _, _, _, _, _⟩ := hok c hc
    have h' : c.cname = "Epoch" := hpk
    rw [h'] at hlow
    exact absurd hlow (by decide)
  have hamemE : amem (mkCleanInst cvs index).meta "Epoch" = false :=
    amem_false_of_forall hnameE
  have hsetE : aset (mkCleanInst cvs index).meta "Epoch"
      (epochWriteRec "Epoch" index)
      = cvs.map (fun c => (c.cname, c.crec))
        ++ [("Epoch", epochWriteRec "Epoch" index)] := by
    rw [aset_of_not_amem _ hamemE]
    rfl
  have hadd := addStd_clean cvs index
    [("Epoch", epochWriteRec "Epoch" index)] hok hnd
  have htrans : apply_table_translation_to_file
      (cvs.map (fun c => (c.cname, enrichRec "Epoch" c))
        ++ [("Epoch", epochWriteRec "Epoch" index)])
      (some (resolveTransTable (mkCleanInst cvs index) none))
      = cvs.map (fun c => (c.cname, fanExpandRec (enrichRec "Epoch" c)))
        ++ [("Epoch", epochWriteRec "Epoch" index)] := by
    rw [show resolveTransTable (mkCleanInst cvs index) none
      = default_to_netcdf_translation_table from rfl]
    show (cvs.map (fun c => (c.cname, enrichRec "Epoch" c))
        ++ [("Epoch", epochWriteRec "Epoch" index)]).map
      (fun p => (p.1, applyTransRecToFile
        default_to_netcdf_translation_table p.2)) = _
    rw [List.map_append, List.map_map]
    congr 1
    · apply List.map_congr_left
      intro c hc
      obtain ⟨hlow, _, _, _, ⟨hndr, hclean⟩, _⟩ := hok c hc
      show (c.cname, applyTransRecToFile _ (enrichRec "Epoch" c)) = _
      rw [applyTransRec_eq_fan (fan_enrich_keys_nodup c hndr
        (fun p hp => (hclean p hp).1))]
    · show [("Epoch", applyTransRecToFile _ (epochWriteRec "Epoch" index))]
        = _
      rw [transF_epoch]
  have hattrs : ∀ c ∈ cvs, alookup
      (cvs.map (fun c => (c.cname, fanExpandRec (enrichRec "Epoch" c)))
        ++ [("Epoch", epochWriteRec "Epoch" index)]) c.cname
      = some (fanExpandRec (enrichRec "Epoch" c)) := by
    intro c hc
    exact alookup_append_left
      (alookup_map_name (fun c => fanExpandRec (enrichRec "Epoch" c)) hnd hc)
  have hamemE2 : amem (cvs.map (fun c =>
      (c.cname, fanExpandRec (enrichRec "Epoch" c)))) "Epoch" = false := by
    apply amem_false_of_forall
    intro p hp hpk
    obtain ⟨c, hc, rfl⟩ := List.mem_map.mp hp
    exact hnameE (c.cname, c.crec) (List.mem_map.mpr ⟨c, hc, rfl⟩) hpk
  have hepochLook : alookup
      (cvs.map (fun c => (c.cname, fanExpandRec (enrichRec "Epoch" c)))
        ++ [("Epoch", epochWriteRec "Epoch" index)]) "Epoch"
      = some (epochWriteRec "Epoch" index) := by
    rw [alookup_append_right hamemE2, alookup, if_pos rfl]
  simp only [inst_to_netcdf, hempty, Bool.false_eq_true, if_false]
  rw [if_neg hdedup]
  simp only [ret_epoch_clean cvs index hok, except_bind_ok]
  rw [hsetE]
  rw [show resolveCheckType none
    = ["fill", "value_max", "value_min"] from rfl]
  rw [show (Option.getD (some ([] : List String))
    (mkCleanInst cvs index).exportNan) = [] from rfl]
  simp only [hadd]
  rw [htrans]
  simp only [hepochLook]
  rw [show (mkCleanInst cvs index).vars = cvs.map (fun c =>
    (⟨c.cname, .scalar ⟨c.ctype, false, c.values⟩⟩ : IVar)) from rfl]
  rw [writeLoop_clean cvs index _ _ hok hattrs cvs _ (fun c hc => hc)]
  simp [mkCleanInst]

theorem cleanScalar_shape {v : Val} (h : cleanScalarV v = true) :
    ∃ s, v = Val.scalar s := by
  cases v with
  | scalar s => exact ⟨s, rfl⟩
  | arr1 l => simp [cleanScalarV] at h
  | arr2 l => simp [cleanScalarV] at h

set_option maxHeartbeats 2000000 in
/-- Reading back the file written from a clean instrument: the data columns
and the whole-millisecond index return unchanged, the metadata keeps the
caller's clean records plus the basic epoch record, and no warnings are
emitted. -/
theorem read_clean (cvs : List CleanVar) (index : List Int)
    (hok : ∀ c ∈ cvs, CleanVarOK c)
    (hnd : (cvs.map CleanVar.cname).Nodup)
    (hms : ∀ n ∈ index, (1000000 : Int) ∣ n) :
    load_netcdf_pandas
      [{ gattrs := buildGlobalAttrs (mkCleanInst cvs index) exEnv,
         fdims := [("Epoch", none)],
         fvars := (⟨"Epoch", ["Epoch"], epochWriteRec "Epoch" index,
             .d1 (index.map (fun n => .sInt (nsToMs n)))⟩ : NcVar)
           :: cvs.map (fun c =>
             (⟨c.cname, ["Epoch"], fanExpandRec (enrichRec "Epoch" c),
               .d1 c.values⟩ : NcVar)) }]
      false "Epoch" none []
      = .ok ⟨cvs.map (fun c => (c.cname, LoadedVar.one c.values)),
             index,
             ("Epoch", epochReadRec "Epoch")
               :: cvs.map (fun c => (c.cname, wrapRec c.crec)),
             []⟩ := by
  have hnameE : ∀ c ∈ cvs, c.cname ≠ "Epoch" := by
    intro c hc h
    obtain ⟨hlow, _, _, _, _, _⟩ := hok c hc
    rw [h] at hlow
    exact absurd hlow (by decide)
  -- the 1-D load loop
  have hlnd : (((("Epoch", epochWriteRec "Epoch" index,
      index.map (fun n => SVal.sInt (nsToMs n))) : String × FlatRec × List SVal)
      :: cvs.map (fun c => (c.cname, fanExpandRec (enrichRec "Epoch" c),
        c.values))).map Prod.fst).Nodup := by
    rw [List.map_cons, List.map_map, List.nodup_cons]
    constructor
    · intro hmem
      obtain ⟨c, hc, hce⟩ := List.mem_map.mp hmem
      exact hnameE c hc hce
    · rw [List.map_congr_left (fun c (_ : c ∈ cvs) =>
        (rfl : (Prod.fst ∘ (fun c => (c.cname,
          fanExpandRec (enrichRec "Epoch" c), c.values))) c = c.cname))]
      exact hnd
  have hload := loadFold_clean "Epoch"
    ((("Epoch", epochWriteRec "Epoch" index,
      index.map (fun n => SVal.sInt (nsToMs n))) : String × FlatRec × List SVal)
      :: cvs.map (fun c => (c.cname, fanExpandRec (enrichRec "Epoch" c),
        c.values)))
    [] [] [] (fun x _ => rfl) (fun x _ => rfl) hlnd
  have hfv : ((("Epoch", epochWriteRec "Epoch" index,
      index.map (fun n => SVal.sInt (nsToMs n))) : String × FlatRec × List SVal)
      :: cvs.map (fun c => (c.cname, fanExpandRec (enrichRec "Epoch" c),
        c.values))).map (fun x => (⟨x.1, ["Epoch"], x.2.1, .d1 x.2.2⟩ : NcVar))
      = (⟨"Epoch", ["Epoch"], epochWriteRec "Epoch" index,
          .d1 (index.map (fun n => .sInt (nsToMs n)))⟩ : NcVar)
        :: cvs.map (fun c =>
          (⟨c.cname, ["Epoch"], fanExpandRec (enrichRec "Epoch" c),
            .d1 c.values⟩ : NcVar)) := by
    rw [List.map_cons, List.map_map]
    exact congrArg _ (List.map_congr_left (fun c _ => rfl))
  rw [← hfv]
  have hone : loadOneFile "Epoch" []
      { gattrs := buildGlobalAttrs (mkCleanInst cvs index) exEnv,
        fdims := [("Epoch", none)],
        fvars := ((("Epoch", epochWriteRec "Epoch" index,
            index.map (fun n => SVal.sInt (nsToMs n)))
            : String × FlatRec × List SVal)
          :: cvs.map (fun c => (c.cname, fanExpandRec (enrichRec "Epoch" c),
            c.values))).map
            (fun x => (⟨x.1, ["Epoch"], x.2.1, .d1 x.2.2⟩ : NcVar)) }
      = .ok
        ((cvs.map (fun c => (c.cname, fanExpandRec (enrichRec "Epoch" c),
            c.values))).map (fun x => (x.1, LoadedVar.one x.2.2))
          ++ [("Epoch", LoadedVar.one
            ((index.map (fun n => SVal.sInt (nsToMs n))).map (fun s =>
              match s with
              | SVal.sInt n => SVal.sInt (msToNs n)
              | x => x)))],
        ("Epoch", wrapRec (epochWriteRec "Epoch" index))
          :: (cvs.map (fun c => (c.cname, fanExpandRec (enrichRec "Epoch" c),
            c.values))).map (fun x => (x.1, wrapRec x.2.1))) := by
    unfold loadOneFile
    have hproj : ∀ (g : FlatRec) (d : List (String × Option Nat))
        (fv : List NcVar), (NcFile.mk g d fv).fvars = fv := fun _ _ _ => rfl
    rw [hproj, hload]
    simp only [except_bind_ok]
    rfl
  -- the standards removal on the loaded dictionary
  have hmapM : (("Epoch", wrapRec (epochWriteRec "Epoch" index))
      :: (cvs.map (fun c => (c.cname, fanExpandRec (enrichRec "Epoch" c),
        c.values))).map (fun x => (x.1, wrapRec x.2.1))).mapM removeOneRec
      = .ok (("Epoch", epochReadRec "Epoch")
        :: cvs.map (fun c => (c.cname, wrapRec (fanExpandRec c.crec)))) := by
    have h := mapM_ok_of_forall removeOneRec
      (fun x => (x.1, x.2.filter
        (fun q => !(stdLowerVals.contains (lowerStr q.1)))))
      (("Epoch", wrapRec (epochWriteRec "Epoch" index))
        :: (cvs.map (fun c => (c.cname, fanExpandRec (enrichRec "Epoch" c),
          c.values))).map (fun x => (x.1, wrapRec x.2.1)))
      (by
        intro x hx
        rcases List.mem_cons.mp hx with rfl | hx
        · exact removeOneRec_flat "Epoch" (epochWriteRec "Epoch" index)
            (epoch_keys_nodup index) (epoch_no_meta index)
        · obtain ⟨y, hy, rfl⟩ := List.mem_map.mp hx
          obtain ⟨c, hc, rfl⟩ := List.mem_map.mp hy
          obtain ⟨_, _, _, _, ⟨hndr, hclean⟩, _⟩ := hok c hc
          exact removeOneRec_flat c.cname (fanExpandRec (enrichRec "Epoch" c))
            (fan_enrich_keys_nodup c hndr (fun p hp => (hclean p hp).1))
            (fan_enrich_no_meta c (fun p hp => (hclean p hp).1)))
    rw [h, List.map_cons, List.map_map, List.map_map]
    show Except.ok (("Epoch",
        (wrapRec (epochWriteRec "Epoch" index)).filter _) :: _) = _
    rw [wrapRec_filter, strip_epoch]
    rw [List.map_congr_left (fun c (hc : c ∈ cvs) => by
      obtain ⟨_, _, _, _, ⟨hndr, hclean⟩, _⟩ := hok c hc
      show (c.cname, (wrapRec (fanExpandRec (enrichRec "Epoch" c))).filter _)
        = (c.cname, wrapRec (fanExpandRec c.crec))
      rw [wrapRec_filter, strip_fan_enrich c (fun p hp => (hclean p hp).1)])]
    rfl
  have hremove : remove_netcdf4_standards_from_meta
      (("Epoch", wrapRec (epochWriteRec "Epoch" index))
        :: (cvs.map (fun c => (c.cname, fanExpandRec (enrichRec "Epoch" c),
          c.values))).map (fun x => (x.1, wrapRec x.2.1))) "Epoch"
      = .ok (("Epoch", epochReadRec "Epoch")
        :: cvs.map (fun c => (c.cname, wrapRec (fanExpandRec c.crec)))) := by
    unfold remove_netcdf4_standards_from_meta
    rw [hmapM, except_bind_ok]
    rfl
  -- the from-file translation restores the clean records
  have htransload : apply_table_translation_from_file
      default_from_netcdf_translation_table
      (("Epoch", epochReadRec "Epoch")
        :: cvs.map (fun c => (c.cname, wrapRec (fanExpandRec c.crec))))
      = .ok (("Epoch", epochReadRec "Epoch")
        :: cvs.map (fun c => (c.cname, wrapRec c.crec)), []) := by
    have hfold := transFrom_fold_ok default_from_netcdf_translation_table
      ((("Epoch", epochReadRec "Epoch"), epochReadRec "Epoch")
        :: cvs.map (fun c => ((c.cname, wrapRec (fanExpandRec c.crec)),
          wrapRec c.crec))) []
      (by
        intro x hx
        rcases List.mem_cons.mp hx with rfl | hx
        · exact ⟨rfl, rfl⟩
        · obtain ⟨c, hc, rfl⟩ := List.mem_map.mp hx
          obtain ⟨_, _, _, _, ⟨hndr, hclean⟩, _⟩ := hok c hc
          constructor
          · exact transFromLoop_fan c.crec [] [] hndr
              (fun p hp => by
                have h := hclean p hp
                simp only [cleanKey, Bool.and_eq_true,
                  decide_eq_true_eq] at h
                exact ⟨h.1.1.1.2, h.1.1.2⟩)
              (fun p hp => (hclean p hp).2)
              (fun p _ => rfl)
          · have hmem : amem (wrapRec (fanExpandRec c.crec)) "meta"
                = false := by
              apply amem_false_of_forall
              intro q hq hqk
              obtain ⟨p, hp', hpe⟩ := List.mem_map.mp hq
              have hqp : q.1 = p.1 := by rw [← hpe]
              rcases mem_fan_entry hp' with hm | hm
              · exact cleanKey_not_meta (hclean p hm).1
                  (by rw [← hqp, hqk]; rfl)
              · have : ∀ k ∈ (["_FillValue", "FillVal", "fill"]
                    : List String), k ≠ "meta" := by decide
                exact this p.1 hm (by rw [← hqp]; exact hqk)
            simp [transFromNested, hmem])
    rw [show ((("Epoch", epochReadRec "Epoch"), epochReadRec "Epoch")
        :: cvs.map (fun c => ((c.cname, wrapRec (fanExpandRec c.crec)),
          wrapRec c.crec))).map Prod.fst
      = ("Epoch", epochReadRec "Epoch")
        :: cvs.map (fun c => (c.cname, wrapRec (fanExpandRec c.crec)))
      from by
        rw [List.map_cons, List.map_map]
        exact congrArg _ (List.map_congr_left (fun c _ => rfl))] at hfold
    unfold apply_table_translation_from_file
    rw [hfold]
    rw [show ((("Epoch", epochReadRec "Epoch"), epochReadRec "Epoch")
        :: cvs.map (fun c => ((c.cname, wrapRec (fanExpandRec c.crec)),
          wrapRec c.crec))).map (fun x => (x.1.1, x.2))
      = ("Epoch", epochReadRec "Epoch")
        :: cvs.map (fun c => (c.cname, wrapRec c.crec))
      from by
        rw [List.map_cons, List.map_map]
        exact congrArg _ (List.map_congr_left (fun c _ => rfl))]
    rfl
  -- the array expander is the identity here
  have hexp : meta_array_expander
      (("Epoch", epochReadRec "Epoch")
        :: cvs.map (fun c => (c.cname, wrapRec c.crec)))
      = ("Epoch", epochReadRec "Epoch")
        :: cvs.map (fun c => (c.cname, wrapRec c.crec)) := by
    have hfm : ∀ p ∈ (("Epoch", epochReadRec "Epoch")
        :: cvs.map (fun c => (c.cname, wrapRec c.crec))),
        p.2.flatMap expEntrySpec = p.2 := by
      intro p hp
      rcases List.mem_cons.mp hp with rfl | hp
      · rfl
      · obtain ⟨c, hc, rfl⟩ := List.mem_map.mp hp
        obtain ⟨_, _, _, _, ⟨hndr, hclean⟩, _⟩ := hok c hc
        rw [flatMap_spec_scalar (by
          intro q hq
          obtain ⟨r, hr, hre⟩ := List.mem_map.mp hq
          obtain ⟨s, hs⟩ := cleanScalar_shape (hclean r hr).2
          exact Or.inl ⟨s, by rw [← hre, hs]⟩)]
        rw [List.filter_eq_self]
        intro q hq
        obtain ⟨r, hr, hre⟩ := List.mem_map.mp hq
        have : q.1 ≠ "meta" := by
          intro hqk
          exact cleanKey_not_meta (hclean r hr).1
            (by rw [show r.1 = q.1 from by rw [← hre], hqk]; rfl)
        simpa using this
    have hfresh : ∀ p ∈ (("Epoch", epochReadRec "Epoch")
        :: cvs.map (fun c => (c.cname, wrapRec c.crec))),
        (akeys (p.2.flatMap expEntrySpec)).Nodup := by
      intro p hp
      rw [hfm p hp]
      rcases List.mem_cons.mp hp with rfl | hp
      · decide
      · obtain ⟨c, hc, rfl⟩ := List.mem_map.mp hp
        obtain ⟨_, _, _, _, ⟨hndr, _⟩, _⟩ := hok c hc
        rw [akeys_wrapRec]
        exact hndr
    rw [meta_array_expander_eq hfresh]
    calc (("Epoch", epochReadRec "Epoch")
          :: cvs.map (fun c => (c.cname, wrapRec c.crec))).map
          (fun p => (p.1, p.2.flatMap expEntrySpec))
        = (("Epoch", epochReadRec "Epoch")
          :: cvs.map (fun c => (c.cname, wrapRec c.crec))).map id := by
          apply List.map_congr_left
          intro p hp
          rw [hfm p hp]
          rfl
      _ = _ := List.map_id _
  -- the frame concatenation of the single store
  have hcomb : combineFiles
      [(cvs.map (fun c => (c.cname, fanExpandRec (enrichRec "Epoch" c),
          c.values))).map (fun x => (x.1, LoadedVar.one x.2.2))
        ++ [("Epoch", LoadedVar.one
          ((index.map (fun n => SVal.sInt (nsToMs n))).map (fun s =>
            match s with
            | SVal.sInt n => SVal.sInt (msToNs n)
            | x => x)))]] "Epoch"
      = (cvs.map (fun c => (c.cname, LoadedVar.one c.values)), index) := by
    have hmemE : amem ((cvs.map (fun c => (c.cname,
        fanExpandRec (enrichRec "Epoch" c), c.values))).map
          (fun x => (x.1, LoadedVar.one x.2.2))) "Epoch" = false := by
      apply amem_false_of_forall
      intro q hq hqk
      obtain ⟨y, hy, rfl⟩ := List.mem_map.mp hq
      obtain ⟨c, hc, rfl⟩ := List.mem_map.mp hy
      exact hnameE c hc hqk
    have hfilter : (((cvs.map (fun c => (c.cname,
        fanExpandRec (enrichRec "Epoch" c), c.values))).map
          (fun x => (x.1, LoadedVar.one x.2.2))
        ++ [("Epoch", LoadedVar.one
          ((index.map (fun n => SVal.sInt (nsToMs n))).map (fun s =>
            match s with
            | SVal.sInt n => SVal.sInt (msToNs n)
            | x => x)))]).filter (fun p => p.1 ≠ "Epoch"))
        = cvs.map (fun c => (c.cname, LoadedVar.one c.values)) := by
      rw [List.filter_append]
      rw [show ([("Epoch", LoadedVar.one
          ((index.map (fun n => SVal.sInt (nsToMs n))).map (fun s =>
            match s with
            | SVal.sInt n => SVal.sInt (msToNs n)
            | x => x)))].filter (fun p => p.1 ≠ "Epoch"))
        = [] from by simp]
      rw [List.append_nil, List.filter_eq_self.mpr (by
        intro q hq
        obtain ⟨y, hy, rfl⟩ := List.mem_map.mp hq
        obtain ⟨c, hc, rfl⟩ := List.mem_map.mp hy
        simpa using hnameE c hc)]
      rw [List.map_map]
      exact List.map_congr_left (fun c _ => rfl)
    have hlook : alookup ((cvs.map (fun c => (c.cname,
        fanExpandRec (enrichRec "Epoch" c), c.values))).map
          (fun x => (x.1, LoadedVar.one x.2.2))
        ++ [("Epoch", LoadedVar.one
          ((index.map (fun n => SVal.sInt (nsToMs n))).map (fun s =>
            match s with
            | SVal.sInt n => SVal.sInt (msToNs n)
            | x => x)))]) "Epoch"
        = some (LoadedVar.one
          ((index.map (fun n => SVal.sInt (nsToMs n))).map (fun s =>
            match s with
            | SVal.sInt n => SVal.sInt (msToNs n)
            | x => x))) := by
      rw [alookup_append_right hmemE, alookup, if_pos rfl]
    unfold combineFiles
    simp only [hlook, hfilter, List.foldl_nil, List.foldl_cons]
    rw [epoch_index_roundtrip index hms]
    rfl
  -- assemble the whole load
  simp only [load_netcdf_pandas, List.foldlM_cons, List.foldlM_nil, hone,
    except_bind_ok, pure_bind, Bool.false_eq_true, if_false,
    List.nil_append]
  rw [dropMeta_nil]
  simp only [hremove, except_bind_ok]
  rw [show (Option.getD (none : Option (List (String × String)))
    default_from_netcdf_translation_table)
    = default_from_netcdf_translation_table from rfl]
  simp only [htransload, except_bind_ok]
  simp only [hcomb]
  rw [hexp]
  rfl

/-- C1 (counterexample): the round-trip is not the identity on three
documented-clean inputs.  A 1 ns index reads back as 0 (sub-millisecond
truncation); a datetime data variable's caller `units` value `"s"` comes
back as the epoch label string; a higher-order variable's metadata still
holds the `Depend_0` standards label after the read-side removal. -/
theorem C1_roundtrip_counterexample :
    (writeRead exInstSubMs).map (fun r => r.map (fun o => o.dataIndex))
      = some (.ok [0])
    ∧ exInstSubMs.index = [1]
    ∧ (writeRead exInstDt).map (fun r => r.map (fun o =>
        (alookup o.meta "dtv").map (fun r2 => alookup r2 "units")))
      = some (.ok (some (some (.v (.scalar (.sStr epochLabel))))))
    ∧ alookup exInstDt.meta "dtv" = some [("units", .scalar (.sStr "s"))]
    ∧ epochLabel ≠ "s"
    ∧ (writeRead exInstHO).map (fun r => r.map (fun o =>
        (alookup o.meta "prof").map (fun r2 => amem r2 "Depend_0")))
      = some (.ok (some true)) :=
  ⟨rfl, rfl, rfl, rfl, by decide, rfl⟩

/-- C1: for clean scalar variable sets (distinct lowercase non-epoch names,
supported types, well-typed data and metadata values, no standards or
reserved fill labels, no NaN/None values, fill/min/max matching the declared
type) over a nonempty whole-millisecond index, write-then-read returns the
same data columns and index, metadata equal to the caller records plus the
basic epoch record, and no warnings: the standards overlay and the
translation-table relabeling are undone. -/
theorem C1_roundtrip (cvs : List CleanVar) (index : List Int)
    (hok : ∀ c ∈ cvs, CleanVarOK c)
    (hnd : (cvs.map CleanVar.cname).Nodup)
    (hne : index ≠ [])
    (hms : ∀ n ∈ index, (1000000 : Int) ∣ n) :
    writeRead (mkCleanInst cvs index)
      = some (.ok ⟨cvs.map (fun c => (c.cname, LoadedVar.one c.values)),
                   index,
                   ("Epoch", epochReadRec "Epoch")
                     :: cvs.map (fun c => (c.cname, wrapRec c.crec)),
                   []⟩) := by
  unfold writeRead
  rw [write_clean cvs index hok hnd hne]
  simp only [writtenFile, Option.map_some']
  rw [read_clean cvs index hok hnd hms]

/-- Witness for `C1_roundtrip` at a concrete clean variable and index. -/
theorem C1_roundtrip_witness :
    writeRead (mkCleanInst
      [⟨"mlt", .tFloat, [.sFloat (some 1)],
        [("units", .scalar (.sStr "hours")),
         ("fill", .scalar (.sFloat (some 0)))]⟩] [0, 2000000])
      = some (.ok ⟨[("mlt", LoadedVar.one [.sFloat (some 1)])],
                   [0, 2000000],
                   [("Epoch", epochReadRec "Epoch"),
                    ("mlt", wrapRec [("units", .scalar (.sStr "hours")),
                      ("fill", .scalar (.sFloat (some 0)))])],
                   []⟩) :=
  C1_roundtrip
    [⟨"mlt", .tFloat, [.sFloat (some 1)],
      [("units", .scalar (.sStr "hours")),
       ("fill", .scalar (.sFloat (some 0)))]⟩] [0, 2000000]
    (by decide) (by decide) (by decide) (by decide)

end PysatIO
